import Mathlib

/-!
Verification of the `sylr.dev/btree/v2` B-tree (a fork of google/btree with
copy-on-write removed).  The definitions below are a shallow embedding of
`src/btree.go`: Go slices become `List`, in-place mutation becomes explicit
state passing, the node free list becomes an explicit `FreeList` value that is
threaded through every operation that allocates or releases nodes, and the
recursion of `node.insert` / `node.remove` (which in Go recurses through
freshly mutated structures) is driven by an explicit fuel parameter.  Zero
values of the element type are modelled with an `Inhabited` default, and slice
accesses that would panic in Go (all unreachable under the tree invariant)
are modelled with `getD` defaults.  The back pointer `node.t` carries no data
beyond the degree and the pool, both of which are passed explicitly, so it is
dropped, exactly as §9 of the design notes allows.
-/

namespace BGo

variable {α : Type} {σ : Type}

/-- The element contract: a caller supplied strict order given as a Boolean
`Less`.  `lt_trans` and `irrefl` make it a strict order; `nlt_trans` states
that incomparability composes with the order (a strict weak order), which is
what "consistent and transitive across all stored values" requires for binary
search to be meaningful. -/
structure LawfulLess (less : α → α → Bool) : Prop where
  irrefl : ∀ a, less a a = false
  lt_trans : ∀ {a b c}, less a b = true → less b c = true → less a c = true
  nlt_trans : ∀ {a b c}, less a b = false → less b c = false → less a c = false

theorem LawfulLess.asymm {less : α → α → Bool} (h : LawfulLess less) {a b : α}
    (hab : less a b = true) : less b a = false := by
  cases hba : less b a with
  | false => rfl
  | true =>
    have := h.lt_trans hab hba
    rw [h.irrefl] at this
    exact absurd this (by simp)

/-- `a` and `b` are equal under the order: neither is less than the other. -/
def eqv (less : α → α → Bool) (a b : α) : Prop :=
  less a b = false ∧ less b a = false

instance (less : α → α → Bool) (a b : α) : Decidable (eqv less a b) := by
  unfold eqv; infer_instance

theorem LawfulLess.eqv_trans {less : α → α → Bool} (h : LawfulLess less) {a b c : α}
    (hab : eqv less a b) (hbc : eqv less b c) : eqv less a c :=
  ⟨h.nlt_trans hab.1 hbc.1, h.nlt_trans hbc.2 hab.2⟩

theorem LawfulLess.lt_of_lt_of_nlt {less : α → α → Bool} (h : LawfulLess less) {a b c : α}
    (hab : less a b = true) (hcb : less c b = false) : less a c = true := by
  by_contra hac
  have hac' : less a c = false := by revert hac; cases less a c <;> simp
  have := h.nlt_trans hac' hcb
  rw [hab] at this; exact absurd this (by simp)

theorem LawfulLess.lt_of_nlt_of_lt {less : α → α → Bool} (h : LawfulLess less) {a b c : α}
    (hba : less b a = false) (hbc : less b c = true) : less a c = true := by
  by_contra hac
  have hac' : less a c = false := by revert hac; cases less a c <;> simp
  have := h.nlt_trans hba hac'
  rw [hbc] at this; exact absurd this (by simp)

/-! ## Go slice primitives used by `items` (src/btree.go:138-179) -/

/-- `items.insertAt`: insert a value at `index`, pushing subsequent values
forward.  In Go an `index` beyond the length panics; callers always pass
`index ≤ length`. -/
def insertAt (s : List α) (index : Nat) (x : α) : List α :=
  s.take index ++ x :: s.drop index

/-- `items.removeAt`: remove the value at `index`, pulling subsequent values
back (the returned value is read separately with `getD`). -/
def removeAt (s : List α) (index : Nat) : List α :=
  s.take index ++ s.drop (index + 1)

@[simp] theorem insertAt_nil (i : Nat) (x : α) : insertAt [] i x = [x] := by
  simp [insertAt]

@[simp] theorem length_insertAt (s : List α) (i : Nat) (x : α) (h : i ≤ s.length) :
    (insertAt s i x).length = s.length + 1 := by
  simp [insertAt]; omega

theorem length_removeAt (s : List α) (i : Nat) (h : i < s.length) :
    (removeAt s i).length = s.length - 1 := by
  simp [removeAt]; omega

/-! ## `sort.Search` (Go standard library) and `items.find`
(src/btree.go:184-192) -/

/-- The loop of Go's `sort.Search`: binary search for the least index in
`[i, j)` satisfying `f`, returning `j` if none does (under monotonicity). -/
def searchLoop (f : Nat → Bool) (i j : Nat) : Nat :=
  if _h : i < j then
    if f ((i + j) / 2) then searchLoop f i ((i + j) / 2)
    else searchLoop f ((i + j) / 2 + 1) j
  else i
termination_by j - i
decreasing_by
  · omega
  · omega

/-- `sort.Search(n, f)` from the Go standard library. -/
def sortSearch (n : Nat) (f : Nat → Bool) : Nat :=
  searchLoop f 0 n

/-- The `sort.Search` call inside `items.find`. -/
def searchIdx (less : α → α → Bool) [Inhabited α] (s : List α) (item : α) : Nat :=
  sortSearch s.length (fun i => less item (s.getD i default))

/-- `items.find`: the index where `item` should be inserted into the list;
`found` reports that an equal item already sits at the returned index. -/
def find (less : α → α → Bool) [Inhabited α] (s : List α) (item : α) : Nat × Bool :=
  if searchIdx less s item > 0 &&
      !(less (s.getD (searchIdx less s item - 1) default) item) then
    (searchIdx less s item - 1, true)
  else
    (searchIdx less s item, false)

/-! ## Nodes (src/btree.go:204-213) -/

/-- A node: an ordered list of items plus a (possibly empty) list of children.
The Go `t *BTree[T]` back pointer is dropped; degree and pool are passed
explicitly where needed. -/
inductive Node (α : Type) : Type where
  | mk : List α → List (Node α) → Node α

instance : Inhabited (Node α) := ⟨.mk [] []⟩

def Node.items : Node α → List α
  | .mk is _ => is

def Node.children : Node α → List (Node α)
  | .mk _ cs => cs

@[simp] theorem Node.items_mk (is : List α) (cs : List (Node α)) :
    (Node.mk is cs).items = is := rfl

@[simp] theorem Node.children_mk (is : List α) (cs : List (Node α)) :
    (Node.mk is cs).children = cs := rfl

@[simp] theorem Node.mk_items_children (n : Node α) : Node.mk n.items n.children = n := by
  cases n; rfl

/-- Height of a node: 0 for a leaf, one more than the maximum child height
otherwise. -/
def Node.height : Node α → Nat
  | .mk _ cs => (cs.attach.map (fun c => Node.height c.1)).foldr max 0 +
      (if cs.isEmpty then 0 else 1)
decreasing_by
  have := List.sizeOf_lt_of_mem c.2
  cases c; simp at *; omega

theorem Node.height_mk (is : List α) (cs : List (Node α)) :
    Node.height (.mk is cs) =
      (cs.map Node.height).foldr max 0 + (if cs.isEmpty then 0 else 1) := by
  rw [Node.height]
  congr 1
  · congr 1
    simp [List.map_attach]


@[simp] theorem Node.height_leaf (is : List α) : Node.height (.mk is []) = 0 := by
  rw [Node.height_mk]; rfl

theorem Node.height_pos_of_child (n : Node α) (h : n.children ≠ []) :
    0 < n.height := by
  cases n with
  | mk is cs =>
    rw [Node.height_mk]
    simp at h
    simp [h, List.isEmpty_iff]

theorem mem_le_foldr_max (l : List Nat) (x : Nat) (hx : x ∈ l) : x ≤ l.foldr max 0 := by
  induction l with
  | nil => simp at hx
  | cons a as ih =>
    rcases List.mem_cons.mp hx with h | h
    · subst h; exact le_max_left _ _
    · exact le_trans (ih h) (le_max_right _ _)

theorem Node.height_child_lt (n : Node α) (c : Node α) (hc : c ∈ n.children) :
    c.height < n.height := by
  cases n with
  | mk is cs =>
    simp at hc
    rw [Node.height_mk]
    have h1 : c.height ≤ (cs.map Node.height).foldr max 0 :=
      mem_le_foldr_max _ _ (List.mem_map_of_mem _ hc)
    have : cs ≠ [] := by rintro rfl; simp at hc
    simp [this, List.isEmpty_iff]
    omega

/-- In-order contents of a node: children interleaved with items
(`C₀ x₀ C₁ x₁ … x_{k-1} C_k`).  This is the specification-side view that all
functional lemmas are stated against. -/
def interleave : List (List α) → List α → List α
  | [], _ => []
  | l :: _, [] => l
  | l :: ls, x :: xs => l ++ x :: interleave ls xs

def Node.toList : Node α → List α
  | .mk is cs =>
    if cs.isEmpty then is
    else interleave (cs.attach.map (fun c => Node.toList c.1)) is
decreasing_by
  have := List.sizeOf_lt_of_mem c.2
  cases c; simp at *; omega

theorem Node.toList_mk (is : List α) (cs : List (Node α)) :
    Node.toList (.mk is cs) =
      if cs.isEmpty then is else interleave (cs.map Node.toList) is := by
  rw [Node.toList]
  congr 1
  simp [List.map_attach]

@[simp] theorem Node.toList_leaf (is : List α) : Node.toList (.mk is []) = is := by
  rw [Node.toList_mk]; rfl

theorem Node.toList_inner (is : List α) (cs : List (Node α)) (h : cs ≠ []) :
    Node.toList (.mk is cs) = interleave (cs.map Node.toList) is := by
  rw [Node.toList_mk]
  simp [h, List.isEmpty_iff]

theorem Node.sizeOf_child_lt [SizeOf α] (n : Node α) (c : Node α) (hc : c ∈ n.children) :
    sizeOf c < sizeOf n := by
  cases n with
  | mk is cs =>
    have := List.sizeOf_lt_of_mem hc
    simp at this ⊢
    omega

theorem Node.sizeOf_getD_lt (n : Node α) (i : Nat) (h : i < n.children.length) :
    sizeOf (n.children.getD i default) < sizeOf n := by
  apply Node.sizeOf_child_lt
  rw [List.getD_eq_getElem _ _ h]
  exact List.getElem_mem h

/-! ## The node free list (src/btree.go:74-107).
The Go slice capacity is the fixed `cap` recorded at construction time;
`newNode` pops the last shell or allocates a fresh empty node, `freeNode`
pushes the shell back while under capacity. -/

def DefaultFreeListSize : Nat := 32

structure FreeList (α : Type) where
  cap : Nat
  freelist : List (Node α)

def NewFreeList (size : Nat) : FreeList α := ⟨size, []⟩

def FreeList.newNode (f : FreeList α) : Node α × FreeList α :=
  if f.freelist.isEmpty then (.mk [] [], f)
  else (f.freelist.getLastD (.mk [] []), ⟨f.cap, f.freelist.dropLast⟩)

def FreeList.freeNode (f : FreeList α) (n : Node α) : Bool × FreeList α :=
  if f.freelist.length < f.cap then (true, ⟨f.cap, f.freelist ++ [n]⟩)
  else (false, f)

/-- Every shell parked on the free list is an empty node.  `BTree.freeNode`
truncates items and children before releasing a node, so this holds for every
pool the tree ever produces, and it makes recycling observationally identical
to fresh allocation. -/
def PoolEmpty (p : FreeList α) : Prop :=
  ∀ sh ∈ p.freelist, sh = Node.mk [] []

theorem getLastD_mem_of_ne_nil {β : Type} (l : List β) (d : β) (h : l ≠ []) :
    l.getLastD d ∈ l := by
  induction l with
  | nil => simp at h
  | cons a as ih =>
    cases as with
    | nil => simp
    | cons b bs =>
      have := ih (by simp)
      simp only [List.getLastD_cons] at this ⊢
      exact List.mem_cons_of_mem _ this

theorem PoolEmpty.newNode (p : FreeList α) (h : PoolEmpty p) :
    (p.newNode).1 = Node.mk [] [] ∧ PoolEmpty (p.newNode).2 := by
  unfold FreeList.newNode
  by_cases he : p.freelist.isEmpty
  · simp [he, h]
  · simp [he]
    constructor
    · rw [← List.getLastD_eq_getLast?]
      exact h _ (getLastD_mem_of_ne_nil _ _ (by simpa [List.isEmpty_iff] using he))
    · intro sh hsh
      exact h sh (List.dropLast_subset _ hsh)

theorem PoolEmpty.freeNode (p : FreeList α) (h : PoolEmpty p) :
    PoolEmpty (p.freeNode (.mk [] [])).2 := by
  unfold FreeList.freeNode
  by_cases hlt : p.freelist.length < p.cap <;> simp [hlt]
  · intro sh hsh
    rcases List.mem_append.mp hsh with h' | h'
    · exact h sh h'
    · simpa using h'
  · exact h

/-! ## Splitting (src/btree.go:239-262) -/

structure SplitResult (α : Type) where
  item : α
  node : Node α
  next : Node α
  pool : FreeList α

/-- `node.split(i)`: the node keeps items `[0,i)` and children `[0,i+1)`, the
item at `i` is returned, and a node drawn from the pool receives everything
after it.  (When the node is a leaf the Go guard around the children transfer
is a no-op, so it is folded into the unconditional form.) -/
def Node.split [Inhabited α] (n : Node α) (i : Nat) (p : FreeList α) : SplitResult α :=
  let item := n.items.getD i default
  let (shell, p1) := p.newNode
  let next : Node α := .mk (shell.items ++ n.items.drop (i + 1))
      (shell.children ++ n.children.drop (i + 1))
  ⟨item, .mk (n.items.take i) (n.children.take (i + 1)), next, p1⟩

/-- `node.maybeSplitChild(i, maxItems)` (src/btree.go:253-262). -/
def Node.maybeSplitChild [Inhabited α] (n : Node α) (i maxItems : Nat) (p : FreeList α) :
    Bool × Node α × FreeList α :=
  if _h : i < n.children.length then
    let first := n.children.getD i default
    if first.items.length < maxItems then (false, n, p)
    else
      let r := first.split (maxItems / 2) p
      (true,
        .mk (insertAt n.items i r.item) (insertAt (n.children.set i r.node) (i + 1) r.next),
        r.pool)
  else (false, n, p)

/-! ## Insertion (src/btree.go:267-292).
Mutation of the receiver becomes an explicit result node; the recursion
through the freshly split child is driven by fuel (any fuel above the node
height gives the Go behaviour). -/

structure MutRes (α : Type) where
  node : Node α
  out : α
  outb : Bool
  pool : FreeList α

def Node.insert (less : α → α → Bool) [Inhabited α] :
    Nat → α → Nat → Node α → FreeList α → MutRes α
  | 0, _, _, n, p => ⟨n, default, false, p⟩
  | fuel + 1, item, maxItems, n, p =>
    let (i, found) := find less n.items item
    if found then
      let out := n.items.getD i default
      ⟨.mk (n.items.set i item) n.children, out, true, p⟩
    else if n.children.isEmpty then
      ⟨.mk (insertAt n.items i item) n.children, default, false, p⟩
    else
      let (didSplit, n1, p1) := n.maybeSplitChild i maxItems p
      let step : Nat ⊕ (Node α × α) :=
        if didSplit then
          let inTree := n1.items.getD i default
          if less item inTree then .inl i
          else if less inTree item then .inl (i + 1)
          else .inr (.mk (n1.items.set i item) n1.children, inTree)
        else .inl i
      match step with
      | .inr (n2, out) => ⟨n2, out, true, p1⟩
      | .inl j =>
        if _hj : j < n1.children.length then
          let r := Node.insert less fuel item maxItems (n1.children.getD j default) p1
          ⟨.mk n1.items (n1.children.set j r.node), r.out, r.outb, r.pool⟩
        else ⟨n1, default, false, p1⟩

/-! ## Deletion (src/btree.go:333-451) -/

inductive ToRemove where
  | removeItem
  | removeMin
  | removeMax
deriving DecidableEq

/-- The restructuring part of `node.growChildAndRemove`
(src/btree.go:416-449): steal from the left sibling, else from the right
sibling, else merge with the right sibling (releasing the emptied sibling,
truncated, to the pool).  The trailing retry of `remove` is performed by the
caller. -/
def Node.growChild [Inhabited α] (n : Node α) (i minItems : Nat) (p : FreeList α) :
    Node α × FreeList α :=
  if i > 0 && (n.children.getD (i - 1) default).items.length > minItems then
    -- steal from left child
    let child := n.children.getD i default
    let stealFrom := n.children.getD (i - 1) default
    let stolenItem := stealFrom.items.getLastD default
    let stealFrom1 : Node α := .mk stealFrom.items.dropLast stealFrom.children
    let child1 : Node α := .mk (insertAt child.items 0 (n.items.getD (i - 1) default)) child.children
    let items1 := n.items.set (i - 1) stolenItem
    let (child2, stealFrom2) :=
      if stealFrom1.children.isEmpty then (child1, stealFrom1)
      else ((Node.mk child1.items
              (insertAt child1.children 0 (stealFrom1.children.getLastD default)) : Node α),
            (Node.mk stealFrom1.items stealFrom1.children.dropLast : Node α))
    (.mk items1 ((n.children.set i child2).set (i - 1) stealFrom2), p)
  else if i < n.items.length && (n.children.getD (i + 1) default).items.length > minItems then
    -- steal from right child
    let child := n.children.getD i default
    let stealFrom := n.children.getD (i + 1) default
    let stolenItem := stealFrom.items.getD 0 default
    let stealFrom1 : Node α := .mk (removeAt stealFrom.items 0) stealFrom.children
    let child1 : Node α := .mk (child.items ++ [n.items.getD i default]) child.children
    let items1 := n.items.set i stolenItem
    let (child2, stealFrom2) :=
      if stealFrom1.children.isEmpty then (child1, stealFrom1)
      else ((Node.mk child1.items
              (child1.children ++ [stealFrom1.children.getD 0 default]) : Node α),
            (Node.mk stealFrom1.items (removeAt stealFrom1.children 0) : Node α))
    (.mk items1 ((n.children.set i child2).set (i + 1) stealFrom2), p)
  else
    -- merge with right child
    let i := if i ≥ n.items.length then i - 1 else i
    let child := n.children.getD i default
    let mergeItem := n.items.getD i default
    let items1 := removeAt n.items i
    let mergeChild := n.children.getD (i + 1) default
    let children1 := removeAt n.children (i + 1)
    let child1 : Node α := .mk (child.items ++ mergeItem :: mergeChild.items)
        (child.children ++ mergeChild.children)
    -- t.freeNode(mergeChild) truncates the shell before releasing it
    let p1 := (p.freeNode (.mk [] [])).2
    (.mk items1 (children1.set i child1), p1)

mutual

/-- `node.remove` (src/btree.go:343-390).  Stateful mutation becomes the
returned node, and the Go recursion (which re-enters the same node after
growing a child) is driven by fuel; `2 * height + 2` fuel suffices under the
tree invariant. -/
def Node.remove (less : α → α → Bool) [Inhabited α] :
    Nat → α → Nat → ToRemove → Node α → FreeList α → MutRes α
  | 0, _, _, _, n, p => ⟨n, default, false, p⟩
  | fuel + 1, item, minItems, typ, n, p =>
    let step : (Nat × Bool) ⊕ MutRes α :=
      match typ with
      | .removeMax =>
        if n.children.isEmpty then
          .inr ⟨.mk n.items.dropLast n.children, n.items.getLastD default, true, p⟩
        else .inl (n.items.length, false)
      | .removeMin =>
        if n.children.isEmpty then
          .inr ⟨.mk (removeAt n.items 0) n.children, n.items.getD 0 default, true, p⟩
        else .inl (0, false)
      | .removeItem =>
        let (i, found) := find less n.items item
        if n.children.isEmpty then
          if found then
            .inr ⟨.mk (removeAt n.items i) n.children, n.items.getD i default, true, p⟩
          else .inr ⟨n, default, false, p⟩
        else .inl (i, found)
    match step with
    | .inr r => r
    | .inl (i, found) =>
      if _hi : i < n.children.length then
        if (n.children.getD i default).items.length ≤ minItems then
          Node.growChildAndRemove less fuel i item minItems typ n p
        else
          let child := n.children.getD i default
          if found then
            -- replace the item with its in-order predecessor pulled from the
            -- left child
            let out := n.items.getD i default
            let r := Node.remove less fuel default minItems .removeMax child p
            ⟨.mk (n.items.set i r.out) (n.children.set i r.node), out, true, r.pool⟩
          else
            let r := Node.remove less fuel item minItems typ child p
            ⟨.mk n.items (n.children.set i r.node), r.out, r.outb, r.pool⟩
      else ⟨n, default, false, p⟩

/-- `node.growChildAndRemove` (src/btree.go:416-451): grow child `i`, then
redo the removal. -/
def Node.growChildAndRemove (less : α → α → Bool) [Inhabited α]
    (fuel : Nat) (i : Nat) (item : α) (minItems : Nat) (typ : ToRemove)
    (n : Node α) (p : FreeList α) : MutRes α :=
  let (n1, p1) := n.growChild i minItems p
  Node.remove less fuel item minItems typ n1 p1

end

/-! ## The tree (src/btree.go:571-594, 630-686, 760-813) -/

structure BTree (α : Type) where
  degree : Nat
  length : Int
  root : Option (Node α)
  freelist : FreeList α

/-- `New(degree)`; constructing with `degree ≤ 1` panics ("bad degree"), so
theorems carry `2 ≤ degree`. -/
def New (degree : Nat) : BTree α :=
  ⟨degree, 0, none, NewFreeList DefaultFreeListSize⟩

def NewWithFreeList (degree : Nat) (f : FreeList α) : BTree α :=
  ⟨degree, 0, none, f⟩

def BTree.maxItems (t : BTree α) : Nat := t.degree * 2 - 1

def BTree.minItems (t : BTree α) : Nat := t.degree - 1

/-- `BTree.ReplaceOrInsert` (src/btree.go:630-650). -/
def BTree.ReplaceOrInsert (less : α → α → Bool) [Inhabited α] (t : BTree α) (item : α) :
    BTree α × α × Bool :=
  match t.root with
  | none =>
    let (shell, p1) := t.freelist.newNode
    let root : Node α := .mk (shell.items ++ [item]) shell.children
    ({ t with root := some root, length := t.length + 1, freelist := p1 }, default, false)
  | some root0 =>
    let (root1, p1) :=
      if root0.items.length ≥ t.maxItems then
        let r := root0.split (t.maxItems / 2) t.freelist
        let (shell, p2) := r.pool.newNode
        ((Node.mk (shell.items ++ [r.item]) (shell.children ++ [r.node, r.next]) : Node α), p2)
      else (root0, t.freelist)
    let r := Node.insert less (root1.height + 1) item t.maxItems root1 p1
    ({ t with
        root := some r.node
        length := if r.outb then t.length else t.length + 1
        freelist := r.pool }, r.out, r.outb)

/-- `BTree.deleteItem` (src/btree.go:672-686). -/
def BTree.deleteItem (less : α → α → Bool) [Inhabited α] (t : BTree α) (item : α)
    (typ : ToRemove) : BTree α × α × Bool :=
  match t.root with
  | none => (t, default, false)
  | some root0 =>
    if root0.items.length = 0 then (t, default, false)
    else
      let r := Node.remove less (2 * root0.height + 2) item t.minItems typ root0 t.freelist
      let (root1, p1) :=
        if r.node.items.length = 0 && !r.node.children.isEmpty then
          -- promote the only child; free the truncated old root
          (some (r.node.children.getD 0 default), (r.pool.freeNode (.mk [] [])).2)
        else (some r.node, r.pool)
      ({ t with
          root := root1
          length := if r.outb then t.length - 1 else t.length
          freelist := p1 }, r.out, r.outb)

def BTree.Delete (less : α → α → Bool) [Inhabited α] (t : BTree α) (item : α) :
    BTree α × α × Bool :=
  t.deleteItem less item .removeItem

def BTree.DeleteMin (less : α → α → Bool) [Inhabited α] (t : BTree α) :
    BTree α × α × Bool :=
  t.deleteItem less default .removeMin

def BTree.DeleteMax (less : α → α → Bool) [Inhabited α] (t : BTree α) :
    BTree α × α × Bool :=
  t.deleteItem less default .removeMax

/-! ## The range-iteration engine (src/btree.go:453-552).
The Go `ItemIterator` closure becomes a state-threading visitor
`iter : σ → α → σ × Bool`; `node.iterate` returns the final state together
with the `(hit, ok)` pair the Go function returns.  The descending loop index
is an `Int`, exactly as in Go, since it starts at `index-1 = -1` when the
start bound precedes everything. -/

inductive Direction where
  | asc
  | desc
deriving DecidableEq

mutual

def Node.iterate (less : α → α → Bool) [Inhabited α]
    (dir : Direction) (start stop : Option α) (includeStart : Bool)
    (iter : σ → α → σ × Bool) (n : Node α) (hit : Bool) (s : σ) : σ × Bool × Bool :=
  match dir with
  | .asc =>
    let index := match start with
      | some st => (find less n.items st).1
      | none => 0
    let stopIndex := match stop with
      | some sp => (find less n.items sp).1
      | none => n.items.length
    let r1 := loopAsc less start stop includeStart iter n stopIndex index hit s
    if !r1.2.2 then (r1.1, r1.2.1, false)
    else if n.children.isEmpty then (r1.1, r1.2.1, true)
    else if _h : stopIndex < n.children.length then
      Node.iterate less .asc start stop includeStart iter (n.children.getD stopIndex default)
        r1.2.1 r1.1
    else (r1.1, r1.2.1, true)
  | .desc =>
    let index : Int := match start with
      | some st =>
        let f := find less n.items st
        if !f.2 then (f.1 : Int) - 1 else (f.1 : Int)
      | none => (n.items.length : Int) - 1
    let stopIndex : Nat := match stop with
      | some sp =>
        let f := find less n.items sp
        if f.2 then f.1 + 1 else f.1
      | none => 0
    let r1 := loopDesc less start stop includeStart iter n stopIndex index hit s
    if !r1.2.2 then (r1.1, r1.2.1, false)
    else if n.children.isEmpty then (r1.1, r1.2.1, true)
    else if _h : stopIndex < n.children.length then
      Node.iterate less .desc start stop includeStart iter (n.children.getD stopIndex default)
        r1.2.1 r1.1
    else (r1.1, r1.2.1, true)
termination_by (sizeOf n, 1, 0)
decreasing_by
  · apply Prod.Lex.right
    exact Prod.Lex.left _ _ (by omega)
  · exact Prod.Lex.left _ _ (Node.sizeOf_getD_lt _ _ (by assumption))
  · apply Prod.Lex.right
    exact Prod.Lex.left _ _ (by omega)
  · exact Prod.Lex.left _ _ (Node.sizeOf_getD_lt _ _ (by assumption))

/-- The ascending `for` loop of `node.iterate` (src/btree.go:492-506). -/
def loopAsc (less : α → α → Bool) [Inhabited α]
    (start stop : Option α) (includeStart : Bool) (iter : σ → α → σ × Bool)
    (n : Node α) (stopIndex i : Nat) (hit : Bool) (s : σ) : σ × Bool × Bool :=
  if _hlt : i < stopIndex then
    let r1 :=
      if n.children.isEmpty then (s, hit, true)
      else if _h : i < n.children.length then
        Node.iterate less .asc start stop includeStart iter (n.children.getD i default) hit s
      else (s, hit, true)
    if !r1.2.2 then (r1.1, r1.2.1, false)
    else
      let x := n.items.getD i default
      if !includeStart && !r1.2.1 && start.isSome && !(less (start.getD default) x) then
        loopAsc less start stop includeStart iter n stopIndex (i + 1) true r1.1
      else
        let v := iter r1.1 x
        if !v.2 then (v.1, true, false)
        else loopAsc less start stop includeStart iter n stopIndex (i + 1) true v.1
  else (s, hit, true)
termination_by (sizeOf n, 0, stopIndex - i)
decreasing_by
  · exact Prod.Lex.left _ _ (Node.sizeOf_getD_lt _ _ (by assumption))
  · apply Prod.Lex.right
    apply Prod.Lex.right
    omega
  · apply Prod.Lex.right
    apply Prod.Lex.right
    omega

/-- The descending `for` loop of `node.iterate` (src/btree.go:529-544). -/
def loopDesc (less : α → α → Bool) [Inhabited α]
    (start stop : Option α) (includeStart : Bool) (iter : σ → α → σ × Bool)
    (n : Node α) (stopIndex : Nat) (i : Int) (hit : Bool) (s : σ) : σ × Bool × Bool :=
  if _hge : (stopIndex : Int) ≤ i then
    let x := n.items.getD i.toNat default
    let skip : Bool := match start with
      | some st => !(less x st) && (!includeStart || hit || less st x)
      | none => false
    if skip then
      loopDesc less start stop includeStart iter n stopIndex (i - 1) hit s
    else
      let r1 :=
        if n.children.isEmpty then (s, hit, true)
        else if _h : (i + 1).toNat < n.children.length then
          Node.iterate less .desc start stop includeStart iter
            (n.children.getD ((i + 1).toNat) default) hit s
        else (s, hit, true)
      if !r1.2.2 then (r1.1, r1.2.1, false)
      else
        let v := iter r1.1 x
        if !v.2 then (v.1, true, false)
        else loopDesc less start stop includeStart iter n stopIndex (i - 1) true v.1
  else (s, hit, true)
termination_by (sizeOf n, 0, (i + 1 - stopIndex).toNat)
decreasing_by
  · apply Prod.Lex.right
    apply Prod.Lex.right
    omega
  · exact Prod.Lex.left _ _ (Node.sizeOf_getD_lt _ _ (by assumption))
  · apply Prod.Lex.right
    apply Prod.Lex.right
    omega

end

/-! ## Public traversal entry points (src/btree.go:690-758).
Each returns the final visitor state; in Go the visitor's effects are the
only observable result. -/

def BTree.AscendRange (less : α → α → Bool) [Inhabited α] (t : BTree α)
    (greaterOrEqual lessThan : α) (iter : σ → α → σ × Bool) (s : σ) : σ :=
  match t.root with
  | none => s
  | some r =>
    (Node.iterate less .asc (some greaterOrEqual) (some lessThan) true iter r false s).1

def BTree.AscendLessThan (less : α → α → Bool) [Inhabited α] (t : BTree α)
    (pivot : α) (iter : σ → α → σ × Bool) (s : σ) : σ :=
  match t.root with
  | none => s
  | some r => (Node.iterate less .asc none (some pivot) false iter r false s).1

def BTree.AscendGreaterOrEqual (less : α → α → Bool) [Inhabited α] (t : BTree α)
    (pivot : α) (iter : σ → α → σ × Bool) (s : σ) : σ :=
  match t.root with
  | none => s
  | some r => (Node.iterate less .asc (some pivot) none true iter r false s).1

def BTree.Ascend (less : α → α → Bool) [Inhabited α] (t : BTree α)
    (iter : σ → α → σ × Bool) (s : σ) : σ :=
  match t.root with
  | none => s
  | some r => (Node.iterate less .asc none none false iter r false s).1

def BTree.DescendRange (less : α → α → Bool) [Inhabited α] (t : BTree α)
    (lessOrEqual greaterThan : α) (iter : σ → α → σ × Bool) (s : σ) : σ :=
  match t.root with
  | none => s
  | some r =>
    (Node.iterate less .desc (some lessOrEqual) (some greaterThan) true iter r false s).1

def BTree.DescendLessOrEqual (less : α → α → Bool) [Inhabited α] (t : BTree α)
    (pivot : α) (iter : σ → α → σ × Bool) (s : σ) : σ :=
  match t.root with
  | none => s
  | some r => (Node.iterate less .desc (some pivot) none true iter r false s).1

def BTree.DescendGreaterThan (less : α → α → Bool) [Inhabited α] (t : BTree α)
    (pivot : α) (iter : σ → α → σ × Bool) (s : σ) : σ :=
  match t.root with
  | none => s
  | some r => (Node.iterate less .desc none (some pivot) false iter r false s).1

def BTree.Descend (less : α → α → Bool) [Inhabited α] (t : BTree α)
    (iter : σ → α → σ × Bool) (s : σ) : σ :=
  match t.root with
  | none => s
  | some r => (Node.iterate less .desc none none false iter r false s).1

/-- The collecting visitor: record every visited element, never stop. -/
def collect : List α → α → List α × Bool := fun s a => (s ++ [a], true)

def BTree.ascendList (less : α → α → Bool) [Inhabited α] (t : BTree α) : List α :=
  t.Ascend less collect []

def BTree.descendList (less : α → α → Bool) [Inhabited α] (t : BTree α) : List α :=
  t.Descend less collect []

def BTree.ascendRangeList (less : α → α → Bool) [Inhabited α] (t : BTree α)
    (greaterOrEqual lessThan : α) : List α :=
  t.AscendRange less greaterOrEqual lessThan collect []

def BTree.descendRangeList (less : α → α → Bool) [Inhabited α] (t : BTree α)
    (lessOrEqual greaterThan : α) : List α :=
  t.DescendRange less lessOrEqual greaterThan collect []

/-! ## Point queries (src/btree.go:294-331, 760-788) -/

/-- `node.get` (src/btree.go:295-303). -/
def Node.get (less : α → α → Bool) [Inhabited α] (n : Node α) (key : α) : α × Bool :=
  let f := find less n.items key
  if f.2 then (n.items.getD f.1 default, true)
  else if n.children.isEmpty then (default, false)
  else if _h : f.1 < n.children.length then
    Node.get less (n.children.getD f.1 default) key
  else (default, false)
termination_by sizeOf n
decreasing_by
  exact Node.sizeOf_getD_lt _ _ (by assumption)

/-- `min` (src/btree.go:306-317). -/
def Node.minGo [Inhabited α] : Node α → α × Bool
  | .mk is [] => if is.isEmpty then (default, false) else (is.getD 0 default, true)
  | .mk _ (c :: _) => Node.minGo c

/-- `max` (src/btree.go:320-331). -/
def Node.maxGo [Inhabited α] : Node α → α × Bool
  | .mk is [] => if is.isEmpty then (default, false) else (is.getLastD default, true)
  | .mk _ (c :: cs) => Node.maxGo ((c :: cs).getLast (by simp))
decreasing_by
  rename_i c cs
  exact Node.sizeOf_child_lt (.mk _ (c :: cs)) _ (List.getLast_mem _)

def BTree.Get (less : α → α → Bool) [Inhabited α] (t : BTree α) (key : α) : α × Bool :=
  match t.root with
  | none => (default, false)
  | some r => r.get less key

def BTree.Min [Inhabited α] (t : BTree α) : α × Bool :=
  match t.root with
  | none => (default, false)
  | some r => r.minGo

def BTree.Max [Inhabited α] (t : BTree α) : α × Bool :=
  match t.root with
  | none => (default, false)
  | some r => r.maxGo

def BTree.Has (less : α → α → Bool) [Inhabited α] (t : BTree α) (key : α) : Bool :=
  (t.Get less key).2

def BTree.Len (t : BTree α) : Int := t.length

/-- `BTree.Clear` (src/btree.go:811-813): `t.root, t.length = nil, 0` — the
`addNodesToFreelist` argument is accepted and ignored; no node is ever
released to the free list. -/
def BTree.Clear (t : BTree α) (_addNodesToFreelist : Bool) : BTree α :=
  { t with root := none, length := 0 }

/-! ## Deep copy (src/btree.go:219-234, 586-594).
The stored elements are copied through the caller-supplied `DeepCopy` of the
element contract, modelled as a function `dcItem`; the `node.t` back pointers
that `setBTreeRootRecursive` rewires are not part of the pure model. -/

def Node.deepCopy (dcItem : α → α) : Node α → Node α
  | .mk is cs => .mk (is.map dcItem) (cs.attach.map fun c => Node.deepCopy dcItem c.1)
decreasing_by
  have := List.sizeOf_lt_of_mem c.2
  cases c; simp at *; omega

/-- `BTree.DeepCopy` (src/btree.go:586-594): a fresh tree (`New(t.degree)`,
hence a brand-new empty free list) whose root is a recursive copy of the
source root; a nil source root still yields a fresh empty node. -/
def BTree.DeepCopy (dcItem : α → α) (t : BTree α) : BTree α :=
  { degree := t.degree
    length := t.length
    root := some (match t.root with
      | none => .mk [] []
      | some r => r.deepCopy dcItem)
    freelist := NewFreeList DefaultFreeListSize }

/-! ## Operation sequences: reachable trees and the length tally -/

inductive Op (α : Type) where
  | insOp (x : α)
  | delOp (x : α)
  | delMinOp
  | delMaxOp

/-- Run one public mutation; return the new tree and the Boolean the
operation reported (`hadPrev` for an insert, `found` for a delete). -/
def applyOp (less : α → α → Bool) [Inhabited α] (t : BTree α) : Op α → BTree α × Bool
  | .insOp x => let r := t.ReplaceOrInsert less x; (r.1, r.2.2)
  | .delOp x => let r := t.Delete less x; (r.1, r.2.2)
  | .delMinOp => let r := t.DeleteMin less; (r.1, r.2.2)
  | .delMaxOp => let r := t.DeleteMax less; (r.1, r.2.2)

/-- Run a sequence of mutations, tallying the inserts that returned
`hadPrev = false` and the deletes that returned `found = true`. -/
def runOps (less : α → α → Bool) [Inhabited α] :
    BTree α → List (Op α) → BTree α × Int × Int
  | t, [] => (t, 0, 0)
  | t, op :: ops =>
    let (t1, b) := applyOp less t op
    let (t2, ins, dels) := runOps less t1 ops
    match op with
    | .insOp _ => (t2, ins + (if b then 0 else 1), dels)
    | _ => (t2, ins, dels + (if b then 1 else 0))

/-- The trees reachable from a fresh tree by the public mutations. -/
inductive Reachable (less : α → α → Bool) [Inhabited α] (degree : Nat) : BTree α → Prop where
  | fresh : Reachable less degree (New degree)
  | ins (t : BTree α) (x : α) : Reachable less degree t →
      Reachable less degree (t.ReplaceOrInsert less x).1
  | del (t : BTree α) (x : α) : Reachable less degree t →
      Reachable less degree (t.Delete less x).1
  | delMin (t : BTree α) : Reachable less degree t →
      Reachable less degree (t.DeleteMin less).1
  | delMax (t : BTree α) : Reachable less degree t →
      Reachable less degree (t.DeleteMax less).1

/-! ## Correctness of `sort.Search` and `items.find` -/

/-- A list is strictly ascending for `less` when every earlier element is
less than every later one. -/
def SortedL (less : α → α → Bool) (l : List α) : Prop :=
  List.Pairwise (fun a b => less a b = true) l

theorem searchLoop_spec (f : Nat → Bool) (n : Nat)
    (hmono : ∀ k k', k ≤ k' → k' < n → f k = true → f k' = true) :
    ∀ d i j, j - i ≤ d → i ≤ j → j ≤ n →
      i ≤ searchLoop f i j ∧ searchLoop f i j ≤ j ∧
      (∀ k, i ≤ k → k < searchLoop f i j → f k = false) ∧
      (searchLoop f i j < j → f (searchLoop f i j) = true) := by
  intro d
  induction d with
  | zero =>
    intro i j h1 h2 _h3
    have hij : ¬ i < j := by omega
    rw [searchLoop, dif_neg hij]
    refine ⟨le_rfl, h2, ?_, ?_⟩
    · intro k hk1 hk2
      exact absurd hk2 (by omega)
    · intro h
      exact absurd h hij
  | succ d ih =>
    intro i j h1 h2 h3
    by_cases hij : i < j
    · have hmj : (i + j) / 2 < j := by omega
      have hmi : i ≤ (i + j) / 2 := by omega
      cases hm : f ((i + j) / 2) with
      | true =>
        rw [searchLoop, dif_pos hij, if_pos hm]
        obtain ⟨p1, p2, p3, p4⟩ := ih i ((i + j) / 2) (by omega) hmi (by omega)
        refine ⟨p1, by omega, p3, ?_⟩
        intro _hlt
        rcases Nat.lt_or_ge (searchLoop f i ((i + j) / 2)) ((i + j) / 2) with h | h
        · exact p4 h
        · have heq : searchLoop f i ((i + j) / 2) = (i + j) / 2 := by omega
          rw [heq]; exact hm
      | false =>
        rw [searchLoop, dif_pos hij, if_neg (by simp [hm])]
        obtain ⟨p1, p2, p3, p4⟩ := ih ((i + j) / 2 + 1) j (by omega) (by omega) h3
        refine ⟨by omega, p2, ?_, p4⟩
        intro k hk1 hk2
        rcases Nat.lt_or_ge k ((i + j) / 2 + 1) with h | h
        · cases hfk : f k with
          | false => rfl
          | true =>
            have := hmono k ((i + j) / 2) (by omega) (by omega) hfk
            rw [hm] at this
            exact absurd this (by simp)
        · exact p3 k h hk2
    · rw [searchLoop, dif_neg hij]
      refine ⟨le_rfl, h2, ?_, ?_⟩
      · intro k hk1 hk2
        exact absurd hk2 (by omega)
      · intro h
        exact absurd h hij

/-- The characterization of `sort.Search(n, f)` for a predicate monotone on
`[0, n)`: the result is the least index satisfying `f`, or `n`. -/
theorem sortSearch_spec (f : Nat → Bool) (n : Nat)
    (hmono : ∀ k k', k ≤ k' → k' < n → f k = true → f k' = true) :
    sortSearch n f ≤ n ∧
    (∀ k, k < sortSearch n f → f k = false) ∧
    (sortSearch n f < n → f (sortSearch n f) = true) := by
  obtain ⟨p1, p2, p3, p4⟩ := searchLoop_spec f n hmono n 0 n (by omega) (by omega) le_rfl
  exact ⟨p2, fun k hk => p3 k (Nat.zero_le k) hk, p4⟩

theorem SortedL.rel {less : α → α → Bool} {l : List α} (hs : SortedL less l)
    {j k : Nat} (hjk : j < k) (hk : k < l.length) :
    less l[j] l[k] = true := by
  exact List.pairwise_iff_getElem.mp hs j k (by omega) hk hjk

/-- `find` precondition packaging: monotonicity of the search predicate over
a sorted list. -/
theorem find_mono {less : α → α → Bool} [Inhabited α] (hl : LawfulLess less)
    {s : List α} (hs : SortedL less s) (x : α) :
    ∀ k k', k ≤ k' → k' < s.length → less x (s.getD k default) = true →
      less x (s.getD k' default) = true := by
  intro k k' hkk hk' hf
  rcases Nat.eq_or_lt_of_le hkk with h | h
  · subst h; exact hf
  · rw [List.getD_eq_getElem s default (by omega)] at hf
    rw [List.getD_eq_getElem s default hk']
    exact hl.lt_trans hf (hs.rel h hk')

theorem searchIdx_spec {less : α → α → Bool} [Inhabited α] (hl : LawfulLess less)
    {s : List α} (hs : SortedL less s) (x : α) :
    searchIdx less s x ≤ s.length ∧
    (∀ k, k < searchIdx less s x → less x (s.getD k default) = false) ∧
    (searchIdx less s x < s.length →
      less x (s.getD (searchIdx less s x) default) = true) :=
  sortSearch_spec (fun i => less x (s.getD i default)) s.length (find_mono hl hs x)

/-- When `find` reports `found`, an element equal to the target (neither
less) sits at the returned index, which is one below the raw search index. -/
theorem find_found {less : α → α → Bool} [Inhabited α] (hl : LawfulLess less)
    {s : List α} (hs : SortedL less s) (x : α)
    (hf : (find less s x).2 = true) :
    (find less s x).1 < s.length ∧
      eqv less x (s.getD (find less s x).1 default) ∧
      (find less s x).1 + 1 = searchIdx less s x := by
  obtain ⟨p1, p2, _p3⟩ := searchIdx_spec hl hs x
  unfold find at hf ⊢
  by_cases hc : searchIdx less s x > 0 &&
      !(less (s.getD (searchIdx less s x - 1) default) x)
  · rw [if_pos hc]
    simp only [Bool.and_eq_true, Bool.not_eq_true', decide_eq_true_eq] at hc
    refine ⟨by omega, ⟨p2 _ (by omega), hc.2⟩, by omega⟩
  · rw [if_neg hc] at hf
    exact absurd hf (by simp)

/-- When `find` does not report `found`, the returned index is the raw search
index: everything before it is strictly less than the target and everything
from it on is strictly greater. -/
theorem find_not_found {less : α → α → Bool} [Inhabited α] (hl : LawfulLess less)
    {s : List α} (hs : SortedL less s) (x : α)
    (hf : (find less s x).2 = false) :
    (find less s x).1 = searchIdx less s x ∧
    (find less s x).1 ≤ s.length ∧
    (∀ j, j < (find less s x).1 → less (s.getD j default) x = true) ∧
    (∀ j, (find less s x).1 ≤ j → j < s.length →
      less x (s.getD j default) = true) := by
  obtain ⟨p1, p2, p3⟩ := searchIdx_spec hl hs x
  unfold find at hf ⊢
  by_cases hc : searchIdx less s x > 0 &&
      !(less (s.getD (searchIdx less s x - 1) default) x)
  · rw [if_pos hc] at hf
    exact absurd hf (by simp)
  · rw [if_neg hc]
    simp only [Bool.and_eq_true, Bool.not_eq_true', decide_eq_true_eq, not_and] at hc
    refine ⟨rfl, p1, ?_, ?_⟩
    · intro j hj
      have hidx : 0 < searchIdx less s x := by omega
      have hlast : less (s.getD (searchIdx less s x - 1) default) x = true := by
        cases h : less (s.getD (searchIdx less s x - 1) default) x with
        | true => rfl
        | false => exact absurd h (by simpa [hidx] using hc hidx)
      rcases Nat.eq_or_lt_of_le (Nat.le_sub_one_of_lt hj) with h | h
      · rwa [h]
      · rw [List.getD_eq_getElem s default (by omega)]
        rw [List.getD_eq_getElem s default (by omega)] at hlast
        exact hl.lt_trans (hs.rel h (by omega)) hlast
    · intro j hj1 hj2
      rcases Nat.eq_or_lt_of_le hj1 with h | h
      · rw [← h]; exact p3 (by omega)
      · rw [List.getD_eq_getElem s default hj2]
        have hx := p3 (by omega)
        rw [List.getD_eq_getElem s default (by omega)] at hx
        exact hl.lt_trans hx (hs.rel h hj2)

/-! ## Interleaving lemmas -/

theorem interleave_cons (l : List α) (ls : List (List α)) (x : α) (xs : List α) :
    interleave (l :: ls) (x :: xs) = l ++ x :: interleave ls xs := rfl

theorem interleave_snoc (ls : List (List α)) (xs : List α) (l : List α) (x : α)
    (h : ls.length = xs.length + 1) :
    interleave (ls ++ [l]) (xs ++ [x]) = interleave ls xs ++ x :: l := by
  induction ls generalizing xs with
  | nil => simp at h
  | cons l0 ls ih =>
    cases xs with
    | nil =>
      cases ls with
      | nil => simp [interleave]
      | cons _ _ => simp at h
    | cons x0 xs =>
      simp only [List.cons_append, interleave_cons]
      rw [ih xs (by simpa using h)]
      simp

theorem interleave_split (ls : List (List α)) (xs : List α) (i : Nat)
    (hlen : ls.length = xs.length + 1) (hi : i ≤ xs.length) :
    interleave ls xs =
      interleave (ls.take i) (xs.take i) ++ interleave (ls.drop i) (xs.drop i) := by
  induction i generalizing ls xs with
  | zero => simp [interleave]
  | succ i ih =>
    cases ls with
    | nil => simp at hlen
    | cons l0 ls =>
      cases xs with
      | nil => simp at hi
      | cons x0 xs =>
        simp only [List.take_succ_cons, List.drop_succ_cons, interleave_cons]
        rw [ih ls xs (by simpa using hlen) (by simpa using hi)]
        simp

theorem interleave_len_eq (ls : List (List α)) (xs : List α) (h : ls.length = xs.length) :
    (interleave ls xs).length =
      (ls.map List.length).foldr (· + ·) 0 + xs.length := by
  induction ls generalizing xs with
  | nil =>
    cases xs with
    | nil => simp [interleave]
    | cons _ _ => simp at h
  | cons l0 ls ih =>
    cases xs with
    | nil => simp at h
    | cons x0 xs =>
      rw [interleave_cons]
      simp [ih xs (by simpa using h)]
      omega

theorem mem_interleave_of_mem_item :
    ∀ (ls : List (List α)) (xs : List α) (x : α), x ∈ xs →
      xs.length ≤ ls.length → x ∈ interleave ls xs := by
  intro ls
  induction ls with
  | nil => intro xs x hx h; cases xs <;> simp_all
  | cons l0 ls ih =>
    intro xs x hx h
    cases xs with
    | nil => simp at hx
    | cons x0 xs =>
      rw [interleave_cons]
      rcases List.mem_cons.mp hx with h2 | h2
      · subst h2; simp
      · simp only [List.mem_append, List.mem_cons]
        exact Or.inr (Or.inr (ih xs x h2 (by simp at h ⊢; omega)))

theorem mem_interleave_of_mem_chunk :
    ∀ (ls : List (List α)) (xs : List α) (l : List α), l ∈ ls → ∀ x ∈ l,
      ls.length = xs.length + 1 → x ∈ interleave ls xs := by
  intro ls
  induction ls with
  | nil => intro xs l hl; simp at hl
  | cons l0 ls ih =>
    intro xs l hl x hx h
    rcases List.mem_cons.mp hl with h' | h'
    · subst h'
      cases xs with
      | nil =>
        cases ls with
        | nil => simpa [interleave] using hx
        | cons _ _ => simp at h
      | cons x0 xs => rw [interleave_cons]; simp [hx]
    · cases xs with
      | nil =>
        cases ls with
        | nil => simp at h'
        | cons _ _ => simp at h
      | cons x0 xs =>
        rw [interleave_cons]
        simp only [List.mem_append, List.mem_cons]
        exact Or.inr (Or.inr (ih xs l h' x hx (by simpa using h)))

/-! ## Structural counts: every node has no children or one more child than
items -/

def Node.countsOK : Node α → Bool
  | .mk is cs =>
    (cs.isEmpty || (cs.length == is.length + 1)) &&
      cs.attach.all (fun c => Node.countsOK c.1)
decreasing_by
  have := List.sizeOf_lt_of_mem c.2
  cases c; simp at *; omega

theorem Node.countsOK_iff (is : List α) (cs : List (Node α)) :
    Node.countsOK (.mk is cs) = true ↔
      ((cs = [] ∨ cs.length = is.length + 1) ∧ ∀ c ∈ cs, Node.countsOK c = true) := by
  rw [Node.countsOK]
  simp [List.all_eq_true, List.isEmpty_iff]

/-- `found` is reported exactly when some element of the list is equal to the
target under the order. -/
theorem find_found_iff {less : α → α → Bool} [Inhabited α] (hl : LawfulLess less)
    {s : List α} (hs : SortedL less s) (x : α) :
    (find less s x).2 = true ↔ ∃ a ∈ s, eqv less x a := by
  constructor
  · intro hf
    obtain ⟨h1, h2, _⟩ := find_found hl hs x hf
    refine ⟨s.getD (find less s x).1 default, ?_, h2⟩
    rw [List.getD_eq_getElem s default h1]
    exact List.getElem_mem h1
  · rintro ⟨a, ha, hax⟩
    cases hfb : (find less s x).2 with
    | true => rfl
    | false =>
      obtain ⟨_, _, q3, q4⟩ := find_not_found hl hs x hfb
      obtain ⟨j, hj, rfl⟩ := List.getElem_of_mem ha
      rcases Nat.lt_or_ge j (find less s x).1 with h | h
      · have := q3 j h
        rw [List.getD_eq_getElem s default hj] at this
        exact absurd this (by simp [hax.2])
      · have := q4 j h hj
        rw [List.getD_eq_getElem s default hj] at this
        exact absurd this (by simp [hax.1])

/-! ## Full ascending / descending scans visit exactly the in-order
contents -/

/-- What the ascending loop starting at index `i` emits (each child subtree
followed by its separator item), not counting the final child. -/
def ascRest [Inhabited α] (cs : List (Node α)) (is : List α) (i : Nat) : List α :=
  if i < is.length then
    Node.toList (cs.getD i default) ++ is.getD i default :: ascRest cs is (i + 1)
  else []
termination_by is.length - i

/-- What the descending loop with `k` items still to emit produces (each
right-hand child subtree reversed, followed by its separator item), not
counting the final child. -/
def descRest [Inhabited α] (cs : List (Node α)) (is : List α) : Nat → List α
  | 0 => []
  | k + 1 => (Node.toList (cs.getD (k + 1) default)).reverse ++
      is.getD k default :: descRest cs is k

theorem ascRest_spec [Inhabited α] (cs : List (Node α)) (is : List α)
    (hlen : cs.length = is.length + 1) :
    ∀ d i, is.length - i = d → i ≤ is.length →
      ascRest cs is i ++ Node.toList (cs.getD is.length default) =
        interleave ((cs.drop i).map Node.toList) (is.drop i) := by
  intro d
  induction d with
  | zero =>
    intro i h1 h2
    have hi : i = is.length := by omega
    subst hi
    rw [ascRest, if_neg (by omega)]
    have h3 : is.length < cs.length := by omega
    have hd : cs.drop is.length = [cs.getD is.length default] := by
      rw [List.getD_eq_getElem cs default h3]
      rw [List.drop_eq_getElem_cons h3]
      have h4 : cs.drop (is.length + 1) = [] := by
        rw [List.drop_eq_nil_iff]
        omega
      rw [h4]
    rw [hd]
    simp [interleave]
  | succ d ih =>
    intro i h1 h2
    have hi : i < is.length := by omega
    rw [ascRest, if_pos hi]
    have hcs : i < cs.length := by omega
    rw [List.drop_eq_getElem_cons hcs, List.drop_eq_getElem_cons hi]
    rw [List.map_cons, interleave_cons]
    rw [← ih (i + 1) (by omega) (by omega)]
    rw [List.getD_eq_getElem cs default hcs, List.getD_eq_getElem is default hi]
    simp

theorem descRest_spec [Inhabited α] (cs : List (Node α)) (is : List α)
    (hlen : cs.length = is.length + 1) :
    ∀ k, k ≤ is.length →
      descRest cs is k ++ (Node.toList (cs.getD 0 default)).reverse =
        (interleave ((cs.take (k + 1)).map Node.toList) (is.take k)).reverse := by
  intro k
  induction k with
  | zero =>
    intro _
    have h0 : 0 < cs.length := by omega
    rw [descRest]
    have h1 : cs.take 1 = [cs.getD 0 default] := by
      rw [List.getD_eq_getElem cs default h0]
      rw [List.take_one]
      cases cs with
      | nil => simp at h0
      | cons c cs2 => simp
    rw [h1]
    simp [interleave]
  | succ k ih =>
    intro hk
    have hk1 : k < is.length := by omega
    have hck : k + 1 < cs.length := by omega
    rw [descRest]
    have ht1 : cs.take (k + 1 + 1) = cs.take (k + 1) ++ [cs.getD (k + 1) default] := by
      rw [List.take_succ, List.getElem?_eq_getElem hck]
      rw [List.getD_eq_getElem cs default hck]
      rfl
    have ht2 : is.take (k + 1) = is.take k ++ [is.getD k default] := by
      rw [List.take_succ, List.getElem?_eq_getElem hk1]
      rw [List.getD_eq_getElem is default hk1]
      rfl
    rw [ht1, ht2, List.map_append, List.map_singleton]
    rw [interleave_snoc _ _ _ _ (by simp; omega)]
    rw [List.reverse_append]
    rw [← ih (by omega)]
    simp
/-- Membership form of an in-range `getD`. -/
theorem getD_mem {β : Type} [Inhabited β] (l : List β) (i : Nat) (h : i < l.length) :
    l.getD i default ∈ l := by
  rw [List.getD_eq_getElem _ _ h]
  exact List.getElem_mem h

/-- The ascending loop with no bounds emits `ascRest` (or the remaining items
on a leaf) and never stops. -/
theorem loopAsc_none (less : α → α → Bool) [Inhabited α] (incl : Bool)
    (is : List α) (cs : List (Node α)) (hlen : cs = [] ∨ cs.length = is.length + 1)
    (IH : ∀ c ∈ cs, ∀ (hit : Bool) (s : List α),
      ∃ h2, Node.iterate less .asc none none incl collect c hit s =
        (s ++ c.toList, h2, true)) :
    ∀ d i, is.length - i = d → ∀ (hit : Bool) (s : List α),
      ∃ h2, loopAsc less none none incl collect (.mk is cs) is.length i hit s =
        (s ++ (if cs.isEmpty then is.drop i else ascRest cs is i), h2, true) := by
  intro d
  induction d with
  | zero =>
    intro i h1 hit s
    have hni : ¬ (i < is.length) := by omega
    rw [loopAsc, dif_neg hni]
    refine ⟨hit, ?_⟩
    have hd : is.drop i = [] := List.drop_eq_nil_iff.mpr (by omega)
    rw [ascRest, if_neg hni]
    cases cs.isEmpty <;> simp [hd]
  | succ d ih =>
    intro i h1 hit s
    have hi : i < is.length := by omega
    rw [loopAsc, dif_pos hi]
    by_cases hcs : cs = []
    · subst hcs
      obtain ⟨h2, hrec⟩ := ih (i + 1) (by omega) true (s ++ [is.getD i default])
      simp only [List.isEmpty_nil, if_true] at hrec
      refine ⟨h2, ?_⟩
      simp only [Node.children_mk, Node.items_mk, List.isEmpty_nil, eq_self_iff_true,
        if_true, collect, Option.isSome_none, Bool.and_false, Bool.false_and,
        Bool.false_eq_true, if_false, Bool.not_true, Bool.not_false]
      rw [hrec]
      rw [List.getD_eq_getElem is default hi, List.drop_eq_getElem_cons hi]
      simp
    · have hlen2 : cs.length = is.length + 1 := hlen.resolve_left hcs
      have hic : i < cs.length := by omega
      have hcsE : cs.isEmpty = false := by
        cases cs with
        | nil => exact absurd rfl hcs
        | cons c cs2 => rfl
      obtain ⟨h2, hchild⟩ := IH (cs.getD i default) (getD_mem cs i hic) hit s
      obtain ⟨h3, hrec⟩ := ih (i + 1) (by omega) true
        (s ++ (cs.getD i default).toList ++ [is.getD i default])
      simp only [hcsE, Bool.false_eq_true, if_false] at hrec
      refine ⟨h3, ?_⟩
      simp only [Node.children_mk, Node.items_mk, hcsE, Bool.false_eq_true, if_false,
        dif_pos hic, hchild, collect, Option.isSome_none, Bool.and_false, Bool.false_and,
        Bool.not_true, Bool.not_false]
      rw [hrec]
      conv_rhs => rw [ascRest, if_pos hi]
      simp

/-- A full ascending scan with the collecting visitor emits exactly the
in-order contents. -/
theorem iterate_asc_none (less : α → α → Bool) [Inhabited α] (incl : Bool) :
    ∀ (H : Nat) (n : Node α), n.height ≤ H → n.countsOK = true →
      ∀ (hit : Bool) (s : List α),
        ∃ h2, Node.iterate less .asc none none incl collect n hit s =
          (s ++ n.toList, h2, true) := by
  intro H
  induction H with
  | zero =>
    intro n hh hc hit s
    cases n with
    | mk is cs =>
      have hcs : cs = [] := by
        cases cs with
        | nil => rfl
        | cons c cs2 =>
          have := Node.height_pos_of_child (.mk is (c :: cs2)) (by simp)
          omega
      subst hcs
      obtain ⟨h2, hloop⟩ := loopAsc_none less incl is [] (Or.inl rfl)
        (by intro c hc2; simp at hc2) (is.length - 0) 0 rfl hit s
      rw [Node.iterate]
      simp only [Node.items_mk, Node.children_mk]
      rw [hloop]
      simp only [List.isEmpty_nil, if_true, List.drop_zero]
      refine ⟨h2, ?_⟩
      simp [Node.toList_leaf]
  | succ H ih =>
    intro n hh hc hit s
    cases n with
    | mk is cs =>
      rw [Node.countsOK_iff] at hc
      by_cases hcs : cs = []
      · subst hcs
        obtain ⟨h2, hloop⟩ := loopAsc_none less incl is [] (Or.inl rfl)
          (by intro c hc2; simp at hc2) (is.length - 0) 0 rfl hit s
        rw [Node.iterate]
        simp only [Node.items_mk, Node.children_mk]
        rw [hloop]
        simp only [List.isEmpty_nil, if_true, List.drop_zero]
        refine ⟨h2, ?_⟩
        simp [Node.toList_leaf]
      · have hlen2 : cs.length = is.length + 1 := (hc.1).resolve_left hcs
        have hcsE : cs.isEmpty = false := by
          cases cs with
          | nil => exact absurd rfl hcs
          | cons c cs2 => rfl
        have hIH : ∀ c ∈ cs, ∀ (hit : Bool) (s : List α),
            ∃ h2, Node.iterate less .asc none none incl collect c hit s =
              (s ++ c.toList, h2, true) := by
          intro c hcmem hit2 s2
          have hch : c.height < (Node.mk is cs).height :=
            Node.height_child_lt _ c (by simpa using hcmem)
          exact ih c (by omega) (hc.2 c hcmem) hit2 s2
        obtain ⟨h2, hloop⟩ := loopAsc_none less incl is cs (Or.inr hlen2) hIH
          (is.length - 0) 0 rfl hit s
        rw [Node.iterate]
        simp only [Node.items_mk, Node.children_mk]
        rw [hloop]
        simp only [hcsE, Bool.false_eq_true, if_false]
        have hlt : is.length < cs.length := by omega
        rw [dif_pos hlt]
        obtain ⟨h3, hfin⟩ := hIH (cs.getD is.length default)
          (getD_mem cs is.length hlt) h2 (s ++ ascRest cs is 0)
        rw [hfin]
        have hsp := ascRest_spec cs is hlen2 (is.length - 0) 0 rfl (by omega)
        simp only [List.drop_zero] at hsp
        refine ⟨h3, ?_⟩
        rw [Node.toList_inner is cs hcs, ← hsp]
        simp

/-- The descending loop with no bounds emits `descRest` (or the remaining
items reversed on a leaf) and never stops.  `k` counts the items still to be
emitted; the Go loop index is `k - 1` as an integer. -/
theorem loopDesc_none (less : α → α → Bool) [Inhabited α] (incl : Bool)
    (is : List α) (cs : List (Node α)) (hlen : cs = [] ∨ cs.length = is.length + 1)
    (IH : ∀ c ∈ cs, ∀ (hit : Bool) (s : List α),
      ∃ h2, Node.iterate less .desc none none incl collect c hit s =
        (s ++ c.toList.reverse, h2, true)) :
    ∀ k, k ≤ is.length → ∀ (hit : Bool) (s : List α),
      ∃ h2, loopDesc less none none incl collect (.mk is cs) 0 ((k : Int) - 1) hit s =
        (s ++ (if cs.isEmpty then (is.take k).reverse else descRest cs is k), h2, true) := by
  intro k
  induction k with
  | zero =>
    intro _ hit s
    rw [loopDesc, dif_neg (by omega)]
    rw [descRest]
    refine ⟨hit, ?_⟩
    cases cs.isEmpty <;> simp
  | succ k ih =>
    intro hk hit s
    have hk1 : k < is.length := by omega
    rw [loopDesc, dif_pos (by omega)]
    have htn : (((k + 1 : Nat) : Int) - 1).toNat = k := by omega
    have htn1 : (((k + 1 : Nat) : Int) - 1 + 1).toNat = k + 1 := by omega
    have hstep : (((k + 1 : Nat) : Int) - 1 - 1) = ((k : Nat) : Int) - 1 := by omega
    by_cases hcs : cs = []
    · subst hcs
      obtain ⟨h2, hrec⟩ := ih (by omega) true (s ++ [is.getD k default])
      simp only [List.isEmpty_nil, if_true] at hrec
      refine ⟨h2, ?_⟩
      simp only [Node.children_mk, Node.items_mk, List.isEmpty_nil, eq_self_iff_true,
        if_true, collect, Option.isSome_none, Bool.and_false, Bool.false_and,
        Bool.false_eq_true, if_false, Bool.not_true, Bool.not_false]
      rw [hstep, htn, hrec]
      rw [List.getD_eq_getElem is default hk1]
      have h5 : (List.take (k + 1) is).reverse = is[k] :: (List.take k is).reverse := by
        rw [List.take_succ, List.getElem?_eq_getElem hk1]
        simp
      rw [h5]
      simp
    · have hlen2 : cs.length = is.length + 1 := hlen.resolve_left hcs
      have hick : k + 1 < cs.length := by omega
      have hcsE : cs.isEmpty = false := by
        cases cs with
        | nil => exact absurd rfl hcs
        | cons c cs2 => rfl
      obtain ⟨h2, hchild⟩ := IH (cs.getD (k + 1) default) (getD_mem cs (k + 1) hick) hit s
      obtain ⟨h3, hrec⟩ := ih (by omega) true
        (s ++ (cs.getD (k + 1) default).toList.reverse ++ [is.getD k default])
      simp only [hcsE, Bool.false_eq_true, if_false] at hrec
      refine ⟨h3, ?_⟩
      simp only [Node.children_mk, Node.items_mk, hcsE, Bool.false_eq_true, if_false,
        htn, htn1, dif_pos hick, hchild, collect, Option.isSome_none, Bool.and_false,
        Bool.false_and, Bool.not_true, Bool.not_false]
      rw [hstep, hrec]
      rw [descRest]
      simp

/-- A full descending scan with the collecting visitor emits exactly the
reversed in-order contents. -/
theorem iterate_desc_none (less : α → α → Bool) [Inhabited α] (incl : Bool) :
    ∀ (H : Nat) (n : Node α), n.height ≤ H → n.countsOK = true →
      ∀ (hit : Bool) (s : List α),
        ∃ h2, Node.iterate less .desc none none incl collect n hit s =
          (s ++ n.toList.reverse, h2, true) := by
  intro H
  induction H with
  | zero =>
    intro n hh hc hit s
    cases n with
    | mk is cs =>
      have hcs : cs = [] := by
        cases cs with
        | nil => rfl
        | cons c cs2 =>
          have := Node.height_pos_of_child (.mk is (c :: cs2)) (by simp)
          omega
      subst hcs
      obtain ⟨h2, hloop⟩ := loopDesc_none less incl is [] (Or.inl rfl)
        (by intro c hc2; simp at hc2) is.length le_rfl hit s
      rw [Node.iterate]
      simp only [Node.items_mk, Node.children_mk]
      rw [hloop]
      simp only [List.isEmpty_nil, if_true, List.take_length]
      refine ⟨h2, ?_⟩
      simp [Node.toList_leaf]
  | succ H ih =>
    intro n hh hc hit s
    cases n with
    | mk is cs =>
      rw [Node.countsOK_iff] at hc
      by_cases hcs : cs = []
      · subst hcs
        obtain ⟨h2, hloop⟩ := loopDesc_none less incl is [] (Or.inl rfl)
          (by intro c hc2; simp at hc2) is.length le_rfl hit s
        rw [Node.iterate]
        simp only [Node.items_mk, Node.children_mk]
        rw [hloop]
        simp only [List.isEmpty_nil, if_true, List.take_length]
        refine ⟨h2, ?_⟩
        simp [Node.toList_leaf]
      · have hlen2 : cs.length = is.length + 1 := (hc.1).resolve_left hcs
        have hcsE : cs.isEmpty = false := by
          cases cs with
          | nil => exact absurd rfl hcs
          | cons c cs2 => rfl
        have hIH : ∀ c ∈ cs, ∀ (hit : Bool) (s : List α),
            ∃ h2, Node.iterate less .desc none none incl collect c hit s =
              (s ++ c.toList.reverse, h2, true) := by
          intro c hcmem hit2 s2
          have hch : c.height < (Node.mk is cs).height :=
            Node.height_child_lt _ c (by simpa using hcmem)
          exact ih c (by omega) (hc.2 c hcmem) hit2 s2
        obtain ⟨h2, hloop⟩ := loopDesc_none less incl is cs (Or.inr hlen2) hIH
          is.length le_rfl hit s
        rw [Node.iterate]
        simp only [Node.items_mk, Node.children_mk]
        rw [hloop]
        simp only [hcsE, Bool.false_eq_true, if_false]
        have hlt : 0 < cs.length := by omega
        rw [dif_pos hlt]
        obtain ⟨h3, hfin⟩ := hIH (cs.getD 0 default)
          (getD_mem cs 0 hlt) h2 (s ++ descRest cs is is.length)
        rw [hfin]
        refine ⟨h3, ?_⟩
        rw [Node.toList_inner is cs hcs]
        have := descRest_spec cs is hlen2 is.length le_rfl
        rw [List.take_length] at this
        have htk : cs.take (is.length + 1) = cs := by
          rw [List.take_of_length_le]
          omega
        rw [htk] at this
        rw [← this]
        simp

/-! ## The list-level view of replace-or-insert, and sorted-segment
machinery -/

/-- Replace the first order-equal element, or insert before the first
greater element. -/
def listRI (less : α → α → Bool) (x : α) : List α → List α
  | [] => [x]
  | a :: as =>
    if less x a then x :: a :: as
    else if less a x then a :: listRI less x as
    else x :: as

theorem listRI_append_left {less : α → α → Bool} (x : α) {A : List α}
    (hA : ∀ a ∈ A, less a x = true) (hl : LawfulLess less) (M : List α) :
    listRI less x (A ++ M) = A ++ listRI less x M := by
  induction A with
  | nil => simp
  | cons a A ih =>
    have ha := hA a (by simp)
    rw [List.cons_append, listRI, if_neg (by simp [hl.asymm ha]), if_pos ha]
    rw [ih (fun b hb => hA b (by simp [hb]))]
    rfl

theorem listRI_not_found {less : α → α → Bool} (x : α) {M : List α}
    (hM : ∀ b ∈ M, less x b = true) :
    listRI less x M = x :: M := by
  cases M with
  | nil => rfl
  | cons b B =>
    simp only [listRI]
    rw [if_pos (hM b (by simp))]

theorem listRI_append_right {less : α → α → Bool} (x : α) {B : List α}
    (hB : ∀ b ∈ B, less x b = true) (M : List α) :
    listRI less x (M ++ B) = listRI less x M ++ B := by
  induction M with
  | nil =>
    simp only [List.nil_append]
    rw [listRI_not_found x hB]
    rfl
  | cons m M ih =>
    simp only [List.cons_append, listRI, List.append_eq]
    by_cases h1 : less x m = true
    · rw [if_pos h1, if_pos h1]
      simp
    · rw [if_neg h1, if_neg h1]
      by_cases h2 : less m x = true
      · rw [if_pos h2, if_pos h2, ih]
        simp
      · rw [if_neg h2, if_neg h2]
        simp

theorem listRI_found {less : α → α → Bool} (x : α) (a : α) (B : List α)
    (ha : eqv less x a) :
    listRI less x (a :: B) = x :: B := by
  rw [listRI, if_neg (by simp [ha.1]), if_neg (by simp [ha.2])]

/-- Every member of `listRI less x l` is `x` or a member of `l`. -/
theorem listRI_mem {less : α → α → Bool} (x : α) (l : List α) :
    ∀ y ∈ listRI less x l, y = x ∨ y ∈ l := by
  induction l with
  | nil => intro y hy; simp [listRI] at hy; exact Or.inl hy
  | cons a as ih =>
    intro y hy
    rw [listRI] at hy
    by_cases h1 : less x a = true
    · rw [if_pos h1] at hy
      rcases List.mem_cons.mp hy with h | h
      · exact Or.inl h
      · exact Or.inr h
    · rw [if_neg h1] at hy
      by_cases h2 : less a x = true
      · rw [if_pos h2] at hy
        rcases List.mem_cons.mp hy with h | h
        · exact Or.inr (by simp [h])
        · rcases ih y h with h3 | h3
          · exact Or.inl h3
          · exact Or.inr (by simp [h3])
      · rw [if_neg h2] at hy
        rcases List.mem_cons.mp hy with h | h
        · exact Or.inl h
        · exact Or.inr (by simp [h])

/-- `listRI` preserves strict sortedness. -/
theorem listRI_sorted {less : α → α → Bool} (hl : LawfulLess less) (x : α)
    {l : List α} (hs : SortedL less l) : SortedL less (listRI less x l) := by
  induction l with
  | nil => simp [listRI, SortedL]
  | cons a as ih =>
    have hs2 : SortedL less as := (List.pairwise_cons.mp hs).2
    have hsa : ∀ b ∈ as, less a b = true := (List.pairwise_cons.mp hs).1
    rw [listRI]
    by_cases h1 : less x a = true
    · rw [if_pos h1]
      refine List.pairwise_cons.mpr ⟨?_, hs⟩
      intro b hb
      rcases List.mem_cons.mp hb with h | h
      · subst h; exact h1
      · exact hl.lt_trans h1 (hsa b h)
    · rw [if_neg h1]
      by_cases h2 : less a x = true
      · rw [if_pos h2]
        refine List.pairwise_cons.mpr ⟨?_, ih hs2⟩
        intro b hb
        rcases listRI_mem x as b hb with h | h
        · subst h; exact h2
        · exact hsa b h
      · rw [if_neg h2]
        refine List.pairwise_cons.mpr ⟨?_, hs2⟩
        intro b hb
        have hax : less a x = false := by
          cases h : less a x
          · rfl
          · exact absurd h h2
        exact hl.lt_of_nlt_of_lt hax (hsa b hb)

/-- Inserting into a sorted list with no order-equal element grows the length
by one; replacing keeps it. -/
theorem listRI_length_not_found {less : α → α → Bool} (x : α) (l : List α)
    (h : ∀ a ∈ l, ¬ eqv less x a) :
    (listRI less x l).length = l.length + 1 := by
  induction l with
  | nil => rfl
  | cons a as ih =>
    simp only [listRI]
    by_cases h1 : less x a = true
    · rw [if_pos h1]; simp
    · rw [if_neg h1]
      by_cases h2 : less a x = true
      · rw [if_pos h2]
        simp only [List.length_cons]
        rw [ih (fun b hb => h b (by simp [hb]))]
      · exfalso
        refine h a (by simp) ⟨?_, ?_⟩
        · cases h3 : less x a
          · rfl
          · exact absurd h3 h1
        · cases h3 : less a x
          · rfl
          · exact absurd h3 h2

theorem listRI_length_found {less : α → α → Bool} (x : α) (A B : List α) (a : α)
    (hA : ∀ b ∈ A, less b x = true) (ha : eqv less x a) (hl : LawfulLess less) :
    listRI less x (A ++ a :: B) = A ++ x :: B := by
  rw [listRI_append_left x hA hl, listRI_found x a B ha]

/-! ## Decomposing a node's contents around a child or an item -/

theorem take_set {β : Type} (l : List β) (i : Nat) (a : β) :
    (l.set i a).take i = l.take i := by
  induction l generalizing i with
  | nil => simp
  | cons b bs ih =>
    cases i with
    | zero => simp
    | succ i => simp [List.set_cons_succ, ih]

theorem drop_succ_set {β : Type} (l : List β) (i : Nat) (a : β) :
    (l.set i a).drop (i + 1) = l.drop (i + 1) := by
  induction l generalizing i with
  | nil => simp
  | cons b bs ih =>
    cases i with
    | zero => simp
    | succ i => simp [List.set_cons_succ, ih]

theorem getD_set_self {β : Type} [Inhabited β] (l : List β) (i : Nat) (a : β)
    (h : i < l.length) : (l.set i a).getD i default = a := by
  rw [List.getD_eq_getElem _ _ (by simpa using h)]
  exact List.getElem_set_self (by simpa using h)

/-- The part of a node's contents strictly before child `i`. -/
def leftSeg [Inhabited α] (is : List α) (cs : List (Node α)) (i : Nat) : List α :=
  interleave ((cs.take i).map Node.toList) (is.take i)

/-- The part of a node's contents strictly after child `i` (item `i` first). -/
def rightSeg [Inhabited α] (is : List α) (cs : List (Node α)) (i : Nat) : List α :=
  if i < is.length then
    is.getD i default :: interleave ((cs.drop (i + 1)).map Node.toList) (is.drop (i + 1))
  else []

theorem toList_decomp [Inhabited α] (is : List α) (cs : List (Node α))
    (hlen : cs.length = is.length + 1) (i : Nat) (hi : i < cs.length) :
    Node.toList (.mk is cs) =
      leftSeg is cs i ++ (Node.toList (cs.getD i default) ++ rightSeg is cs i) := by
  have hcs : cs ≠ [] := by rintro rfl; simp at hlen
  rw [Node.toList_inner _ _ hcs]
  rw [interleave_split (cs.map Node.toList) is i (by simp [hlen]) (by omega)]
  simp only [leftSeg]
  rw [List.map_take]
  congr 1
  have hmi : i < (cs.map Node.toList).length := by simp; omega
  rw [List.drop_eq_getElem_cons hmi]
  rw [List.getElem_map]
  simp only [rightSeg]
  by_cases hii : i < is.length
  · rw [if_pos hii]
    rw [List.drop_eq_getElem_cons hii]
    rw [interleave_cons]
    rw [List.getD_eq_getElem cs default hi, List.getD_eq_getElem is default hii]
    rw [List.map_drop]
  · rw [if_neg hii]
    have h1 : is.drop i = [] := List.drop_eq_nil_iff.mpr (by omega)
    have h2 : (cs.map Node.toList).drop (i + 1) = [] :=
      List.drop_eq_nil_iff.mpr (by simp; omega)
    rw [h1, h2]
    rw [List.getD_eq_getElem cs default hi]
    simp [interleave]

theorem toList_set_child [Inhabited α] (is : List α) (cs : List (Node α))
    (hlen : cs.length = is.length + 1) (i : Nat) (hi : i < cs.length) (c2 : Node α) :
    Node.toList (.mk is (cs.set i c2)) =
      leftSeg is cs i ++ (c2.toList ++ rightSeg is cs i) := by
  have h := toList_decomp is (cs.set i c2) (by simpa using hlen) i (by simpa using hi)
  have hL : leftSeg is (cs.set i c2) i = leftSeg is cs i := by
    simp only [leftSeg]
    rw [take_set]
  have hR : rightSeg is (cs.set i c2) i = rightSeg is cs i := by
    simp only [rightSeg]
    rw [drop_succ_set]
  rw [h, getD_set_self cs i c2 hi, hL, hR]

theorem toList_set_item [Inhabited α] (is : List α) (cs : List (Node α))
    (hlen : cs.length = is.length + 1) (j : Nat) (hj : j < is.length) (x : α) :
    Node.toList (.mk (is.set j x) cs) =
      leftSeg is cs j ++ (Node.toList (cs.getD j default) ++
        x :: interleave ((cs.drop (j + 1)).map Node.toList) (is.drop (j + 1))) := by
  have h := toList_decomp (is.set j x) cs (by simpa using hlen) j (by omega)
  have hL : leftSeg (is.set j x) cs j = leftSeg is cs j := by
    simp only [leftSeg]
    rw [take_set]
  have hR : rightSeg (is.set j x) cs j =
      x :: interleave ((cs.drop (j + 1)).map Node.toList) (is.drop (j + 1)) := by
    simp only [rightSeg]
    rw [if_pos (by simpa using hj)]
    rw [getD_set_self is j x hj, drop_succ_set]
  rw [h, hL, hR]

/-- Anything in an interleaving is in a chunk or among the separators. -/
theorem mem_interleave_cases {a : α} :
    ∀ (ls : List (List α)) (xs : List α), a ∈ interleave ls xs →
      (∃ l ∈ ls, a ∈ l) ∨ a ∈ xs := by
  intro ls
  induction ls with
  | nil => intro xs h; simp [interleave] at h
  | cons l0 ls ih =>
    intro xs h
    cases xs with
    | nil =>
      simp only [interleave] at h
      exact Or.inl ⟨l0, by simp, h⟩
    | cons x0 xs =>
      rw [interleave_cons] at h
      rcases List.mem_append.mp h with h | h
      · exact Or.inl ⟨l0, by simp, h⟩
      · rcases List.mem_cons.mp h with h | h
        · exact Or.inr (by simp [h])
        · rcases ih xs h with ⟨l, hl, ha⟩ | h2
          · exact Or.inl ⟨l, by simp [hl], ha⟩
          · exact Or.inr (by simp [h2])

/-- The separators are a sublist of the interleaving. -/
theorem items_sublist_interleave :
    ∀ (ls : List (List α)) (xs : List α), ls.length = xs.length + 1 →
      xs.Sublist (interleave ls xs) := by
  intro ls
  induction ls with
  | nil => intro xs h; simp at h
  | cons l0 ls ih =>
    intro xs h
    cases xs with
    | nil => simp
    | cons x0 xs =>
      rw [interleave_cons]
      have h2 := ih xs (by simpa using h)
      have h3 : List.Sublist (x0 :: xs) (x0 :: interleave ls xs) :=
        List.Sublist.cons₂ x0 h2
      exact h3.trans (List.sublist_append_right l0 _)

/-- Every chunk is a sublist of the interleaving. -/
theorem chunk_sublist_interleave :
    ∀ (ls : List (List α)) (xs : List α), ls.length ≤ xs.length + 1 →
      ∀ l ∈ ls, l.Sublist (interleave ls xs) := by
  intro ls
  induction ls with
  | nil => intro xs _ l hl; simp at hl
  | cons l0 ls ih =>
    intro xs h l hl
    rcases List.mem_cons.mp hl with h2 | h2
    · subst h2
      cases xs with
      | nil =>
        simp only [interleave]
        exact List.Sublist.refl l
      | cons x0 xs =>
        rw [interleave_cons]
        exact List.sublist_append_left l _
    · cases xs with
      | nil =>
        have : ls = [] := by
          cases ls with
          | nil => rfl
          | cons _ _ => simp at h
        subst this
        simp at h2
      | cons x0 xs =>
        rw [interleave_cons]
        have h3 := ih xs (by simp at h ⊢; omega) l h2
        have h4 : List.Sublist l (x0 :: interleave ls xs) :=
          h3.trans (List.sublist_cons_self x0 _)
        exact h4.trans (List.sublist_append_right l0 _)

/-- Sortedness of the whole node restricts to its item list. -/
theorem sorted_items {less : α → α → Bool} [Inhabited α] {is : List α}
    {cs : List (Node α)} (hlen : cs = [] ∨ cs.length = is.length + 1)
    (hs : SortedL less (Node.toList (.mk is cs))) : SortedL less is := by
  rcases hlen with h | h
  · subst h; simpa [Node.toList_leaf] using hs
  · have hcs : cs ≠ [] := by rintro rfl; simp at h
    rw [Node.toList_inner _ _ hcs] at hs
    exact List.Pairwise.sublist (items_sublist_interleave _ _ (by simp [h])) hs

/-- Sortedness of the whole node restricts to each child subtree. -/
theorem sorted_child {less : α → α → Bool} [Inhabited α] {is : List α}
    {cs : List (Node α)} (hlen : cs = [] ∨ cs.length = is.length + 1)
    (hs : SortedL less (Node.toList (.mk is cs))) {c : Node α} (hc : c ∈ cs) :
    SortedL less c.toList := by
  rcases hlen with h | h
  · subst h; simp at hc
  · have hcs : cs ≠ [] := by rintro rfl; simp at h
    rw [Node.toList_inner _ _ hcs] at hs
    refine List.Pairwise.sublist ?_ hs
    exact chunk_sublist_interleave _ is (by simp [h]) _ (List.mem_map_of_mem _ hc)

/-- Useful index form: a member of a take chunk sits at a definite index. -/
theorem mem_take_getElem {β : Type} {l : List β} {i : Nat} {a : β}
    (h : a ∈ l.take i) : ∃ j, ∃ hj : j < l.length, j < i ∧ l[j] = a := by
  obtain ⟨j, hj, hja⟩ := List.getElem_of_mem h
  have hj2 : j < i ∧ j < l.length := by simp at hj; omega
  refine ⟨j, hj2.2, hj2.1, ?_⟩
  rw [← hja, List.getElem_take]

/-- A member of a drop chunk sits at a definite index. -/
theorem mem_drop_getElem {β : Type} {l : List β} {i : Nat} {a : β}
    (h : a ∈ l.drop i) : ∃ j, ∃ hj : j < l.length, i ≤ j ∧ l[j] = a := by
  obtain ⟨j, hj, hja⟩ := List.getElem_of_mem h
  have hj2 : i + j < l.length := by simp at hj; omega
  refine ⟨i + j, hj2, by omega, ?_⟩
  rw [← hja, List.getElem_drop]

/-- On a sorted node, every element of child `j` is less than item `j`. -/
theorem child_lt_item {less : α → α → Bool} [Inhabited α] {is : List α}
    {cs : List (Node α)} (hlen : cs.length = is.length + 1)
    (hs : SortedL less (Node.toList (.mk is cs)))
    (j : Nat) (hj : j < is.length) :
    ∀ a ∈ Node.toList (cs.getD j default), less a (is.getD j default) = true := by
  intro a ha
  have hdec := toList_decomp is cs hlen j (by omega)
  rw [hdec] at hs
  have h1 := (List.pairwise_append.mp hs).2.1
  have h2 := (List.pairwise_append.mp h1).2.2
  apply h2 a ha
  simp only [rightSeg]
  rw [if_pos hj]
  simp

/-- On a sorted node, item `j` is less than every element of child `j + 1`. -/
theorem item_lt_child {less : α → α → Bool} [Inhabited α] {is : List α}
    {cs : List (Node α)} (hlen : cs.length = is.length + 1)
    (hs : SortedL less (Node.toList (.mk is cs)))
    (j : Nat) (hj : j + 1 < cs.length) (hjs : j < is.length) :
    ∀ b ∈ Node.toList (cs.getD (j + 1) default),
      less (is.getD j default) b = true := by
  intro b hb
  have hdec := toList_decomp is cs hlen (j + 1) hj
  rw [hdec] at hs
  have h2 := (List.pairwise_append.mp hs).2.2
  have hmem1 : is.getD j default ∈ leftSeg is cs (j + 1) := by
    simp only [leftSeg]
    apply mem_interleave_of_mem_item
    · rw [List.getD_eq_getElem is default hjs]
      have h9 : (is.take (j + 1)).get ⟨j, by simp; omega⟩ = is[j] :=
        List.getElem_take _
      rw [← h9]
      exact List.get_mem _ _ _
    · simp
      omega
  exact h2 _ hmem1 b (List.mem_append.mpr (Or.inl hb))

/-- Segment bounds at the not-found insertion point: everything left of the
target child is less than the target, everything right is greater. -/
theorem seg_bounds_not_found {less : α → α → Bool} [Inhabited α] (hl : LawfulLess less)
    {is : List α} {cs : List (Node α)} (hlen : cs.length = is.length + 1)
    (hs : SortedL less (Node.toList (.mk is cs))) (x : α)
    (hnf : (find less is x).2 = false) :
    (find less is x).1 < cs.length ∧
    (∀ a ∈ leftSeg is cs (find less is x).1, less a x = true) ∧
    (∀ b ∈ rightSeg is cs (find less is x).1, less x b = true) := by
  have his : SortedL less is := sorted_items (Or.inr hlen) hs
  obtain ⟨_q1, q2, q3, q4⟩ := find_not_found hl his x hnf
  refine ⟨by omega, ?_, ?_⟩
  · intro a ha
    simp only [leftSeg] at ha
    rcases mem_interleave_cases _ _ ha with ⟨l, hlm, hal⟩ | hax
    · obtain ⟨c, hc, rfl⟩ := List.mem_map.mp hlm
      obtain ⟨k, hk2, hk1, hck⟩ := mem_take_getElem hc
      have hkis : k < is.length := by omega
      have hmem : a ∈ Node.toList (cs.getD k default) := by
        rw [List.getD_eq_getElem cs default hk2, hck]
        exact hal
      have h5 := child_lt_item hlen hs k hkis a hmem
      exact hl.lt_trans h5 (q3 k (by omega))
    · obtain ⟨k, hk2, hk1, hik⟩ := mem_take_getElem hax
      have h6 := q3 k (by omega)
      rw [List.getD_eq_getElem is default hk2, hik] at h6
      exact h6
  · intro b hb
    simp only [rightSeg] at hb
    by_cases hii : (find less is x).1 < is.length
    · rw [if_pos hii] at hb
      rcases List.mem_cons.mp hb with h | h
      · subst h
        exact q4 _ le_rfl hii
      · rcases mem_interleave_cases _ _ h with ⟨l, hlm, hbl⟩ | hbx
        · obtain ⟨c, hc, rfl⟩ := List.mem_map.mp hlm
          obtain ⟨k, hk2, hk1, hck⟩ := mem_drop_getElem hc
          have hk3 : k - 1 < is.length := by omega
          have hmem : b ∈ Node.toList (cs.getD (k - 1 + 1) default) := by
            have hkk : k - 1 + 1 = k := by omega
            rw [hkk, List.getD_eq_getElem cs default hk2, hck]
            exact hbl
          have h5 := item_lt_child hlen hs (k - 1) (by omega) hk3 b hmem
          have h6 := q4 (k - 1) (by omega) hk3
          exact hl.lt_trans h6 h5
        · obtain ⟨k, hk2, hk1, hik⟩ := mem_drop_getElem hbx
          have h6 := q4 k (by omega) hk2
          rw [List.getD_eq_getElem is default hk2, hik] at h6
          exact h6
    · rw [if_neg hii] at hb
      simp at hb

/-- Segment bounds at a found index: the item there is order-equal to the
target and everything before it (including the whole child below it) is less
than the target. -/
theorem seg_bounds_found {less : α → α → Bool} [Inhabited α] (hl : LawfulLess less)
    {is : List α} {cs : List (Node α)} (hlen : cs.length = is.length + 1)
    (hs : SortedL less (Node.toList (.mk is cs))) (x : α)
    (hf : (find less is x).2 = true) :
    (find less is x).1 < is.length ∧
    eqv less x (is.getD (find less is x).1 default) ∧
    (∀ a ∈ leftSeg is cs (find less is x).1, less a x = true) ∧
    (∀ a ∈ Node.toList (cs.getD (find less is x).1 default), less a x = true) := by
  have his : SortedL less is := sorted_items (Or.inr hlen) hs
  obtain ⟨p1, p2, _p3⟩ := find_found hl his x hf
  refine ⟨p1, p2, ?_, ?_⟩
  · intro a ha
    simp only [leftSeg] at ha
    rcases mem_interleave_cases _ _ ha with ⟨l, hlm, hal⟩ | hax
    · obtain ⟨c, hc, rfl⟩ := List.mem_map.mp hlm
      obtain ⟨k, hk2, hk1, hck⟩ := mem_take_getElem hc
      have hkis : k < is.length := by omega
      have hmem : a ∈ Node.toList (cs.getD k default) := by
        rw [List.getD_eq_getElem cs default hk2, hck]
        exact hal
      have h5 := child_lt_item hlen hs k hkis a hmem
      have h6 : less (is.getD k default) x = true := by
        have h7 : less (is.getD k default) (is.getD (find less is x).1 default) = true := by
          rw [List.getD_eq_getElem is default hkis, List.getD_eq_getElem is default p1]
          exact his.rel hk1 p1
        exact hl.lt_of_lt_of_nlt h7 p2.1
      exact hl.lt_trans h5 h6
    · obtain ⟨k, hk2, hk1, hik⟩ := mem_take_getElem hax
      have h7 : less a (is.getD (find less is x).1 default) = true := by
        rw [List.getD_eq_getElem is default p1, ← hik]
        exact his.rel hk1 p1
      exact hl.lt_of_lt_of_nlt h7 p2.1
  · intro a ha
    have h5 := child_lt_item hlen hs (find less is x).1 p1 a ha
    exact hl.lt_of_lt_of_nlt h5 p2.1

/-! ## The structural invariant: child counts, item bounds, uniform height -/

/-- Well-formedness of a subtree relative to the tree's item bounds: the
child/item count invariant, at most `maxI` items everywhere, at least `minI`
items on every non-root node, and all children one level below the node. -/
def Node.wfB (minI maxI : Nat) (root : Bool) : Node α → Bool
  | .mk is cs =>
    (cs.isEmpty || (cs.length == is.length + 1)) &&
    decide (is.length ≤ maxI) &&
    (root || decide (minI ≤ is.length)) &&
    cs.attach.all (fun c => Node.wfB minI maxI false c.1 &&
      (c.1.height + 1 == Node.height (.mk is cs)))
decreasing_by
  have := List.sizeOf_lt_of_mem c.2
  cases c; simp at *; omega

theorem Node.wfB_iff (minI maxI : Nat) (root : Bool) (is : List α)
    (cs : List (Node α)) :
    Node.wfB minI maxI root (.mk is cs) = true ↔
      (cs = [] ∨ cs.length = is.length + 1) ∧
      is.length ≤ maxI ∧
      (root = true ∨ minI ≤ is.length) ∧
      (∀ c ∈ cs, Node.wfB minI maxI false c = true ∧
        c.height + 1 = Node.height (.mk is cs)) := by
  rw [Node.wfB]
  simp [List.all_eq_true, List.isEmpty_iff, and_assoc]

theorem Node.wfB_countsOK {minI maxI : Nat} :
    ∀ (H : Nat) {ro : Bool} (n : Node α), n.height ≤ H →
      Node.wfB minI maxI ro n = true → Node.countsOK n = true := by
  intro H
  induction H with
  | zero =>
    intro ro n hh hw
    cases n with
    | mk is cs =>
      rw [Node.wfB_iff] at hw
      rw [Node.countsOK_iff]
      have hcs : cs = [] := by
        cases cs with
        | nil => rfl
        | cons c cs2 =>
          have := Node.height_pos_of_child (.mk is (c :: cs2)) (by simp)
          omega
      subst hcs
      simp
  | succ H ih =>
    intro ro n hh hw
    cases n with
    | mk is cs =>
      rw [Node.wfB_iff] at hw
      rw [Node.countsOK_iff]
      refine ⟨hw.1, ?_⟩
      intro c hc
      have hch : c.height < (Node.mk is cs).height :=
        Node.height_child_lt _ c (by simpa using hc)
      exact ih c (by omega) (hw.2.2.2 c hc).1

/-- A node's height, under the uniform-height invariant, is one more than any
child's. -/
theorem Node.height_of_child_wf {minI maxI : Nat} {ro : Bool} {is : List α}
    {cs : List (Node α)} (hw : Node.wfB minI maxI ro (.mk is cs) = true)
    {c : Node α} (hc : c ∈ cs) :
    Node.height (.mk is cs) = c.height + 1 := by
  rw [Node.wfB_iff] at hw
  exact ((hw.2.2.2 c hc).2).symm

theorem interleave_snoc_eq (ls : List (List α)) (xs : List α) (l : List α)
    (h : ls.length = xs.length) :
    interleave (ls ++ [l]) xs = interleave ls xs ++ l := by
  induction ls generalizing xs with
  | nil =>
    cases xs with
    | nil => simp [interleave]
    | cons _ _ => simp at h
  | cons l0 ls ih =>
    cases xs with
    | nil => simp at h
    | cons x0 xs =>
      simp only [List.cons_append, interleave_cons]
      rw [ih xs (by simpa using h)]
      simp

/-- Structure of `node.split`: the node keeps the prefix, the returned `next`
node is the suffix, and together with the risen item they carry exactly the
original contents. -/
theorem split_spec [Inhabited α] (is : List α) (cs : List (Node α)) (i : Nat)
    (p : FreeList α) (hp : PoolEmpty p)
    (hcounts : cs = [] ∨ cs.length = is.length + 1)
    (hi : i < is.length) :
    (Node.split (.mk is cs) i p).item = is.getD i default ∧
    (Node.split (.mk is cs) i p).node = Node.mk (is.take i) (cs.take (i + 1)) ∧
    (Node.split (.mk is cs) i p).next = Node.mk (is.drop (i + 1)) (cs.drop (i + 1)) ∧
    PoolEmpty (Node.split (.mk is cs) i p).pool ∧
    Node.toList (Node.split (.mk is cs) i p).node ++
      (Node.split (.mk is cs) i p).item ::
        Node.toList (Node.split (.mk is cs) i p).next =
      Node.toList (.mk is cs) := by
  obtain ⟨hsh, hp1⟩ := PoolEmpty.newNode p hp
  have hpair : p.newNode = (Node.mk ([] : List α) ([] : List (Node α)), (p.newNode).2) := by
    rw [← hsh]
  have hb : Node.split (.mk is cs) i p =
      ⟨is.getD i default, Node.mk (is.take i) (cs.take (i + 1)),
        Node.mk (is.drop (i + 1)) (cs.drop (i + 1)), (p.newNode).2⟩ := by
    rw [Node.split, hpair]
    simp
  rw [hb]
  refine ⟨rfl, rfl, rfl, hp1, ?_⟩
  rcases hcounts with hc | hc
  · subst hc
    simp only [List.take_nil, List.drop_nil, Node.toList_leaf]
    conv_rhs => rw [← List.take_append_drop i is]
    rw [List.drop_eq_getElem_cons hi]
    rw [List.getD_eq_getElem is default hi]
  · have hic : i < cs.length := by omega
    have h1 : Node.toList (Node.mk (is.take i) (cs.take (i + 1))) =
        leftSeg is cs i ++ Node.toList (cs.getD i default) := by
      rw [Node.toList_inner _ _ (by
        intro hh
        rcases List.take_eq_nil_iff.mp hh with h9 | h9
        · omega
        · subst h9; simp at hc)]
      have ht : cs.take (i + 1) = cs.take i ++ [cs.getD i default] := by
        rw [List.take_succ, List.getElem?_eq_getElem hic]
        rw [List.getD_eq_getElem cs default hic]
        rfl
      rw [ht, List.map_append, List.map_singleton]
      rw [interleave_snoc_eq _ _ _ (by simp; omega)]
      simp only [leftSeg]
    have h2 : Node.toList (Node.mk (is.drop (i + 1)) (cs.drop (i + 1))) =
        interleave ((cs.drop (i + 1)).map Node.toList) (is.drop (i + 1)) := by
      rw [Node.toList_inner _ _ (by
        intro hh
        have h9 : cs.length - (i + 1) = 0 := by
          rw [← List.length_drop, hh]
          rfl
        omega)]
    rw [h1, h2]
    rw [toList_decomp is cs hc i hic]
    simp only [rightSeg]
    rw [if_pos hi]
    simp

/-! ## Node surgery helpers for insertion -/

theorem foldr_max_uniform (h : Nat) :
    ∀ (l : List Nat), l ≠ [] → (∀ y ∈ l, y = h) → l.foldr max 0 = h := by
  intro l
  induction l with
  | nil => intro h1 _; exact absurd rfl h1
  | cons a as ih =>
    intro _ h2
    cases as with
    | nil => simp [h2 a (by simp)]
    | cons b bs =>
      rw [List.foldr_cons]
      rw [ih (by simp) (fun y hy => h2 y (List.mem_cons_of_mem _ hy))]
      simp [h2 a (by simp)]

/-- A node whose children all have height `h` has height `h + 1`. -/
theorem Node.height_uniform (is : List α) (cs : List (Node α)) (h : Nat)
    (hne : cs ≠ []) (hall : ∀ c ∈ cs, Node.height c = h) :
    Node.height (.mk is cs) = h + 1 := by
  rw [Node.height_mk]
  rw [if_neg (by simpa [List.isEmpty_iff] using hne)]
  rw [foldr_max_uniform h (cs.map Node.height) (by simpa using hne) ?_]
  intro y hy
  obtain ⟨c, hc, rfl⟩ := List.mem_map.mp hy
  exact hall c hc

/-- Height ignores the item list. -/
theorem Node.height_items_irrel (is1 is2 : List α) (cs : List (Node α)) :
    Node.height (.mk is1 cs) = Node.height (.mk is2 cs) := by
  rw [Node.height_mk, Node.height_mk]

theorem insertAt_cons_succ {β : Type} (a : β) (l : List β) (j : Nat) (x : β) :
    insertAt (a :: l) (j + 1) x = a :: insertAt l j x := by
  simp [insertAt]

theorem insertAt_set_succ {β : Type} (cs : List β) (i : Nat) (hi : i < cs.length)
    (F N : β) :
    insertAt (cs.set i F) (i + 1) N = cs.take i ++ F :: N :: cs.drop (i + 1) := by
  induction cs generalizing i with
  | nil => simp at hi
  | cons a as ih =>
    cases i with
    | zero => simp [insertAt]
    | succ i =>
      rw [List.set_cons_succ, insertAt_cons_succ, ih i (by simpa using hi)]
      simp

theorem take_length_append {β : Type} (A B : List β) (i : Nat) (h : A.length = i) :
    (A ++ B).take i = A := by
  subst h
  exact List.take_left A B

theorem drop_length_append {β : Type} (A B : List β) (i : Nat) (h : A.length = i) :
    (A ++ B).drop i = B := by
  subst h
  exact List.drop_left A B

theorem set_append_length {β : Type} (A : List β) (b c : β) (rest : List β) :
    (A ++ b :: rest).set A.length c = A ++ c :: rest := by
  induction A with
  | nil => simp
  | cons a A ih => simp [ih]

theorem getD_append_length {β : Type} [Inhabited β] (A : List β) (b : β)
    (rest : List β) : (A ++ b :: rest).getD A.length default = b := by
  induction A with
  | nil => simp
  | cons a A ih => simpa using ih

theorem take_all_lt {less : α → α → Bool} [Inhabited α] {is : List α} {x : α}
    {i : Nat} (q3 : ∀ j, j < i → less (is.getD j default) x = true) :
    ∀ a ∈ is.take i, less a x = true := by
  intro a ha
  obtain ⟨j, hj2, hj1, hij⟩ := mem_take_getElem ha
  have := q3 j hj1
  rwa [List.getD_eq_getElem is default hj2, hij] at this

theorem drop_all_gt {less : α → α → Bool} [Inhabited α] {is : List α} {x : α}
    {i : Nat} (q4 : ∀ j, i ≤ j → j < is.length → less x (is.getD j default) = true) :
    ∀ b ∈ is.drop i, less x b = true := by
  intro b hb
  obtain ⟨j, hj2, hj1, hij⟩ := mem_drop_getElem hb
  have := q4 j hj1 hj2
  rwa [List.getD_eq_getElem is default hj2, hij] at this

@[simp] theorem interleave_cons_nil (l : List α) (ls : List (List α)) :
    interleave (l :: ls) [] = l := rfl

/-- The contents of a node after splitting child `i` into `F`, median `m`,
and `N`. -/
theorem toList_splitChild [Inhabited α] (is : List α) (cs : List (Node α))
    (hlen : cs.length = is.length + 1) (i : Nat) (hi : i < cs.length)
    (F N : Node α) (m : α) :
    Node.toList (.mk (insertAt is i m) (insertAt (cs.set i F) (i + 1) N)) =
      leftSeg is cs i ++ (F.toList ++ m :: (N.toList ++ rightSeg is cs i)) := by
  rw [insertAt_set_succ cs i hi F N]
  have hii : i ≤ is.length := by omega
  have hch : cs.take i ++ F :: N :: cs.drop (i + 1) ≠ [] := by
    intro hh
    have h9 := congrArg List.length hh
    simp at h9
  rw [Node.toList_inner _ _ hch]
  rw [List.map_append]
  have hlenA : ((cs.take i).map Node.toList).length = i := by simp; omega
  have hlenI : (is.take i).length = i := by simp; omega
  have hsplit := interleave_split
    ((cs.take i).map Node.toList ++ (F :: N :: cs.drop (i + 1)).map Node.toList)
    (insertAt is i m) i (by simp [insertAt]; omega) (by simp [insertAt]; omega)
  rw [hsplit]
  have ht1 : ((cs.take i).map Node.toList ++
      (F :: N :: cs.drop (i + 1)).map Node.toList).take i =
        (cs.take i).map Node.toList :=
    take_length_append _ _ i hlenA
  have ht2 : (insertAt is i m).take i = is.take i := by
    rw [insertAt]
    exact take_length_append _ _ i hlenI
  have ht3 : ((cs.take i).map Node.toList ++
      (F :: N :: cs.drop (i + 1)).map Node.toList).drop i =
        (F :: N :: cs.drop (i + 1)).map Node.toList :=
    drop_length_append _ _ i hlenA
  have ht4 : (insertAt is i m).drop i = m :: is.drop i := by
    rw [insertAt]
    exact drop_length_append _ _ i hlenI
  rw [ht1, ht2, ht3, ht4]
  simp only [List.map_cons, interleave_cons, leftSeg]
  congr 2
  have hfin : interleave (Node.toList N :: (cs.drop (i + 1)).map Node.toList)
      (is.drop i) = N.toList ++ rightSeg is cs i := by
    by_cases hii2 : i < is.length
    · rw [List.drop_eq_getElem_cons hii2, interleave_cons]
      simp only [rightSeg]
      rw [if_pos hii2]
      rw [List.getD_eq_getElem is default hii2]
    · have hd : is.drop i = [] := List.drop_eq_nil_iff.mpr (by omega)
      rw [hd, interleave_cons_nil]
      simp only [rightSeg]
      rw [if_neg hii2]
      simp
  rw [hfin]

/-! ## Functional correctness of insertion -/

/-- Everything `Node.insert` guarantees: the contents become the list-level
replace-or-insert, the returned pair reports exactly whether an order-equal
element existed (and which one was overwritten, in place), the structural
invariant and height are preserved, the item count grows by at most one, and
the pool stays a pool of empty shells. -/
def InsertOK (less : α → α → Bool) [Inhabited α] (minI maxI : Nat) (ro : Bool)
    (x : α) (n : Node α) (r : MutRes α) : Prop :=
  r.node.toList = listRI less x n.toList ∧
  (r.outb = true ↔ ∃ a ∈ n.toList, eqv less x a) ∧
  (r.outb = true → ∃ A B, n.toList = A ++ r.out :: B ∧ eqv less x r.out ∧
      r.node.toList = A ++ x :: B) ∧
  Node.wfB minI maxI ro r.node = true ∧
  r.node.height = n.height ∧
  n.items.length ≤ r.node.items.length ∧
  r.node.items.length ≤ n.items.length + 1 ∧
  PoolEmpty r.pool

theorem insert_spec_leaf {less : α → α → Bool} [Inhabited α] (hl : LawfulLess less)
    (minI maxI : Nat) (ro : Bool) (is : List α) (x : α) (f : Nat) (p : FreeList α)
    (hw : Node.wfB minI maxI ro (.mk is []) = true)
    (hs : SortedL less (Node.toList (.mk is [])))
    (hroom : is.length < maxI) (hp : PoolEmpty p) :
    InsertOK less minI maxI ro x (.mk is [])
      (Node.insert less (f + 1) x maxI (.mk is []) p) := by
  have hsis : SortedL less is := by simpa using hs
  rcases hfind : find less is x with ⟨i, found⟩
  rw [Node.wfB_iff] at hw
  cases found with
  | true =>
    have hres : Node.insert less (f + 1) x maxI (.mk is []) p =
        ⟨.mk (is.set i x) [], is.getD i default, true, p⟩ := by
      rw [Node.insert]
      simp [Node.items_mk, hfind]
    obtain ⟨hfl, hfe, _⟩ := find_found hl hsis x (by rw [hfind])
    rw [hfind] at hfl hfe
    simp only at hfl hfe
    have hAlt : ∀ a ∈ is.take i, less a x = true := by
      intro a ha
      obtain ⟨j, hj2, hj1, hij⟩ := mem_take_getElem ha
      have h7 : less a (is.getD i default) = true := by
        rw [List.getD_eq_getElem is default hfl, ← hij]
        exact hsis.rel hj1 hfl
      exact hl.lt_of_lt_of_nlt h7 hfe.1
    have hisdec : is = is.take i ++ is.getD i default :: is.drop (i + 1) := by
      conv_lhs => rw [← List.take_append_drop i is]
      rw [List.drop_eq_getElem_cons hfl, List.getD_eq_getElem is default hfl]
    have hset : is.set i x = is.take i ++ x :: is.drop (i + 1) :=
      List.set_eq_take_cons_drop x hfl
    have hRI : listRI less x is = is.take i ++ x :: is.drop (i + 1) := by
      conv_lhs => rw [hisdec]
      exact listRI_length_found x _ _ _ hAlt hfe hl
    rw [hres]
    refine ⟨?_, ?_, ?_, ?_, ?_, ?_, ?_, hp⟩
    · simp only [Node.toList_leaf]
      rw [hset, hRI]
    · simp only [Node.toList_leaf]
      exact ⟨fun _ => ⟨is.getD i default, getD_mem is i hfl, hfe⟩, fun _ => by trivial⟩
    · intro _
      refine ⟨is.take i, is.drop (i + 1), ?_, hfe, ?_⟩
      · simpa only [Node.toList_leaf] using hisdec
      · simp only [Node.toList_leaf]
        exact hset
    · rw [Node.wfB_iff]
      refine ⟨Or.inl rfl, by simp [hw.2.1], ?_, by simp⟩
      rcases hw.2.2.1 with h | h
      · exact Or.inl h
      · exact Or.inr (by simp [h])
    · simp
    · simp
    · simp
  | false =>
    have hres : Node.insert less (f + 1) x maxI (.mk is []) p =
        ⟨.mk (insertAt is i x) [], default, false, p⟩ := by
      rw [Node.insert]
      simp [Node.items_mk, hfind]
    obtain ⟨_q1, q2, q3, q4⟩ := find_not_found hl hsis x (by rw [hfind])
    rw [hfind] at q2 q3 q4
    simp only at q2 q3 q4
    have hA := take_all_lt q3
    have hB := drop_all_gt q4
    have hRI : listRI less x is = is.take i ++ x :: is.drop i := by
      conv_lhs => rw [← List.take_append_drop i is]
      rw [listRI_append_left x hA hl, listRI_not_found x hB]
    rw [hres]
    refine ⟨?_, ?_, ?_, ?_, ?_, ?_, ?_, hp⟩
    · simp only [Node.toList_leaf]
      rw [hRI]
      rfl
    · simp only [Node.toList_leaf]
      constructor
      · intro h
        exact absurd h (by simp)
      · intro hex
        have h8 := (find_found_iff hl hsis x).mpr hex
        rw [hfind] at h8
        simp at h8
    · intro h
      simp at h
    · rw [Node.wfB_iff]
      refine ⟨Or.inl rfl, ?_, ?_, by simp⟩
      · rw [length_insertAt is i x q2]
        omega
      · rcases hw.2.2.1 with h | h
        · exact Or.inl h
        · refine Or.inr ?_
          rw [length_insertAt is i x q2]
          omega
    · simp
    · simp only [Node.items_mk]
      rw [length_insertAt is i x q2]
      omega
    · simp only [Node.items_mk]
      rw [length_insertAt is i x q2]

/-- Everything the insertion proof needs to know about splitting a full
child: the median and the two halves, their order relations, invariants,
heights and sizes. -/
theorem split_child_facts {less : α → α → Bool} [Inhabited α] (hl : LawfulLess less)
    (minI maxI : Nat) (hminI : 1 ≤ minI) (hmaxI : maxI = 2 * minI + 1)
    (fis : List α) (fcs : List (Node α)) (p : FreeList α) (hp : PoolEmpty p)
    (hw : Node.wfB minI maxI false (.mk fis fcs) = true)
    (hsrt : SortedL less (Node.toList (.mk fis fcs)))
    (hfull : fis.length = maxI) :
    Node.toList (.mk fis fcs) =
      (Node.split (.mk fis fcs) (maxI / 2) p).node.toList ++
        (Node.split (.mk fis fcs) (maxI / 2) p).item ::
          (Node.split (.mk fis fcs) (maxI / 2) p).next.toList ∧
    (∀ a ∈ (Node.split (.mk fis fcs) (maxI / 2) p).node.toList,
      less a (Node.split (.mk fis fcs) (maxI / 2) p).item = true) ∧
    (∀ b ∈ (Node.split (.mk fis fcs) (maxI / 2) p).next.toList,
      less (Node.split (.mk fis fcs) (maxI / 2) p).item b = true) ∧
    SortedL less (Node.split (.mk fis fcs) (maxI / 2) p).node.toList ∧
    SortedL less (Node.split (.mk fis fcs) (maxI / 2) p).next.toList ∧
    Node.wfB minI maxI false (Node.split (.mk fis fcs) (maxI / 2) p).node = true ∧
    Node.wfB minI maxI false (Node.split (.mk fis fcs) (maxI / 2) p).next = true ∧
    (Node.split (.mk fis fcs) (maxI / 2) p).node.height = Node.height (.mk fis fcs) ∧
    (Node.split (.mk fis fcs) (maxI / 2) p).next.height = Node.height (.mk fis fcs) ∧
    (Node.split (.mk fis fcs) (maxI / 2) p).node.items.length = minI ∧
    (Node.split (.mk fis fcs) (maxI / 2) p).next.items.length = minI ∧
    PoolEmpty (Node.split (.mk fis fcs) (maxI / 2) p).pool := by
  have hidx : maxI / 2 = minI := by omega
  rw [Node.wfB_iff] at hw
  have hcnt := hw.1
  obtain ⟨_hitem, hnode, hnext, hpool, hglue⟩ :=
    split_spec fis fcs (maxI / 2) p hp hcnt (by omega)
  have hglue2 : Node.toList (.mk fis fcs) =
      (Node.split (.mk fis fcs) (maxI / 2) p).node.toList ++
        (Node.split (.mk fis fcs) (maxI / 2) p).item ::
          (Node.split (.mk fis fcs) (maxI / 2) p).next.toList := hglue.symm
  have hsrt2 := hsrt
  rw [hglue2] at hsrt2
  have hpw := List.pairwise_append.mp hsrt2
  have hFm : ∀ a ∈ (Node.split (.mk fis fcs) (maxI / 2) p).node.toList,
      less a (Node.split (.mk fis fcs) (maxI / 2) p).item = true := by
    intro a ha
    exact hpw.2.2 a ha _ (by simp)
  have hmN : ∀ b ∈ (Node.split (.mk fis fcs) (maxI / 2) p).next.toList,
      less (Node.split (.mk fis fcs) (maxI / 2) p).item b = true := by
    intro b hb
    exact (List.pairwise_cons.mp hpw.2.1).1 b hb
  have hsF : SortedL less (Node.split (.mk fis fcs) (maxI / 2) p).node.toList := hpw.1
  have hsN : SortedL less (Node.split (.mk fis fcs) (maxI / 2) p).next.toList :=
    (List.pairwise_cons.mp hpw.2.1).2
  have hTake : (fis.take (maxI / 2)).length = minI := by
    rw [List.length_take]
    omega
  have hDrop : (fis.drop (maxI / 2 + 1)).length = minI := by
    rw [List.length_drop]
    omega
  rcases hcnt with hfcs | hfcs
  · -- leaf child: both halves are leaves
    have hF : Node.wfB minI maxI false (Node.split (.mk fis fcs) (maxI / 2) p).node = true := by
      rw [hnode, hfcs]
      rw [Node.wfB_iff]
      exact ⟨Or.inl (by simp), by rw [hTake]; omega, Or.inr (by rw [hTake]), by simp⟩
    have hN : Node.wfB minI maxI false (Node.split (.mk fis fcs) (maxI / 2) p).next = true := by
      rw [hnext, hfcs]
      rw [Node.wfB_iff]
      exact ⟨Or.inl (by simp), by rw [hDrop]; omega, Or.inr (by rw [hDrop]), by simp⟩
    refine ⟨hglue2, hFm, hmN, hsF, hsN, hF, hN, ?_, ?_, ?_, ?_, hpool⟩
    · rw [hnode, hfcs]
      simp
    · rw [hnext, hfcs]
      simp
    · rw [hnode]
      simpa using hTake
    · rw [hnext]
      simpa using hDrop
  · -- internal child: the halves keep one more child than items
    have hfne : fcs ≠ [] := by
      intro hh
      rw [hh] at hfcs
      simp at hfcs
    obtain ⟨c0, hc0⟩ : ∃ c0, c0 ∈ fcs := by
      cases fcs with
      | nil => exact absurd rfl hfne
      | cons c0 _ => exact ⟨c0, by simp⟩
    have hh0 : Node.height (.mk fis fcs) = c0.height + 1 :=
      ((hw.2.2.2 c0 hc0).2).symm
    have huh : ∀ c ∈ fcs, c.height = c0.height := by
      intro c hc
      have := (hw.2.2.2 c hc).2
      omega
    have hTakeC : (fcs.take (maxI / 2 + 1)).length = minI + 1 := by
      rw [List.length_take]
      omega
    have hDropC : (fcs.drop (maxI / 2 + 1)).length = minI + 1 := by
      rw [List.length_drop]
      omega
    have hTne : fcs.take (maxI / 2 + 1) ≠ [] := by
      intro hh
      have := congrArg List.length hh
      rw [hTakeC] at this
      simp at this
    have hDne : fcs.drop (maxI / 2 + 1) ≠ [] := by
      intro hh
      have := congrArg List.length hh
      rw [hDropC] at this
      simp at this
    have hHF : Node.height (.mk (fis.take (maxI / 2)) (fcs.take (maxI / 2 + 1))) =
        c0.height + 1 := by
      apply Node.height_uniform _ _ c0.height hTne
      intro c hc
      exact huh c (List.mem_of_mem_take hc)
    have hHN : Node.height (.mk (fis.drop (maxI / 2 + 1)) (fcs.drop (maxI / 2 + 1))) =
        c0.height + 1 := by
      apply Node.height_uniform _ _ c0.height hDne
      intro c hc
      exact huh c (List.mem_of_mem_drop hc)
    have hF : Node.wfB minI maxI false (Node.split (.mk fis fcs) (maxI / 2) p).node = true := by
      rw [hnode, Node.wfB_iff]
      refine ⟨Or.inr (by rw [hTakeC, hTake]), by rw [hTake]; omega,
        Or.inr (by rw [hTake]), ?_⟩
      intro c hc
      have hcm := List.mem_of_mem_take hc
      refine ⟨(hw.2.2.2 c hcm).1, ?_⟩
      rw [hHF, huh c hcm]
    have hN : Node.wfB minI maxI false (Node.split (.mk fis fcs) (maxI / 2) p).next = true := by
      rw [hnext, Node.wfB_iff]
      refine ⟨Or.inr (by rw [hDropC, hDrop]), by rw [hDrop]; omega,
        Or.inr (by rw [hDrop]), ?_⟩
      intro c hc
      have hcm := List.mem_of_mem_drop hc
      refine ⟨(hw.2.2.2 c hcm).1, ?_⟩
      rw [hHN, huh c hcm]
    refine ⟨hglue2, hFm, hmN, hsF, hsN, hF, hN, ?_, ?_, ?_, ?_, hpool⟩
    · rw [hnode, hHF, hh0]
    · rw [hnext, hHN, hh0]
    · rw [hnode]
      simpa using hTake
    · rw [hnext]
      simpa using hDrop

theorem listRI_localize {less : α → α → Bool} (hl : LawfulLess less) (x : α)
    (L M R : List α) (hL : ∀ a ∈ L, less a x = true)
    (hR : ∀ b ∈ R, less x b = true) :
    listRI less x (L ++ (M ++ R)) = L ++ (listRI less x M ++ R) := by
  rw [listRI_append_left x hL hl]
  rw [listRI_append_right x hR M]

/-- Lifting the found/overwrite bookkeeping of a middle segment through
strictly-smaller left context and strictly-larger right context. -/
theorem insert_report_lift {less : α → α → Bool} [Inhabited α] (x : α)
    (L M M2 R : List α) (out : α) (outb : Bool)
    (hL : ∀ a ∈ L, less a x = true) (hR : ∀ b ∈ R, less x b = true)
    (hiff : outb = true ↔ ∃ a ∈ M, eqv less x a)
    (hAB : outb = true → ∃ A B, M = A ++ out :: B ∧ eqv less x out ∧
        M2 = A ++ x :: B) :
    (outb = true ↔ ∃ a ∈ L ++ (M ++ R), eqv less x a) ∧
    (outb = true → ∃ A B, L ++ (M ++ R) = A ++ out :: B ∧ eqv less x out ∧
        L ++ (M2 ++ R) = A ++ x :: B) := by
  constructor
  · constructor
    · intro h
      obtain ⟨a, ha, hax⟩ := hiff.mp h
      exact ⟨a, by simp [ha], hax⟩
    · rintro ⟨a, ha, hax⟩
      apply hiff.mpr
      rcases List.mem_append.mp ha with h | h
      · exact absurd (hL a h) (by simp [hax.2])
      · rcases List.mem_append.mp h with h | h
        · exact ⟨a, h, hax⟩
        · exact absurd (hR a h) (by simp [hax.1])
  · intro h
    obtain ⟨A, B, hM, hout, hM2⟩ := hAB h
    refine ⟨L ++ A, B ++ R, ?_, hout, ?_⟩
    · rw [hM]
      simp
    · rw [hM2]
      simp

theorem Node.wfB_items_le {minI maxI : Nat} {ro : Bool} (n : Node α)
    (hw : Node.wfB minI maxI ro n = true) : n.items.length ≤ maxI := by
  cases n with
  | mk is cs =>
    rw [Node.wfB_iff] at hw
    simpa using hw.2.1

/-- Replacing child `i` by an equally tall well-formed node preserves the
node invariant and the height. -/
theorem wfB_after_set {minI maxI : Nat} [Inhabited α] {ro : Bool}
    (is : List α) (cs : List (Node α))
    (hwf : Node.wfB minI maxI ro (.mk is cs) = true)
    (i : Nat) (hic : i < cs.length)
    (F : Node α) (hFw : Node.wfB minI maxI false F = true)
    (hFh : F.height = (cs.getD i default).height) :
    Node.wfB minI maxI ro (.mk is (cs.set i F)) = true ∧
    Node.height (.mk is (cs.set i F)) = Node.height (.mk is cs) := by
  rw [Node.wfB_iff] at hwf
  obtain ⟨hcnt, hmax, hmin, hkids⟩ := hwf
  have hch1 : (cs.getD i default).height + 1 = Node.height (.mk is cs) :=
    (hkids _ (getD_mem cs i hic)).2
  have hallc : ∀ c ∈ cs.set i F, c.height = (cs.getD i default).height := by
    intro c hcm
    rcases List.mem_or_eq_of_mem_set hcm with h | h
    · have h2 := (hkids c h).2
      omega
    · subst h
      exact hFh
  have hne : cs.set i F ≠ [] := by
    intro hh
    have h8 := congrArg List.length hh
    simp only [List.length_set, List.length_nil] at h8
    omega
  have hH2 : Node.height (.mk is (cs.set i F)) = (cs.getD i default).height + 1 :=
    Node.height_uniform _ _ _ hne hallc
  refine ⟨?_, by rw [hH2, hch1]⟩
  rw [Node.wfB_iff]
  refine ⟨?_, hmax, hmin, ?_⟩
  · rcases hcnt with h | h
    · subst h
      simp at hic
    · exact Or.inr (by simpa using h)
  · intro c hcm
    have hhc : c.height + 1 = Node.height (.mk is (cs.set i F)) := by
      rw [hH2, hallc c hcm]
    rcases List.mem_or_eq_of_mem_set hcm with h | h
    · exact ⟨(hkids c h).1, hhc⟩
    · subst h
      exact ⟨hFw, hhc⟩

/-- Replacing child `i` by two equally tall well-formed nodes with a fresh
separating item preserves the node invariant and the height (the shape a
child split leaves behind). -/
theorem wfB_after_split {minI maxI : Nat} [Inhabited α] {ro : Bool}
    (is : List α) (cs : List (Node α))
    (hwf : Node.wfB minI maxI ro (.mk is cs) = true)
    (i : Nat) (hic : i < cs.length)
    (hroom : is.length < maxI)
    (is2 : List α) (hleni2 : is2.length = is.length + 1)
    (F N : Node α)
    (hFw : Node.wfB minI maxI false F = true)
    (hNw : Node.wfB minI maxI false N = true)
    (hFh : F.height = (cs.getD i default).height)
    (hNh : N.height = (cs.getD i default).height) :
    Node.wfB minI maxI ro (.mk is2 (cs.take i ++ F :: N :: cs.drop (i + 1))) = true ∧
    Node.height (.mk is2 (cs.take i ++ F :: N :: cs.drop (i + 1))) =
      Node.height (.mk is cs) := by
  rw [Node.wfB_iff] at hwf
  obtain ⟨hcnt, hmax, hmin, hkids⟩ := hwf
  have hlen : cs.length = is.length + 1 := by
    rcases hcnt with h | h
    · subst h
      simp at hic
    · exact h
  have hch1 : (cs.getD i default).height + 1 = Node.height (.mk is cs) :=
    (hkids _ (getD_mem cs i hic)).2
  have hallc : ∀ c ∈ cs.take i ++ F :: N :: cs.drop (i + 1),
      c.height = (cs.getD i default).height := by
    intro c hcm
    rcases List.mem_append.mp hcm with h | h
    · have h2 := (hkids c (List.mem_of_mem_take h)).2
      omega
    · rcases List.mem_cons.mp h with h | h
      · subst h
        exact hFh
      · rcases List.mem_cons.mp h with h | h
        · subst h
          exact hNh
        · have h2 := (hkids c (List.mem_of_mem_drop h)).2
          omega
  have hne : cs.take i ++ F :: N :: cs.drop (i + 1) ≠ [] := by simp
  have hH2 : Node.height (.mk is2 (cs.take i ++ F :: N :: cs.drop (i + 1))) =
      (cs.getD i default).height + 1 :=
    Node.height_uniform _ _ _ hne hallc
  have hlenc : (cs.take i ++ F :: N :: cs.drop (i + 1)).length = cs.length + 1 := by
    simp
    omega
  refine ⟨?_, by rw [hH2, hch1]⟩
  rw [Node.wfB_iff]
  refine ⟨Or.inr (by rw [hlenc, hleni2]; omega), by omega, ?_, ?_⟩
  · rcases hmin with h | h
    · exact Or.inl h
    · exact Or.inr (by omega)
  · intro c hcm
    have hhc : c.height + 1 =
        Node.height (.mk is2 (cs.take i ++ F :: N :: cs.drop (i + 1))) := by
      rw [hH2, hallc c hcm]
    rcases List.mem_append.mp hcm with h | h
    · exact ⟨(hkids c (List.mem_of_mem_take h)).1, hhc⟩
    · rcases List.mem_cons.mp h with h | h
      · subst h
        exact ⟨hFw, hhc⟩
      · rcases List.mem_cons.mp h with h | h
        · subst h
          exact ⟨hNw, hhc⟩
        · exact ⟨(hkids c (List.mem_of_mem_drop h)).1, hhc⟩


/-- Functional correctness of `node.insert` on any node below the root split
guard: with room in the node, a sorted well-formed subtree and enough fuel,
insertion realises the list-level replace-or-insert and preserves the
structural invariant.  `H` bounds the height for the induction. -/
theorem insert_spec {less : α → α → Bool} [Inhabited α] (hl : LawfulLess less)
    (minI maxI : Nat) (hminI : 1 ≤ minI) (hmaxI : maxI = 2 * minI + 1) :
    ∀ (H : Nat) (ro : Bool) (n : Node α) (x : α) (f : Nat) (p : FreeList α),
      n.height ≤ H → Node.wfB minI maxI ro n = true →
      SortedL less n.toList → n.items.length < maxI → n.height < f →
      PoolEmpty p →
      InsertOK less minI maxI ro x n (Node.insert less f x maxI n p) := by
  intro H
  induction H with
  | zero =>
    intro ro n x f p hh hw hs hroom hfuel hp
    cases n with
    | mk is cs =>
      have hcs : cs = [] := by
        cases cs with
        | nil => rfl
        | cons c cs2 =>
          have := Node.height_pos_of_child (.mk is (c :: cs2)) (by simp)
          omega
      subst hcs
      cases f with
      | zero => omega
      | succ f2 =>
        exact insert_spec_leaf hl minI maxI ro is x f2 p hw hs (by simpa using hroom) hp
  | succ H ih =>
    intro ro n x f p hh hw hs hroom hfuel hp
    cases n with
    | mk is cs =>
      by_cases hcse : cs = []
      · subst hcse
        cases f with
        | zero => omega
        | succ f2 =>
          exact insert_spec_leaf hl minI maxI ro is x f2 p hw hs (by simpa using hroom) hp
      · cases f with
        | zero => omega
        | succ f2 =>
          have hwff := (Node.wfB_iff minI maxI ro is cs).mp hw
          have hlen : cs.length = is.length + 1 := hwff.1.resolve_left hcse
          have hcsE : cs.isEmpty = false := by
            cases hE : cs.isEmpty with
            | false => rfl
            | true => exact absurd (List.isEmpty_iff.mp hE) hcse
          have hroomI : is.length < maxI := by simpa using hroom
          rcases hfind : find less is x with ⟨i, found⟩
          cases found with
          | true =>
            have hsb := seg_bounds_found hl hlen hs x (by rw [hfind])
            rw [hfind] at hsb
            simp only at hsb
            obtain ⟨hfl, hfe, hLlt, hClt⟩ := hsb
            have hicf : i < cs.length := by omega
            have hres : Node.insert less (f2 + 1) x maxI (.mk is cs) p =
                ⟨.mk (is.set i x) cs, is.getD i default, true, p⟩ := by
              rw [Node.insert]
              simp only [Node.items_mk, Node.children_mk, hfind, eq_self_iff_true, if_true]
            have hdec := toList_decomp is cs hlen i hicf
            have hRS : rightSeg is cs i = is.getD i default ::
                interleave ((cs.drop (i + 1)).map Node.toList) (is.drop (i + 1)) := by
              simp only [rightSeg]
              rw [if_pos hfl]
            have hA : ∀ a ∈ leftSeg is cs i ++ Node.toList (cs.getD i default),
                less a x = true := by
              intro a ha
              rcases List.mem_append.mp ha with h | h
              · exact hLlt a h
              · exact hClt a h
            have hgl : Node.toList (.mk is cs) =
                (leftSeg is cs i ++ Node.toList (cs.getD i default)) ++
                  is.getD i default ::
                    interleave ((cs.drop (i + 1)).map Node.toList) (is.drop (i + 1)) := by
              rw [hdec, hRS]
              simp [List.append_assoc]
            have hgl2 : Node.toList (.mk (is.set i x) cs) =
                (leftSeg is cs i ++ Node.toList (cs.getD i default)) ++
                  x :: interleave ((cs.drop (i + 1)).map Node.toList) (is.drop (i + 1)) := by
              rw [toList_set_item is cs hlen i hfl x]
              simp [List.append_assoc]
            have hwfs : Node.wfB minI maxI ro (.mk (is.set i x) cs) = true := by
              rw [Node.wfB_iff]
              refine ⟨Or.inr (by simpa using hlen), by simpa using hwff.2.1, ?_, ?_⟩
              · rcases hwff.2.2.1 with h | h
                · exact Or.inl h
                · exact Or.inr (by simpa using h)
              · intro c hcm
                refine ⟨(hwff.2.2.2 c hcm).1, ?_⟩
                rw [Node.height_items_irrel (is.set i x) is cs]
                exact (hwff.2.2.2 c hcm).2
            rw [hres]
            simp only [InsertOK]
            refine ⟨?_, ?_, ?_, hwfs, Node.height_items_irrel _ _ _, ?_, ?_, hp⟩
            · rw [hgl2, hgl, listRI_length_found x _ _ _ hA hfe hl]
            · constructor
              · intro _
                refine ⟨is.getD i default, ?_, hfe⟩
                rw [hgl]
                simp
              · intro _
                trivial
            · intro _
              exact ⟨leftSeg is cs i ++ Node.toList (cs.getD i default),
                interleave ((cs.drop (i + 1)).map Node.toList) (is.drop (i + 1)),
                hgl, hfe, hgl2⟩
            · simp only [Node.items_mk, List.length_set]
              omega
            · simp only [Node.items_mk, List.length_set]
              omega
          | false =>
            have hsis : SortedL less is := sorted_items (Or.inr hlen) hs
            have hsb := seg_bounds_not_found hl hlen hs x (by rw [hfind])
            rw [hfind] at hsb
            simp only at hsb
            obtain ⟨hic, hLlt, hRgt⟩ := hsb
            have hq := find_not_found hl hsis x (by rw [hfind])
            rw [hfind] at hq
            simp only at hq
            have hq2 : i ≤ is.length := hq.2.1
            have hq2c : i ≤ cs.length := by omega
            have hcmem : cs.getD i default ∈ cs := getD_mem cs i hic
            have hcwf : Node.wfB minI maxI false (cs.getD i default) = true :=
              (hwff.2.2.2 _ hcmem).1
            have hcsort : SortedL less (Node.toList (cs.getD i default)) :=
              sorted_child (Or.inr hlen) hs hcmem
            have hch1 : (cs.getD i default).height + 1 = Node.height (.mk is cs) :=
              (hwff.2.2.2 _ hcmem).2
            have hchH : (cs.getD i default).height ≤ H := by omega
            have hchf : (cs.getD i default).height < f2 := by omega
            by_cases hfull : (cs.getD i default).items.length < maxI
            · -- the child has room: no split, descend into child i
              have hmres : Node.maybeSplitChild (.mk is cs) i maxI p =
                  (false, .mk is cs, p) := by
                simp only [Node.maybeSplitChild, Node.children_mk]
                rw [dif_pos hic, if_pos hfull]
              have hres : Node.insert less (f2 + 1) x maxI (.mk is cs) p =
                  ⟨.mk is (cs.set i (Node.insert less f2 x maxI (cs.getD i default) p).node),
                    (Node.insert less f2 x maxI (cs.getD i default) p).out,
                    (Node.insert less f2 x maxI (cs.getD i default) p).outb,
                    (Node.insert less f2 x maxI (cs.getD i default) p).pool⟩ := by
                rw [Node.insert]
                simp only [Node.items_mk, Node.children_mk, hfind, hcsE, Bool.false_eq_true,
                  if_false, hmres, eq_self_iff_true, if_true]
                rw [dif_pos hic]
              have hIH := ih false (cs.getD i default) x f2 p hchH hcwf hcsort hfull hchf hp
              obtain ⟨ih1, ih2, ih3, ih4, ih5, ih6, ih7, ih8⟩ := hIH
              have hWH := wfB_after_set is cs hw i hic _ ih4 (by rw [ih5])
              have hTL := toList_set_child is cs hlen i hic
                (Node.insert less f2 x maxI (cs.getD i default) p).node
              have hlift := insert_report_lift x (leftSeg is cs i)
                (Node.toList (cs.getD i default))
                (Node.insert less f2 x maxI (cs.getD i default) p).node.toList
                (rightSeg is cs i)
                (Node.insert less f2 x maxI (cs.getD i default) p).out
                (Node.insert less f2 x maxI (cs.getD i default) p).outb
                hLlt hRgt ih2 ih3
              rw [hres]
              simp only [InsertOK]
              refine ⟨?_, ?_, ?_, hWH.1, hWH.2, ?_, ?_, ih8⟩
              · rw [hTL, ih1, toList_decomp is cs hlen i hic,
                  listRI_localize hl x _ _ _ hLlt hRgt]
              · rw [toList_decomp is cs hlen i hic]
                exact hlift.1
              · rw [toList_decomp is cs hlen i hic, hTL]
                exact hlift.2
              · simp only [Node.items_mk]
                omega
              · simp only [Node.items_mk]
                omega
            · -- the child is full: split it, then descend left, right, or stop
              have hfull2 : (cs.getD i default).items.length = maxI := by
                have h9 := Node.wfB_items_le (cs.getD i default) hcwf
                omega
              have hmkc : Node.mk (cs.getD i default).items (cs.getD i default).children =
                  cs.getD i default := Node.mk_items_children _
              have hSF := split_child_facts hl minI maxI hminI hmaxI
                (cs.getD i default).items (cs.getD i default).children p hp
                (by rw [hmkc]; exact hcwf) (by rw [hmkc]; exact hcsort) hfull2
              rw [hmkc] at hSF
              obtain ⟨sGlue, sFm, sMn, sSF, sSN, sWF, sWN, sHF, sHN, sLF, sLN, sPool⟩ := hSF
              have hmres : Node.maybeSplitChild (.mk is cs) i maxI p =
                  (true,
                    .mk (insertAt is i (Node.split (cs.getD i default) (maxI / 2) p).item)
                      (insertAt
                        (cs.set i (Node.split (cs.getD i default) (maxI / 2) p).node) (i + 1)
                        (Node.split (cs.getD i default) (maxI / 2) p).next),
                    (Node.split (cs.getD i default) (maxI / 2) p).pool) := by
                simp only [Node.maybeSplitChild, Node.children_mk, Node.items_mk]
                rw [dif_pos hic, if_neg hfull]
              have hins := insertAt_set_succ cs i hic
                (Node.split (cs.getD i default) (maxI / 2) p).node
                (Node.split (cs.getD i default) (maxI / 2) p).next
              have hgetDit : (insertAt is i
                  (Node.split (cs.getD i default) (maxI / 2) p).item).getD i default =
                  (Node.split (cs.getD i default) (maxI / 2) p).item := by
                have h9 := getD_append_length (is.take i)
                  (Node.split (cs.getD i default) (maxI / 2) p).item (is.drop i)
                rw [List.length_take, min_eq_left hq2] at h9
                rw [insertAt]
                exact h9
              cases hxlt : less x (Node.split (cs.getD i default) (maxI / 2) p).item with
              | true =>
                -- the new item sorts below the risen median: descend into the left half
                have hic2a : i < (insertAt
                    (cs.set i (Node.split (cs.getD i default) (maxI / 2) p).node) (i + 1)
                    (Node.split (cs.getD i default) (maxI / 2) p).next).length := by
                  rw [hins]
                  simp only [List.length_append, List.length_cons, List.length_take,
                    List.length_drop]
                  omega
                have hgetF : (insertAt
                    (cs.set i (Node.split (cs.getD i default) (maxI / 2) p).node) (i + 1)
                    (Node.split (cs.getD i default) (maxI / 2) p).next).getD i default =
                    (Node.split (cs.getD i default) (maxI / 2) p).node := by
                  rw [hins]
                  have h9 := getD_append_length (cs.take i)
                    (Node.split (cs.getD i default) (maxI / 2) p).node
                    ((Node.split (cs.getD i default) (maxI / 2) p).next :: cs.drop (i + 1))
                  rw [List.length_take, min_eq_left hq2c] at h9
                  exact h9
                have hsetF : (insertAt
                    (cs.set i (Node.split (cs.getD i default) (maxI / 2) p).node) (i + 1)
                    (Node.split (cs.getD i default) (maxI / 2) p).next).set i
                    (Node.insert less f2 x maxI
                      (Node.split (cs.getD i default) (maxI / 2) p).node
                      (Node.split (cs.getD i default) (maxI / 2) p).pool).node =
                    cs.take i ++
                      (Node.insert less f2 x maxI
                        (Node.split (cs.getD i default) (maxI / 2) p).node
                        (Node.split (cs.getD i default) (maxI / 2) p).pool).node ::
                      (Node.split (cs.getD i default) (maxI / 2) p).next ::
                        cs.drop (i + 1) := by
                  rw [hins]
                  have h9 := set_append_length (cs.take i)
                    (Node.split (cs.getD i default) (maxI / 2) p).node
                    (Node.insert less f2 x maxI
                      (Node.split (cs.getD i default) (maxI / 2) p).node
                      (Node.split (cs.getD i default) (maxI / 2) p).pool).node
                    ((Node.split (cs.getD i default) (maxI / 2) p).next :: cs.drop (i + 1))
                  rw [List.length_take, min_eq_left hq2c] at h9
                  exact h9
                have hres : Node.insert less (f2 + 1) x maxI (.mk is cs) p =
                    ⟨.mk (insertAt is i (Node.split (cs.getD i default) (maxI / 2) p).item)
                        (cs.take i ++
                          (Node.insert less f2 x maxI
                            (Node.split (cs.getD i default) (maxI / 2) p).node
                            (Node.split (cs.getD i default) (maxI / 2) p).pool).node ::
                          (Node.split (cs.getD i default) (maxI / 2) p).next ::
                            cs.drop (i + 1)),
                      (Node.insert less f2 x maxI
                        (Node.split (cs.getD i default) (maxI / 2) p).node
                        (Node.split (cs.getD i default) (maxI / 2) p).pool).out,
                      (Node.insert less f2 x maxI
                        (Node.split (cs.getD i default) (maxI / 2) p).node
                        (Node.split (cs.getD i default) (maxI / 2) p).pool).outb,
                      (Node.insert less f2 x maxI
                        (Node.split (cs.getD i default) (maxI / 2) p).node
                        (Node.split (cs.getD i default) (maxI / 2) p).pool).pool⟩ := by
                  rw [Node.insert]
                  simp only [Node.items_mk, Node.children_mk, hfind, hcsE, Bool.false_eq_true,
                    if_false, hmres, eq_self_iff_true, if_true, hgetDit, hxlt]
                  rw [dif_pos hic2a]
                  rw [hgetF, hsetF]
                have hIH := ih false (Node.split (cs.getD i default) (maxI / 2) p).node x f2
                  (Node.split (cs.getD i default) (maxI / 2) p).pool
                  (by rw [sHF]; exact hchH) sWF sSF (by rw [sLF]; omega)
                  (by rw [sHF]; exact hchf) sPool
                obtain ⟨ih1, ih2, ih3, ih4, ih5, ih6, ih7, ih8⟩ := hIH
                have hWH := wfB_after_split is cs hw i hic hroomI
                  (insertAt is i (Node.split (cs.getD i default) (maxI / 2) p).item)
                  (length_insertAt is i _ hq2)
                  (Node.insert less f2 x maxI
                    (Node.split (cs.getD i default) (maxI / 2) p).node
                    (Node.split (cs.getD i default) (maxI / 2) p).pool).node
                  (Node.split (cs.getD i default) (maxI / 2) p).next
                  ih4 sWN (by rw [ih5, sHF]) sHN
                have hinsR := insertAt_set_succ cs i hic
                  (Node.insert less f2 x maxI
                    (Node.split (cs.getD i default) (maxI / 2) p).node
                    (Node.split (cs.getD i default) (maxI / 2) p).pool).node
                  (Node.split (cs.getD i default) (maxI / 2) p).next
                have hTLr : Node.toList
                    (.mk (insertAt is i (Node.split (cs.getD i default) (maxI / 2) p).item)
                      (cs.take i ++
                        (Node.insert less f2 x maxI
                          (Node.split (cs.getD i default) (maxI / 2) p).node
                          (Node.split (cs.getD i default) (maxI / 2) p).pool).node ::
                        (Node.split (cs.getD i default) (maxI / 2) p).next ::
                          cs.drop (i + 1))) =
                    leftSeg is cs i ++
                      ((Node.insert less f2 x maxI
                        (Node.split (cs.getD i default) (maxI / 2) p).node
                        (Node.split (cs.getD i default) (maxI / 2) p).pool).node.toList ++
                        ((Node.split (cs.getD i default) (maxI / 2) p).item ::
                          ((Node.split (cs.getD i default) (maxI / 2) p).next.toList ++
                            rightSeg is cs i))) := by
                  rw [← hinsR]
                  exact toList_splitChild is cs hlen i hic _ _ _
                have hRb : ∀ b ∈ (Node.split (cs.getD i default) (maxI / 2) p).item ::
                    ((Node.split (cs.getD i default) (maxI / 2) p).next.toList ++
                      rightSeg is cs i), less x b = true := by
                  intro b hb
                  rcases List.mem_cons.mp hb with h | h
                  · subst h
                    exact hxlt
                  · rcases List.mem_append.mp h with h | h
                    · exact hl.lt_trans hxlt (sMn b h)
                    · exact hRgt b h
                have hassocG : Node.toList (.mk is cs) =
                    leftSeg is cs i ++
                      ((Node.split (cs.getD i default) (maxI / 2) p).node.toList ++
                        ((Node.split (cs.getD i default) (maxI / 2) p).item ::
                          ((Node.split (cs.getD i default) (maxI / 2) p).next.toList ++
                            rightSeg is cs i))) := by
                  rw [toList_decomp is cs hlen i hic, sGlue]
                  simp [List.append_assoc]
                have hlift := insert_report_lift x (leftSeg is cs i)
                  ((Node.split (cs.getD i default) (maxI / 2) p).node.toList)
                  ((Node.insert less f2 x maxI
                    (Node.split (cs.getD i default) (maxI / 2) p).node
                    (Node.split (cs.getD i default) (maxI / 2) p).pool).node.toList)
                  ((Node.split (cs.getD i default) (maxI / 2) p).item ::
                    ((Node.split (cs.getD i default) (maxI / 2) p).next.toList ++
                      rightSeg is cs i))
                  ((Node.insert less f2 x maxI
                    (Node.split (cs.getD i default) (maxI / 2) p).node
                    (Node.split (cs.getD i default) (maxI / 2) p).pool).out)
                  ((Node.insert less f2 x maxI
                    (Node.split (cs.getD i default) (maxI / 2) p).node
                    (Node.split (cs.getD i default) (maxI / 2) p).pool).outb)
                  hLlt hRb ih2 ih3
                rw [hres]
                simp only [InsertOK]
                refine ⟨?_, ?_, ?_, hWH.1, hWH.2, ?_, ?_, ih8⟩
                · rw [hTLr, hassocG, listRI_localize hl x _ _ _ hLlt hRb, ih1]
                · rw [hassocG]
                  exact hlift.1
                · rw [hassocG, hTLr]
                  exact hlift.2
                · simp only [Node.items_mk]
                  rw [length_insertAt is i _ hq2]
                  omega
                · simp only [Node.items_mk]
                  rw [length_insertAt is i _ hq2]
              | false =>
                cases hmlt : less (Node.split (cs.getD i default) (maxI / 2) p).item x with
                | true =>
                  -- the new item sorts above the risen median: descend into the right half
                  have hic2b : i + 1 < (insertAt
                      (cs.set i (Node.split (cs.getD i default) (maxI / 2) p).node) (i + 1)
                      (Node.split (cs.getD i default) (maxI / 2) p).next).length := by
                    rw [hins]
                    simp only [List.length_append, List.length_cons, List.length_take,
                      List.length_drop]
                    omega
                  have hgetN : (insertAt
                      (cs.set i (Node.split (cs.getD i default) (maxI / 2) p).node) (i + 1)
                      (Node.split (cs.getD i default) (maxI / 2) p).next).getD (i + 1)
                      default =
                      (Node.split (cs.getD i default) (maxI / 2) p).next := by
                    rw [hins]
                    have h9 := getD_append_length
                      (cs.take i ++ [(Node.split (cs.getD i default) (maxI / 2) p).node])
                      (Node.split (cs.getD i default) (maxI / 2) p).next (cs.drop (i + 1))
                    simp only [List.append_assoc, List.singleton_append, List.length_append,
                      List.length_take, List.length_singleton, min_eq_left hq2c] at h9
                    exact h9
                  have hsetN : (insertAt
                      (cs.set i (Node.split (cs.getD i default) (maxI / 2) p).node) (i + 1)
                      (Node.split (cs.getD i default) (maxI / 2) p).next).set (i + 1)
                      (Node.insert less f2 x maxI
                        (Node.split (cs.getD i default) (maxI / 2) p).next
                        (Node.split (cs.getD i default) (maxI / 2) p).pool).node =
                      cs.take i ++
                        (Node.split (cs.getD i default) (maxI / 2) p).node ::
                        (Node.insert less f2 x maxI
                          (Node.split (cs.getD i default) (maxI / 2) p).next
                          (Node.split (cs.getD i default) (maxI / 2) p).pool).node ::
                          cs.drop (i + 1) := by
                    rw [hins]
                    have h9 := set_append_length
                      (cs.take i ++ [(Node.split (cs.getD i default) (maxI / 2) p).node])
                      (Node.split (cs.getD i default) (maxI / 2) p).next
                      (Node.insert less f2 x maxI
                        (Node.split (cs.getD i default) (maxI / 2) p).next
                        (Node.split (cs.getD i default) (maxI / 2) p).pool).node
                      (cs.drop (i + 1))
                    simp only [List.append_assoc, List.singleton_append, List.length_append,
                      List.length_take, List.length_singleton, min_eq_left hq2c] at h9
                    exact h9
                  have hres : Node.insert less (f2 + 1) x maxI (.mk is cs) p =
                      ⟨.mk (insertAt is i (Node.split (cs.getD i default) (maxI / 2) p).item)
                          (cs.take i ++
                            (Node.split (cs.getD i default) (maxI / 2) p).node ::
                            (Node.insert less f2 x maxI
                              (Node.split (cs.getD i default) (maxI / 2) p).next
                              (Node.split (cs.getD i default) (maxI / 2) p).pool).node ::
                              cs.drop (i + 1)),
                        (Node.insert less f2 x maxI
                          (Node.split (cs.getD i default) (maxI / 2) p).next
                          (Node.split (cs.getD i default) (maxI / 2) p).pool).out,
                        (Node.insert less f2 x maxI
                          (Node.split (cs.getD i default) (maxI / 2) p).next
                          (Node.split (cs.getD i default) (maxI / 2) p).pool).outb,
                        (Node.insert less f2 x maxI
                          (Node.split (cs.getD i default) (maxI / 2) p).next
                          (Node.split (cs.getD i default) (maxI / 2) p).pool).pool⟩ := by
                    rw [Node.insert]
                    simp only [Node.items_mk, Node.children_mk, hfind, hcsE,
                      Bool.false_eq_true, if_false, hmres, eq_self_iff_true, if_true,
                      hgetDit, hxlt, hmlt]
                    rw [dif_pos hic2b]
                    rw [hgetN, hsetN]
                  have hIH := ih false (Node.split (cs.getD i default) (maxI / 2) p).next x f2
                    (Node.split (cs.getD i default) (maxI / 2) p).pool
                    (by rw [sHN]; exact hchH) sWN sSN (by rw [sLN]; omega)
                    (by rw [sHN]; exact hchf) sPool
                  obtain ⟨ih1, ih2, ih3, ih4, ih5, ih6, ih7, ih8⟩ := hIH
                  have hWH := wfB_after_split is cs hw i hic hroomI
                    (insertAt is i (Node.split (cs.getD i default) (maxI / 2) p).item)
                    (length_insertAt is i _ hq2)
                    (Node.split (cs.getD i default) (maxI / 2) p).node
                    (Node.insert less f2 x maxI
                      (Node.split (cs.getD i default) (maxI / 2) p).next
                      (Node.split (cs.getD i default) (maxI / 2) p).pool).node
                    sWF ih4 sHF (by rw [ih5, sHN])
                  have hinsN := insertAt_set_succ cs i hic
                    (Node.split (cs.getD i default) (maxI / 2) p).node
                    (Node.insert less f2 x maxI
                      (Node.split (cs.getD i default) (maxI / 2) p).next
                      (Node.split (cs.getD i default) (maxI / 2) p).pool).node
                  have hTLr : Node.toList
                      (.mk (insertAt is i (Node.split (cs.getD i default) (maxI / 2) p).item)
                        (cs.take i ++
                          (Node.split (cs.getD i default) (maxI / 2) p).node ::
                          (Node.insert less f2 x maxI
                            (Node.split (cs.getD i default) (maxI / 2) p).next
                            (Node.split (cs.getD i default) (maxI / 2) p).pool).node ::
                            cs.drop (i + 1))) =
                      leftSeg is cs i ++
                        ((Node.split (cs.getD i default) (maxI / 2) p).node.toList ++
                          ((Node.split (cs.getD i default) (maxI / 2) p).item ::
                            ((Node.insert less f2 x maxI
                              (Node.split (cs.getD i default) (maxI / 2) p).next
                              (Node.split (cs.getD i default) (maxI / 2) p).pool).node.toList
                              ++ rightSeg is cs i))) := by
                    rw [← hinsN]
                    exact toList_splitChild is cs hlen i hic _ _ _
                  have hTLr2 : Node.toList
                      (.mk (insertAt is i (Node.split (cs.getD i default) (maxI / 2) p).item)
                        (cs.take i ++
                          (Node.split (cs.getD i default) (maxI / 2) p).node ::
                          (Node.insert less f2 x maxI
                            (Node.split (cs.getD i default) (maxI / 2) p).next
                            (Node.split (cs.getD i default) (maxI / 2) p).pool).node ::
                            cs.drop (i + 1))) =
                      (leftSeg is cs i ++
                        ((Node.split (cs.getD i default) (maxI / 2) p).node.toList ++
                          [(Node.split (cs.getD i default) (maxI / 2) p).item])) ++
                        ((Node.insert less f2 x maxI
                          (Node.split (cs.getD i default) (maxI / 2) p).next
                          (Node.split (cs.getD i default) (maxI / 2) p).pool).node.toList ++
                          rightSeg is cs i) := by
                    rw [hTLr]
                    simp [List.append_assoc]
                  have hLb : ∀ a ∈ leftSeg is cs i ++
                      ((Node.split (cs.getD i default) (maxI / 2) p).node.toList ++
                        [(Node.split (cs.getD i default) (maxI / 2) p).item]),
                      less a x = true := by
                    intro a ha
                    rcases List.mem_append.mp ha with h | h
                    · exact hLlt a h
                    · rcases List.mem_append.mp h with h | h
                      · exact hl.lt_trans (sFm a h) hmlt
                      · rw [List.mem_singleton] at h
                        subst h
                        exact hmlt
                  have hassocG : Node.toList (.mk is cs) =
                      (leftSeg is cs i ++
                        ((Node.split (cs.getD i default) (maxI / 2) p).node.toList ++
                          [(Node.split (cs.getD i default) (maxI / 2) p).item])) ++
                        ((Node.split (cs.getD i default) (maxI / 2) p).next.toList ++
                          rightSeg is cs i) := by
                    rw [toList_decomp is cs hlen i hic, sGlue]
                    simp [List.append_assoc]
                  have hlift := insert_report_lift x
                    (leftSeg is cs i ++
                      ((Node.split (cs.getD i default) (maxI / 2) p).node.toList ++
                        [(Node.split (cs.getD i default) (maxI / 2) p).item]))
                    ((Node.split (cs.getD i default) (maxI / 2) p).next.toList)
                    ((Node.insert less f2 x maxI
                      (Node.split (cs.getD i default) (maxI / 2) p).next
                      (Node.split (cs.getD i default) (maxI / 2) p).pool).node.toList)
                    (rightSeg is cs i)
                    ((Node.insert less f2 x maxI
                      (Node.split (cs.getD i default) (maxI / 2) p).next
                      (Node.split (cs.getD i default) (maxI / 2) p).pool).out)
                    ((Node.insert less f2 x maxI
                      (Node.split (cs.getD i default) (maxI / 2) p).next
                      (Node.split (cs.getD i default) (maxI / 2) p).pool).outb)
                    hLb hRgt ih2 ih3
                  rw [hres]
                  simp only [InsertOK]
                  refine ⟨?_, ?_, ?_, hWH.1, hWH.2, ?_, ?_, ih8⟩
                  · rw [hTLr2, hassocG, listRI_localize hl x _ _ _ hLb hRgt, ih1]
                  · rw [hassocG]
                    exact hlift.1
                  · rw [hassocG, hTLr2]
                    exact hlift.2
                  · simp only [Node.items_mk]
                    rw [length_insertAt is i _ hq2]
                    omega
                  · simp only [Node.items_mk]
                    rw [length_insertAt is i _ hq2]
                | false =>
                  -- the new item equals the risen median: overwrite it in place
                  have hsetx : (insertAt is i
                      (Node.split (cs.getD i default) (maxI / 2) p).item).set i x =
                      insertAt is i x := by
                    have h9 := set_append_length (is.take i)
                      (Node.split (cs.getD i default) (maxI / 2) p).item x (is.drop i)
                    rw [List.length_take, min_eq_left hq2] at h9
                    rw [insertAt, insertAt]
                    exact h9
                  have hres : Node.insert less (f2 + 1) x maxI (.mk is cs) p =
                      ⟨.mk (insertAt is i x)
                          (cs.take i ++
                            (Node.split (cs.getD i default) (maxI / 2) p).node ::
                            (Node.split (cs.getD i default) (maxI / 2) p).next ::
                              cs.drop (i + 1)),
                        (Node.split (cs.getD i default) (maxI / 2) p).item, true,
                        (Node.split (cs.getD i default) (maxI / 2) p).pool⟩ := by
                    rw [Node.insert]
                    simp only [Node.items_mk, Node.children_mk, hfind, hcsE,
                      Bool.false_eq_true, if_false, hmres, eq_self_iff_true, if_true,
                      hgetDit, hxlt, hmlt, hsetx, hins]
                  have hWH := wfB_after_split is cs hw i hic hroomI
                    (insertAt is i x) (length_insertAt is i x hq2)
                    (Node.split (cs.getD i default) (maxI / 2) p).node
                    (Node.split (cs.getD i default) (maxI / 2) p).next
                    sWF sWN sHF sHN
                  have hAc : ∀ a ∈ leftSeg is cs i ++
                      (Node.split (cs.getD i default) (maxI / 2) p).node.toList,
                      less a x = true := by
                    intro a ha
                    rcases List.mem_append.mp ha with h | h
                    · exact hLlt a h
                    · exact hl.lt_of_lt_of_nlt (sFm a h) hxlt
                  have hglC : Node.toList (.mk is cs) =
                      (leftSeg is cs i ++
                        (Node.split (cs.getD i default) (maxI / 2) p).node.toList) ++
                        (Node.split (cs.getD i default) (maxI / 2) p).item ::
                          ((Node.split (cs.getD i default) (maxI / 2) p).next.toList ++
                            rightSeg is cs i) := by
                    rw [toList_decomp is cs hlen i hic, sGlue]
                    simp [List.append_assoc]
                  have hglC2 : Node.toList (.mk (insertAt is i x)
                      (cs.take i ++
                        (Node.split (cs.getD i default) (maxI / 2) p).node ::
                        (Node.split (cs.getD i default) (maxI / 2) p).next ::
                          cs.drop (i + 1))) =
                      (leftSeg is cs i ++
                        (Node.split (cs.getD i default) (maxI / 2) p).node.toList) ++
                        x :: ((Node.split (cs.getD i default) (maxI / 2) p).next.toList ++
                          rightSeg is cs i) := by
                    rw [← hins]
                    rw [toList_splitChild is cs hlen i hic
                      (Node.split (cs.getD i default) (maxI / 2) p).node
                      (Node.split (cs.getD i default) (maxI / 2) p).next x]
                    simp [List.append_assoc]
                  rw [hres]
                  simp only [InsertOK]
                  refine ⟨?_, ?_, ?_, hWH.1, hWH.2, ?_, ?_, sPool⟩
                  · rw [hglC2, hglC, listRI_length_found x _ _ _ hAc ⟨hxlt, hmlt⟩ hl]
                  · constructor
                    · intro _
                      refine ⟨(Node.split (cs.getD i default) (maxI / 2) p).item, ?_,
                        ⟨hxlt, hmlt⟩⟩
                      rw [hglC]
                      simp
                    · intro _
                      trivial
                  · intro _
                    exact ⟨leftSeg is cs i ++
                      (Node.split (cs.getD i default) (maxI / 2) p).node.toList,
                      (Node.split (cs.getD i default) (maxI / 2) p).next.toList ++
                        rightSeg is cs i,
                      hglC, ⟨hxlt, hmlt⟩, hglC2⟩
                  · simp only [Node.items_mk]
                    rw [length_insertAt is i x hq2]
                    omega
                  · simp only [Node.items_mk]
                    rw [length_insertAt is i x hq2]


/-- The contents of the tree, through the root. -/
def BTree.rootList [Inhabited α] (t : BTree α) : List α :=
  match t.root with
  | none => []
  | some r => r.toList

/-- The tree-level invariant maintained by every public mutation: a sane
degree, a pool of empty shells, and a root (when present) that is sorted and
satisfies the structural invariant with the root exemption. -/
def Good (less : α → α → Bool) [Inhabited α] (t : BTree α) : Prop :=
  2 ≤ t.degree ∧
  PoolEmpty t.freelist ∧
  (∀ r, t.root = some r → Node.wfB (t.degree - 1) (t.degree * 2 - 1) true r = true ∧
    SortedL less r.toList ∧
    (r.items.length = 0 → r.children = []))

theorem wfB_relax_root {minI maxI : Nat} (is : List α) (cs : List (Node α))
    (hw : Node.wfB minI maxI true (.mk is cs) = true)
    (hmin : minI ≤ is.length) : Node.wfB minI maxI false (.mk is cs) = true := by
  rw [Node.wfB_iff] at hw ⊢
  exact ⟨hw.1, hw.2.1, Or.inr hmin, hw.2.2.2⟩

theorem toList_pair [Inhabited α] (m : α) (F N : Node α) :
    Node.toList (.mk [m] [F, N]) = F.toList ++ m :: N.toList := by
  rw [Node.toList_inner _ _ (by simp)]
  simp [interleave]

/-- `BTree.ReplaceOrInsert` on a well-formed tree: the contents become the
list-level replace-or-insert, the returned pair reports exactly whether an
order-equal element existed (and which element was overwritten, in place),
the invariant is preserved, and the length increments exactly when nothing
was overwritten. -/
theorem ReplaceOrInsert_spec {less : α → α → Bool} [Inhabited α]
    (hl : LawfulLess less) (t : BTree α) (x : α) (hg : Good less t) :
    Good less (t.ReplaceOrInsert less x).1 ∧
    (t.ReplaceOrInsert less x).1.rootList = listRI less x t.rootList ∧
    ((t.ReplaceOrInsert less x).2.2 = true ↔ ∃ a ∈ t.rootList, eqv less x a) ∧
    ((t.ReplaceOrInsert less x).2.2 = true →
      ∃ A B, t.rootList = A ++ (t.ReplaceOrInsert less x).2.1 :: B ∧
        eqv less x (t.ReplaceOrInsert less x).2.1 ∧
        (t.ReplaceOrInsert less x).1.rootList = A ++ x :: B) ∧
    (t.ReplaceOrInsert less x).1.length =
      (if (t.ReplaceOrInsert less x).2.2 = true then t.length else t.length + 1) ∧
    (t.ReplaceOrInsert less x).1.degree = t.degree := by
  obtain ⟨hdeg, hpool, hroot⟩ := hg
  have hminI : 1 ≤ t.degree - 1 := by omega
  have hmaxI : t.degree * 2 - 1 = 2 * (t.degree - 1) + 1 := by omega
  rcases hr : t.root with _ | root0
  · -- empty tree: the new root is a single-item leaf drawn from the pool
    obtain ⟨hsh, hp1⟩ := PoolEmpty.newNode t.freelist hpool
    have hpair : t.freelist.newNode = (Node.mk [] [], (t.freelist.newNode).2) := by
      rw [← hsh]
    have hres : t.ReplaceOrInsert less x =
        ({ t with
            root := some (.mk [x] [])
            length := t.length + 1
            freelist := (t.freelist.newNode).2 }, default, false) := by
      rw [BTree.ReplaceOrInsert, hr, hpair]
      rfl
    rw [hres]
    refine ⟨⟨hdeg, hp1, ?_⟩, ?_, ?_, ?_, ?_, rfl⟩
    · intro r hrr
      simp only [Option.some.injEq] at hrr
      subst hrr
      refine ⟨?_, ?_, ?_⟩
      · rw [Node.wfB_iff]
        refine ⟨Or.inl rfl, by simp; omega, Or.inl rfl, by simp⟩
      · simp [SortedL]
      · intro h
        simp at h
    · simp [BTree.rootList, hr, listRI]
    · simp only [BTree.rootList, hr]
      constructor
      · intro h
        exact absurd h (by simp)
      · rintro ⟨a, ha, hax⟩
        simp at ha
    · intro h
      simp at h
    · simp
  · have hro := hroot root0 hr
    by_cases hfull : root0.items.length ≥ t.maxItems
    · -- full root: split it preemptively into a new two-child root
      have hfull2 : root0.items.length = t.degree * 2 - 1 := by
        have h8 : root0.items.length ≥ t.degree * 2 - 1 := hfull
        have h9 := Node.wfB_items_le root0 hro.1
        omega
      have hmkc : Node.mk root0.items root0.children = root0 := Node.mk_items_children _
      have hSF := split_child_facts hl (t.degree - 1) (t.degree * 2 - 1) hminI hmaxI
        root0.items root0.children t.freelist hpool
        (by rw [hmkc]
            cases root0 with
            | mk is cs =>
              refine wfB_relax_root is cs hro.1 ?_
              have := hfull2
              simp only [Node.items_mk] at this
              omega)
        (by rw [hmkc]; exact hro.2.1) hfull2
      rw [hmkc] at hSF
      obtain ⟨sGlue, sFm, sMn, sSF, sSN, sWF, sWN, sHF, sHN, sLF, sLN, sPool⟩ := hSF
      obtain ⟨hsh2, hp2⟩ := PoolEmpty.newNode
        (Node.split root0 ((t.degree * 2 - 1) / 2) t.freelist).pool sPool
      have hpair2 : (Node.split root0 ((t.degree * 2 - 1) / 2) t.freelist).pool.newNode =
          (Node.mk [] [],
            ((Node.split root0 ((t.degree * 2 - 1) / 2) t.freelist).pool.newNode).2) := by
        rw [← hsh2]
      have hfullD : root0.items.length ≥ t.degree * 2 - 1 := hfull
      have hres : t.ReplaceOrInsert less x =
          ({ t with
              root := some (Node.insert less
                (Node.height (.mk
                  [(Node.split root0 ((t.degree * 2 - 1) / 2) t.freelist).item]
                  [(Node.split root0 ((t.degree * 2 - 1) / 2) t.freelist).node,
                    (Node.split root0 ((t.degree * 2 - 1) / 2) t.freelist).next]) + 1)
                x (t.degree * 2 - 1)
                (.mk [(Node.split root0 ((t.degree * 2 - 1) / 2) t.freelist).item]
                  [(Node.split root0 ((t.degree * 2 - 1) / 2) t.freelist).node,
                    (Node.split root0 ((t.degree * 2 - 1) / 2) t.freelist).next])
                ((Node.split root0 ((t.degree * 2 - 1) / 2) t.freelist).pool.newNode).2).node
              length := if (Node.insert less
                (Node.height (.mk
                  [(Node.split root0 ((t.degree * 2 - 1) / 2) t.freelist).item]
                  [(Node.split root0 ((t.degree * 2 - 1) / 2) t.freelist).node,
                    (Node.split root0 ((t.degree * 2 - 1) / 2) t.freelist).next]) + 1)
                x (t.degree * 2 - 1)
                (.mk [(Node.split root0 ((t.degree * 2 - 1) / 2) t.freelist).item]
                  [(Node.split root0 ((t.degree * 2 - 1) / 2) t.freelist).node,
                    (Node.split root0 ((t.degree * 2 - 1) / 2) t.freelist).next])
                ((Node.split root0 ((t.degree * 2 - 1) / 2) t.freelist).pool.newNode).2).outb
                then t.length else t.length + 1
              freelist := (Node.insert less
                (Node.height (.mk
                  [(Node.split root0 ((t.degree * 2 - 1) / 2) t.freelist).item]
                  [(Node.split root0 ((t.degree * 2 - 1) / 2) t.freelist).node,
                    (Node.split root0 ((t.degree * 2 - 1) / 2) t.freelist).next]) + 1)
                x (t.degree * 2 - 1)
                (.mk [(Node.split root0 ((t.degree * 2 - 1) / 2) t.freelist).item]
                  [(Node.split root0 ((t.degree * 2 - 1) / 2) t.freelist).node,
                    (Node.split root0 ((t.degree * 2 - 1) / 2) t.freelist).next])
                ((Node.split root0 ((t.degree * 2 - 1) / 2) t.freelist).pool.newNode).2).pool },
            (Node.insert less
                (Node.height (.mk
                  [(Node.split root0 ((t.degree * 2 - 1) / 2) t.freelist).item]
                  [(Node.split root0 ((t.degree * 2 - 1) / 2) t.freelist).node,
                    (Node.split root0 ((t.degree * 2 - 1) / 2) t.freelist).next]) + 1)
                x (t.degree * 2 - 1)
                (.mk [(Node.split root0 ((t.degree * 2 - 1) / 2) t.freelist).item]
                  [(Node.split root0 ((t.degree * 2 - 1) / 2) t.freelist).node,
                    (Node.split root0 ((t.degree * 2 - 1) / 2) t.freelist).next])
                ((Node.split root0 ((t.degree * 2 - 1) / 2) t.freelist).pool.newNode).2).out,
            (Node.insert less
                (Node.height (.mk
                  [(Node.split root0 ((t.degree * 2 - 1) / 2) t.freelist).item]
                  [(Node.split root0 ((t.degree * 2 - 1) / 2) t.freelist).node,
                    (Node.split root0 ((t.degree * 2 - 1) / 2) t.freelist).next])
                  + 1)
                x (t.degree * 2 - 1)
                (.mk [(Node.split root0 ((t.degree * 2 - 1) / 2) t.freelist).item]
                  [(Node.split root0 ((t.degree * 2 - 1) / 2) t.freelist).node,
                    (Node.split root0 ((t.degree * 2 - 1) / 2) t.freelist).next])
                ((Node.split root0 ((t.degree * 2 - 1) / 2) t.freelist).pool.newNode).2).outb) := by
        rw [BTree.ReplaceOrInsert, hr]
        simp only [BTree.maxItems]
        rw [if_pos hfullD, hpair2]
        simp only [Node.items_mk, Node.children_mk, List.nil_append]
      have htl1 : Node.toList (.mk
          [(Node.split root0 ((t.degree * 2 - 1) / 2) t.freelist).item]
          [(Node.split root0 ((t.degree * 2 - 1) / 2) t.freelist).node,
            (Node.split root0 ((t.degree * 2 - 1) / 2) t.freelist).next]) =
          root0.toList := by
        rw [toList_pair]
        exact sGlue.symm
      have hH1 : Node.height (.mk
          [(Node.split root0 ((t.degree * 2 - 1) / 2) t.freelist).item]
          [(Node.split root0 ((t.degree * 2 - 1) / 2) t.freelist).node,
            (Node.split root0 ((t.degree * 2 - 1) / 2) t.freelist).next]) =
          root0.height + 1 := by
        apply Node.height_uniform _ _ root0.height (by simp)
        intro c hc
        rcases List.mem_cons.mp hc with h | h
        · subst h
          exact sHF
        · rcases List.mem_cons.mp h with h | h
          · subst h
            exact sHN
          · simp at h
      have hwf1 : Node.wfB (t.degree - 1) (t.degree * 2 - 1) true (.mk
          [(Node.split root0 ((t.degree * 2 - 1) / 2) t.freelist).item]
          [(Node.split root0 ((t.degree * 2 - 1) / 2) t.freelist).node,
            (Node.split root0 ((t.degree * 2 - 1) / 2) t.freelist).next]) = true := by
        rw [Node.wfB_iff]
        refine ⟨Or.inr (by simp), by simp; omega, Or.inl rfl, ?_⟩
        intro c hc
        rcases List.mem_cons.mp hc with h | h
        · subst h
          exact ⟨sWF, by rw [hH1, sHF]⟩
        · rcases List.mem_cons.mp h with h | h
          · subst h
            exact ⟨sWN, by rw [hH1, sHN]⟩
          · simp at h
      have hsort1 : SortedL less (Node.toList (.mk
          [(Node.split root0 ((t.degree * 2 - 1) / 2) t.freelist).item]
          [(Node.split root0 ((t.degree * 2 - 1) / 2) t.freelist).node,
            (Node.split root0 ((t.degree * 2 - 1) / 2) t.freelist).next])) := by
        rw [htl1]
        exact hro.2.1
      have hIN := insert_spec hl (t.degree - 1) (t.degree * 2 - 1) hminI hmaxI
        (Node.height (.mk
          [(Node.split root0 ((t.degree * 2 - 1) / 2) t.freelist).item]
          [(Node.split root0 ((t.degree * 2 - 1) / 2) t.freelist).node,
            (Node.split root0 ((t.degree * 2 - 1) / 2) t.freelist).next]))
        true
        (.mk [(Node.split root0 ((t.degree * 2 - 1) / 2) t.freelist).item]
          [(Node.split root0 ((t.degree * 2 - 1) / 2) t.freelist).node,
            (Node.split root0 ((t.degree * 2 - 1) / 2) t.freelist).next])
        x
        (Node.height (.mk
          [(Node.split root0 ((t.degree * 2 - 1) / 2) t.freelist).item]
          [(Node.split root0 ((t.degree * 2 - 1) / 2) t.freelist).node,
            (Node.split root0 ((t.degree * 2 - 1) / 2) t.freelist).next]) + 1)
        ((Node.split root0 ((t.degree * 2 - 1) / 2) t.freelist).pool.newNode).2
        le_rfl hwf1 hsort1 (by simp; omega) (by omega) hp2
      obtain ⟨in1, in2, in3, in4, in5, in6, in7, in8⟩ := hIN
      rw [htl1] at in1 in2 in3
      rw [hres]
      refine ⟨⟨by simpa using hdeg, in8, ?_⟩, ?_, ?_, ?_, ?_, rfl⟩
      · intro r hrr
        simp only [Option.some.injEq] at hrr
        subst hrr
        refine ⟨in4, ?_, ?_⟩
        · rw [in1]
          exact listRI_sorted hl x hro.2.1
        · intro h
          rw [h] at in6
          simp at in6
      · simp only [BTree.rootList, hr]
        exact in1
      · simp only [BTree.rootList, hr]
        exact in2
      · simp only [BTree.rootList, hr]
        exact in3
      · rfl
    · -- root has room: insert straight into it
      have hroomR : root0.items.length < t.degree * 2 - 1 := by
        have h8 : ¬ root0.items.length ≥ t.degree * 2 - 1 := hfull
        omega
      have hres : t.ReplaceOrInsert less x =
          ({ t with
              root := some (Node.insert less (root0.height + 1) x (t.degree * 2 - 1)
                root0 t.freelist).node
              length := if (Node.insert less (root0.height + 1) x (t.degree * 2 - 1)
                root0 t.freelist).outb then t.length else t.length + 1
              freelist := (Node.insert less (root0.height + 1) x (t.degree * 2 - 1)
                root0 t.freelist).pool },
            (Node.insert less (root0.height + 1) x (t.degree * 2 - 1) root0 t.freelist).out,
            (Node.insert less (root0.height + 1) x (t.degree * 2 - 1) root0
              t.freelist).outb) := by
        rw [BTree.ReplaceOrInsert, hr]
        simp only [BTree.maxItems]
        have hcond : ¬ root0.items.length ≥ t.degree * 2 - 1 := by omega
        rw [if_neg hcond]
      have hIN := insert_spec hl (t.degree - 1) (t.degree * 2 - 1) hminI hmaxI
        root0.height true root0 x (root0.height + 1) t.freelist
        le_rfl hro.1 hro.2.1 hroomR (by omega) hpool
      obtain ⟨in1, in2, in3, in4, in5, in6, in7, in8⟩ := hIN
      rw [hres]
      refine ⟨⟨by simpa using hdeg, in8, ?_⟩, ?_, ?_, ?_, ?_, rfl⟩
      · intro r hrr
        simp only [Option.some.injEq] at hrr
        subst hrr
        refine ⟨in4, ?_, ?_⟩
        · rw [in1]
          exact listRI_sorted hl x hro.2.1
        · intro h
          by_cases h0 : root0.items.length = 0
          · have hch := hro.2.2 h0
            have hh0 : root0.height = 0 := by
              cases root0 with
              | mk is0 cs0 =>
                simp only [Node.children_mk] at hch
                subst hch
                simp
            by_contra hcc
            have h5 := Node.height_pos_of_child _ hcc
            rw [in5, hh0] at h5
            simp at h5
          · omega
      · simp only [BTree.rootList, hr]
        exact in1
      · simp only [BTree.rootList, hr]
        exact in2
      · simp only [BTree.rootList, hr]
        exact in3
      · rfl


/-! ## Auxiliary identities for the deletion analysis -/

theorem dropLast_append_getLastD (l : List α) (d : α) (h : l ≠ []) :
    l.dropLast ++ [l.getLastD d] = l := by
  induction l generalizing d with
  | nil => exact absurd rfl h
  | cons a as ih =>
    cases as with
    | nil => rfl
    | cons b bs =>
      simp only [List.dropLast_cons₂, List.cons_append]
      rw [List.getLastD_cons]
      rw [ih a (by simp)]

theorem cons_getD_drop [Inhabited α] (l : List α) (h : 0 < l.length) :
    l.getD 0 default :: l.drop 1 = l := by
  cases l with
  | nil => simp at h
  | cons a as => rfl

/-- The first index (per removal mode) that `node.remove` inspects:
`(i, found)` exactly as the Go `switch` computes it. -/
def RIdx (less : α → α → Bool) [Inhabited α] (typ : ToRemove) (x : α) (n : Node α) :
    Nat × Bool :=
  match typ with
  | .removeMax => (n.items.length, false)
  | .removeMin => (0, false)
  | .removeItem => find less n.items x

/-- Everything `node.remove` guarantees, per removal mode: the structural
invariant, height and pool are preserved, and the contents lose exactly the
reported element (the minimum, the maximum, or the matched item; an absent
item leaves the contents untouched and reports `(zero, false)`). -/
def RemoveOK (less : α → α → Bool) [Inhabited α] (minI maxI : Nat) (ro : Bool)
    (typ : ToRemove) (x : α) (n : Node α) (r : MutRes α) : Prop :=
  Node.wfB minI maxI ro r.node = true ∧
  r.node.height = n.height ∧
  PoolEmpty r.pool ∧
  (match typ with
   | ToRemove.removeItem =>
       (r.outb = true ↔ ∃ a ∈ n.toList, eqv less x a) ∧
       (r.outb = true → ∃ A B, n.toList = A ++ r.out :: B ∧ eqv less x r.out ∧
           r.node.toList = A ++ B) ∧
       (r.outb = false → r.node.toList = n.toList ∧ r.out = default)
   | ToRemove.removeMin =>
       r.outb = true ∧ ∃ B, n.toList = r.out :: B ∧ r.node.toList = B
   | ToRemove.removeMax =>
       r.outb = true ∧ ∃ A, n.toList = A ++ [r.out] ∧ r.node.toList = A)

/-- Interleavings glue across an item that separates a balanced front part
from the rest. -/
theorem interleave_glue (ls1 : List (List α)) (xs1 : List α)
    (h : ls1.length = xs1.length + 1) (x : α) (ls2 : List (List α)) (xs2 : List α) :
    interleave (ls1 ++ ls2) (xs1 ++ x :: xs2) =
      interleave ls1 xs1 ++ x :: interleave ls2 xs2 := by
  induction xs1 generalizing ls1 with
  | nil =>
    cases ls1 with
    | nil => simp at h
    | cons l ls =>
      have hls : ls = [] := by simpa using h
      subst hls
      simp [interleave_cons]
  | cons y ys ih =>
    cases ls1 with
    | nil => simp at h
    | cons l ls =>
      simp only [List.cons_append, interleave_cons]
      rw [ih ls (by simpa using h)]
      simp

theorem interleave_cons_tail [Inhabited α] (is : List α) (cs : List (Node α))
    (k : Nat) (C : List α) :
    interleave (C :: (cs.drop (k + 1)).map Node.toList) (is.drop k) =
      C ++ rightSeg is cs k := by
  by_cases hk : k < is.length
  · rw [List.drop_eq_getElem_cons hk, interleave_cons]
    simp only [rightSeg]
    rw [if_pos hk, List.getD_eq_getElem is default hk]
  · have hd : is.drop k = [] := List.drop_eq_nil_iff.mpr (by omega)
    rw [hd, interleave_cons_nil]
    simp only [rightSeg]
    rw [if_neg hk]
    simp

/-- Replacing item `j` and children `j`, `j + 1` in one window leaves the
outer segments alone. -/
theorem toList_window2 [Inhabited α] (is : List α) (cs : List (Node α))
    (hlen : cs.length = is.length + 1)
    (j : Nat) (hj : j < is.length) (s : α) (F G : Node α) :
    Node.toList (.mk (is.set j s) (cs.take j ++ F :: G :: cs.drop (j + 2))) =
      leftSeg is cs j ++ (F.toList ++ s :: (G.toList ++ rightSeg is cs (j + 1))) := by
  have hset : is.set j s = is.take j ++ s :: is.drop (j + 1) :=
    List.set_eq_take_cons_drop s hj
  have hchunks : (cs.take j ++ F :: G :: cs.drop (j + 2)).map Node.toList =
      ((cs.take j).map Node.toList ++ [F.toList]) ++
        (G.toList :: (cs.drop (j + 2)).map Node.toList) := by
    simp
  rw [Node.toList_inner _ _ (by simp), hset, hchunks]
  rw [interleave_glue ((cs.take j).map Node.toList ++ [F.toList]) (is.take j)
    (by simp; omega) s (G.toList :: (cs.drop (j + 2)).map Node.toList) (is.drop (j + 1))]
  rw [interleave_snoc_eq ((cs.take j).map Node.toList) (is.take j) F.toList
    (by simp; omega)]
  rw [interleave_cons_tail is cs (j + 1) G.toList]
  simp only [leftSeg]
  simp [List.append_assoc]

/-- Merging children `j`, `j + 1` (and swallowing item `j`) in one window
leaves the outer segments alone. -/
theorem toList_windowM [Inhabited α] (is : List α) (cs : List (Node α))
    (hlen : cs.length = is.length + 1)
    (j : Nat) (hj : j < is.length) (C : Node α) :
    Node.toList (.mk (removeAt is j) (cs.take j ++ C :: cs.drop (j + 2))) =
      leftSeg is cs j ++ (C.toList ++ rightSeg is cs (j + 1)) := by
  have hrm : removeAt is j = is.take j ++ is.drop (j + 1) := rfl
  have hchunks : (cs.take j ++ C :: cs.drop (j + 2)).map Node.toList =
      (cs.take j).map Node.toList ++ (C.toList :: (cs.drop (j + 2)).map Node.toList) := by
    simp
  rw [Node.toList_inner _ _ (by simp), hrm, hchunks]
  rw [interleave_split ((cs.take j).map Node.toList ++
      (C.toList :: (cs.drop (j + 2)).map Node.toList))
    (is.take j ++ is.drop (j + 1)) j (by simp; omega) (by simp; omega)]
  rw [take_length_append _ _ j (by simp; omega), take_length_append _ _ j (by simp; omega),
    drop_length_append _ _ j (by simp; omega), drop_length_append _ _ j (by simp; omega)]
  rw [interleave_cons_tail is cs (j + 1) C.toList]
  simp only [leftSeg]

/-- Replacing both item `i` and child `i` leaves the outer segments alone. -/
theorem toList_set_both [Inhabited α] (is : List α) (cs : List (Node α))
    (hlen : cs.length = is.length + 1) (i : Nat) (hi : i < is.length)
    (y : α) (c2 : Node α) :
    Node.toList (.mk (is.set i y) (cs.set i c2)) =
      leftSeg is cs i ++ (c2.toList ++ y ::
        interleave ((cs.drop (i + 1)).map Node.toList) (is.drop (i + 1))) := by
  have h := toList_set_item is (cs.set i c2) (by simpa using hlen) i hi y
  rw [h]
  have hL : leftSeg is (cs.set i c2) i = leftSeg is cs i := by
    simp only [leftSeg]
    rw [take_set]
  have hg : (cs.set i c2).getD i default = c2 := getD_set_self cs i c2 (by omega)
  have hd : (cs.set i c2).drop (i + 1) = cs.drop (i + 1) := drop_succ_set cs i c2
  rw [hL, hg, hd]

theorem set_set_left {β : Type} (cs : List β) (i : Nat) (h1 : 1 ≤ i)
    (h2 : i < cs.length) (a b : β) :
    (cs.set i b).set (i - 1) a = cs.take (i - 1) ++ a :: b :: cs.drop (i + 1) := by
  have hs1 : cs.set i b = cs.take i ++ b :: cs.drop (i + 1) :=
    List.set_eq_take_cons_drop b h2
  have hlen1 : i - 1 < (cs.set i b).length := by simp; omega
  have hs2 := List.set_eq_take_cons_drop a hlen1
  rw [hs1] at hs2
  have ht : (cs.take i ++ b :: cs.drop (i + 1)).take (i - 1) = cs.take (i - 1) := by
    rw [List.take_append_of_le_length (by simp; omega), List.take_take]
    congr 1
    omega
  have hd : (cs.take i ++ b :: cs.drop (i + 1)).drop (i - 1 + 1) =
      b :: cs.drop (i + 1) := by
    have h9 : i - 1 + 1 = i := by omega
    rw [h9]
    exact drop_length_append _ _ i (by simp; omega)
  rw [hs1, hs2, ht, hd]

theorem set_set_right {β : Type} (cs : List β) (i : Nat) (h2 : i + 1 < cs.length)
    (a b : β) :
    (cs.set i a).set (i + 1) b = cs.take i ++ a :: b :: cs.drop (i + 2) := by
  have hs1 : cs.set i a = cs.take i ++ a :: cs.drop (i + 1) :=
    List.set_eq_take_cons_drop a (by omega)
  have hdrop := List.drop_eq_getElem_cons h2
  have h9 := set_append_length (cs.take i ++ [a]) (cs[i + 1]) b (cs.drop (i + 2))
  simp only [List.append_assoc, List.singleton_append, List.length_append,
    List.length_take, List.length_singleton] at h9
  have hmin : min i cs.length = i := by omega
  rw [hmin] at h9
  rw [hs1, hdrop, h9]

theorem removeAt_set {β : Type} (cs : List β) (j : Nat) (h : j + 1 < cs.length)
    (C : β) :
    (removeAt cs (j + 1)).set j C = cs.take j ++ C :: cs.drop (j + 2) := by
  have h1 : removeAt cs (j + 1) = cs.take (j + 1) ++ cs.drop (j + 2) := rfl
  have hj : j < cs.length := by omega
  have htake : cs.take (j + 1) = cs.take j ++ [cs[j]] := by
    rw [List.take_succ, List.getElem?_eq_getElem hj]
    rfl
  have h9 := set_append_length (cs.take j) (cs[j]) C (cs.drop (j + 2))
  rw [List.length_take] at h9
  have hmin : min j cs.length = j := by omega
  rw [hmin] at h9
  rw [h1, htake, List.append_assoc, List.singleton_append, h9]

/-- `find` is determined by strict bounds around the insertion point. -/
theorem find_eq_not_found {less : α → α → Bool} [Inhabited α] (hl : LawfulLess less)
    {s : List α} (hs : SortedL less s) (x : α) (i : Nat) (hi : i ≤ s.length)
    (hlo : ∀ j, j < i → less (s.getD j default) x = true)
    (hhi : ∀ j, i ≤ j → j < s.length → less x (s.getD j default) = true) :
    find less s x = (i, false) := by
  obtain ⟨p1, p2, p3⟩ := searchIdx_spec hl hs x
  have hsi : searchIdx less s x = i := by
    rcases Nat.lt_trichotomy (searchIdx less s x) i with h | h | h
    · exfalso
      have h4 := p3 (by omega)
      have h5 := hl.asymm (hlo _ h)
      rw [h4] at h5
      exact absurd h5 (by simp)
    · exact h
    · exfalso
      have h4 := hhi i le_rfl (by omega)
      have h5 := p2 i h
      rw [h4] at h5
      exact absurd h5 (by simp)
  unfold find
  rw [hsi]
  by_cases h0 : 0 < i
  · have h6 : less (s.getD (i - 1) default) x = true := hlo _ (by omega)
    rw [if_neg (by rw [h6]; simp)]
  · have h6 : i = 0 := by omega
    subst h6
    rw [if_neg (by simp)]

/-- `find` is determined by strict bounds below an order-equal element. -/
theorem find_eq_found {less : α → α → Bool} [Inhabited α] (hl : LawfulLess less)
    {s : List α} (hs : SortedL less s) (x : α) (i : Nat) (hi : i < s.length)
    (hlo : ∀ j, j < i → less (s.getD j default) x = true)
    (hfe : eqv less x (s.getD i default)) :
    find less s x = (i, true) := by
  obtain ⟨p1, p2, p3⟩ := searchIdx_spec hl hs x
  have hsi : searchIdx less s x = i + 1 := by
    rcases Nat.lt_trichotomy (searchIdx less s x) (i + 1) with h | h | h
    · exfalso
      have h4 := p3 (by omega)
      rcases Nat.lt_or_ge (searchIdx less s x) i with h5 | h5
      · have h6 := hl.asymm (hlo _ h5)
        rw [h4] at h6
        exact absurd h6 (by simp)
      · have h6 : searchIdx less s x = i := by omega
        rw [h6] at h4
        rw [hfe.1] at h4
        exact absurd h4 (by simp)
    · exact h
    · exfalso
      have hi1 : i + 1 < s.length := by omega
      have h4 := p2 (i + 1) h
      have h5 : less x (s.getD (i + 1) default) = true := by
        have h6 : less (s.getD i default) (s.getD (i + 1) default) = true := by
          rw [List.getD_eq_getElem s default hi, List.getD_eq_getElem s default hi1]
          exact hs.rel (by omega) hi1
        exact hl.lt_of_nlt_of_lt hfe.2 h6
      rw [h5] at h4
      exact absurd h4 (by simp)
  unfold find
  rw [hsi]
  have h9 : i + 1 - 1 = i := by omega
  rw [if_pos (by rw [h9, hfe.2]; simp)]
  simp

theorem mem_items_toList [Inhabited α] {n : Node α}
    (hcnt : n.children = [] ∨ n.children.length = n.items.length + 1)
    {a : α} (ha : a ∈ n.items) : a ∈ n.toList := by
  cases n with
  | mk is cs =>
    simp only [Node.items_mk] at ha
    rcases hcnt with h | h
    · simp only [Node.children_mk] at h
      subst h
      simpa using ha
    · simp only [Node.children_mk, Node.items_mk] at h
      rw [Node.toList_inner _ _ (by rintro rfl; simp at h)]
      exact (items_sublist_interleave _ _ (by simp [h])).subset ha

theorem toList_ne_nil [Inhabited α] {n : Node α}
    (hcnt : n.children = [] ∨ n.children.length = n.items.length + 1)
    (hne : 1 ≤ n.items.length) : n.toList ≠ [] := by
  intro hh
  obtain ⟨a, ha⟩ : ∃ a, a ∈ n.items := by
    cases h : n.items with
    | nil =>
      rw [h] at hne
      simp at hne
    | cons b bs => exact ⟨b, by simp [h]⟩
  have := mem_items_toList hcnt ha
  rw [hh] at this
  simp at this

/-- In a sorted list, everything before the last element is below it. -/
theorem sorted_lt_getLast {less : α → α → Bool} [Inhabited α] {l : List α}
    (hs : SortedL less l) (hne : l ≠ []) :
    ∀ a ∈ l.dropLast, less a (l.getLastD default) = true := by
  intro a ha
  conv at hs => rw [← dropLast_append_getLastD l default hne]
  exact (List.pairwise_append.mp hs).2.2 a ha _ (by simp)

/-- In a sorted list, the head is below everything after it. -/
theorem sorted_getD_zero_lt {less : α → α → Bool} [Inhabited α] {l : List α}
    (hs : SortedL less l) (hne : 0 < l.length) :
    ∀ a ∈ l.drop 1, less (l.getD 0 default) a = true := by
  conv at hs => rw [← cons_getD_drop l hne]
  exact (List.pairwise_cons.mp hs).1


/-- `node.remove` on a leaf, all three modes: pops the reported element (or
reports an absent item with `(zero, false)`). -/
theorem remove_leaf_spec {less : α → α → Bool} [Inhabited α] (hl : LawfulLess less)
    (minI maxI : Nat) (ro : Bool) (is : List α) (typ : ToRemove) (x : α) (f : Nat)
    (p : FreeList α)
    (hw : Node.wfB minI maxI ro (.mk is []) = true)
    (hs : SortedL less (Node.toList (.mk is [])))
    (hne : 1 ≤ is.length)
    (hslack : ro = true ∨ minI < is.length)
    (hp : PoolEmpty p) :
    RemoveOK less minI maxI ro typ x (.mk is [])
      (Node.remove less (f + 1) x minI typ (.mk is []) p) := by
  have hsis : SortedL less is := by simpa using hs
  have hnil : is ≠ [] := by
    intro hh
    subst hh
    simp at hne
  rw [Node.wfB_iff] at hw
  cases typ with
  | removeMax =>
    have hres : Node.remove less (f + 1) x minI .removeMax (.mk is []) p =
        ⟨.mk is.dropLast [], is.getLastD default, true, p⟩ := by
      rw [Node.remove]
      simp only [Node.children_mk, Node.items_mk, List.isEmpty_nil, Bool.true_eq_false,
        eq_self_iff_true, if_true]
    rw [hres]
    simp only [RemoveOK]
    refine ⟨?_, by simp, hp, by trivial, is.dropLast, ?_, by simp⟩
    · rw [Node.wfB_iff]
      refine ⟨Or.inl rfl, ?_, ?_, by simp⟩
      · simp only [List.length_dropLast]
        omega
      · rcases hslack with h | h
        · exact Or.inl h
        · refine Or.inr ?_
          simp only [List.length_dropLast]
          omega
    · simp only [Node.toList_leaf]
      exact (dropLast_append_getLastD is default hnil).symm
  | removeMin =>
    have hres : Node.remove less (f + 1) x minI .removeMin (.mk is []) p =
        ⟨.mk (removeAt is 0) [], is.getD 0 default, true, p⟩ := by
      rw [Node.remove]
      simp only [Node.children_mk, Node.items_mk, List.isEmpty_nil, Bool.true_eq_false,
        eq_self_iff_true, if_true]
    have hrm : removeAt is 0 = is.drop 1 := by simp [removeAt]
    rw [hres]
    simp only [RemoveOK]
    refine ⟨?_, by simp, hp, by trivial, is.drop 1, ?_, by simp [hrm]⟩
    · rw [Node.wfB_iff]
      refine ⟨Or.inl rfl, ?_, ?_, by simp⟩
      · rw [hrm]
        simp only [List.length_drop]
        omega
      · rcases hslack with h | h
        · exact Or.inl h
        · refine Or.inr ?_
          rw [hrm]
          simp only [List.length_drop]
          omega
    · simp only [Node.toList_leaf]
      exact (cons_getD_drop is (by omega)).symm
  | removeItem =>
    rcases hfind : find less is x with ⟨i, found⟩
    cases found with
    | true =>
      have hres : Node.remove less (f + 1) x minI .removeItem (.mk is []) p =
          ⟨.mk (removeAt is i) [], is.getD i default, true, p⟩ := by
        rw [Node.remove]
        simp only [Node.children_mk, Node.items_mk, List.isEmpty_nil, hfind,
          eq_self_iff_true, if_true]
      obtain ⟨hfl, hfe, _⟩ := find_found hl hsis x (by rw [hfind])
      rw [hfind] at hfl hfe
      simp only at hfl hfe
      have hisdec : is = is.take i ++ is.getD i default :: is.drop (i + 1) := by
        conv_lhs => rw [← List.take_append_drop i is]
        rw [List.drop_eq_getElem_cons hfl, List.getD_eq_getElem is default hfl]
      rw [hres]
      simp only [RemoveOK]
      refine ⟨?_, by simp, hp, ?_, ?_, ?_⟩
      · rw [Node.wfB_iff]
        refine ⟨Or.inl rfl, ?_, ?_, by simp⟩
        · rw [length_removeAt is i hfl]
          omega
        · rcases hslack with h | h
          · exact Or.inl h
          · refine Or.inr ?_
            rw [length_removeAt is i hfl]
            omega
      · simp only [Node.toList_leaf]
        exact ⟨fun _ => ⟨is.getD i default, getD_mem is i hfl, hfe⟩, fun _ => by trivial⟩
      · intro _
        refine ⟨is.take i, is.drop (i + 1), ?_, hfe, ?_⟩
        · simpa only [Node.toList_leaf] using hisdec
        · simp only [Node.toList_leaf]
          rfl
      · intro h
        simp at h
    | false =>
      have hres : Node.remove less (f + 1) x minI .removeItem (.mk is []) p =
          ⟨.mk is [], default, false, p⟩ := by
        rw [Node.remove]
        simp only [Node.children_mk, Node.items_mk, List.isEmpty_nil, hfind,
          Bool.false_eq_true, eq_self_iff_true, if_true, if_false]
      rw [hres]
      simp only [RemoveOK]
      refine ⟨?_, by trivial, hp, ?_, ?_, ?_⟩
      · rw [Node.wfB_iff]
        exact ⟨Or.inl rfl, by simpa using hw.2.1, by simpa using hw.2.2.1, by simp⟩
      · constructor
        · intro h
          simp at h
        · intro hex
          exfalso
          have h8 := (find_found_iff hl hsis x).mpr (by simpa using hex)
          rw [hfind] at h8
          simp at h8
      · intro h
        simp at h
      · intro _
        exact ⟨by trivial, by trivial⟩


@[simp] theorem insertAt_zero (l : List α) (x : α) : insertAt l 0 x = x :: l := by
  simp [insertAt]

theorem interleave_drop_eq [Inhabited α] (is : List α) (cs : List (Node α)) (i : Nat)
    (hi : i < cs.length) :
    interleave ((cs.drop i).map Node.toList) (is.drop i) =
      (cs.getD i default).toList ++ rightSeg is cs i := by
  rw [List.drop_eq_getElem_cons hi, List.map_cons]
  rw [← List.getD_eq_getElem cs default hi]
  exact interleave_cons_tail is cs i _

theorem getD_take_cons {β : Type} [Inhabited β] (cs : List β) (j : Nat)
    (hj : j ≤ cs.length) (F : β) (rest : List β) :
    (cs.take j ++ F :: rest).getD j default = F := by
  have h9 := getD_append_length (cs.take j) F rest
  rw [List.length_take, min_eq_left hj] at h9
  exact h9

theorem getD_take_cons2 {β : Type} [Inhabited β] (cs : List β) (j : Nat)
    (hj : j ≤ cs.length) (F G : β) (rest : List β) :
    (cs.take j ++ F :: G :: rest).getD (j + 1) default = G := by
  have h9 := getD_append_length (cs.take j ++ [F]) G rest
  simp only [List.append_assoc, List.singleton_append, List.length_append,
    List.length_take, List.length_singleton, min_eq_left hj] at h9
  exact h9

theorem getD_set_ne {β : Type} [Inhabited β] (l : List β) (k j : Nat) (h : k ≠ j)
    (y : β) : (l.set k y).getD j default = l.getD j default := by
  rw [List.getD_eq_getElem?_getD, List.getD_eq_getElem?_getD]
  rw [List.getElem?_set_ne h]

theorem getD_removeAt_left {β : Type} [Inhabited β] (l : List β) (k j : Nat)
    (h : j < k) (hk : k ≤ l.length) :
    (removeAt l k).getD j default = l.getD j default := by
  have h1 : removeAt l k = l.take k ++ l.drop (k + 1) := rfl
  have hjl : j < l.length := by omega
  rw [h1]
  rw [List.getD_eq_getElem _ _ (by simp; omega), List.getD_eq_getElem _ _ hjl]
  rw [List.getElem_append_left (by simp; omega)]
  exact List.getElem_take _

theorem getD_removeAt_right {β : Type} [Inhabited β] (l : List β) (k j : Nat)
    (h : k ≤ j) (hk : k ≤ l.length) :
    (removeAt l k).getD j default = l.getD (j + 1) default := by
  have h1 : removeAt l k = l.take k ++ l.drop (k + 1) := rfl
  rw [List.getD_eq_getElem?_getD, List.getD_eq_getElem?_getD, h1]
  rw [List.getElem?_append_right (by simp; omega)]
  rw [List.getElem?_drop]
  have h2 : k + 1 + (j - (l.take k).length) = j + 1 := by
    simp only [List.length_take]
    omega
  rw [h2]

/-- Replacing children `j`, `j + 1` by two equally tall well-formed nodes and
rewriting the item list without changing its length preserves the node
invariant and the height. -/
theorem wfB_after_window {minI maxI : Nat} [Inhabited α] {ro : Bool}
    (is : List α) (cs : List (Node α))
    (hwf : Node.wfB minI maxI ro (.mk is cs) = true)
    (j : Nat) (hj2 : j + 1 < cs.length)
    (is2 : List α) (hleni2 : is2.length = is.length)
    (F N : Node α)
    (hFw : Node.wfB minI maxI false F = true)
    (hNw : Node.wfB minI maxI false N = true)
    (hFh : F.height = (cs.getD j default).height)
    (hNh : N.height = (cs.getD j default).height) :
    Node.wfB minI maxI ro (.mk is2 (cs.take j ++ F :: N :: cs.drop (j + 2))) = true ∧
    Node.height (.mk is2 (cs.take j ++ F :: N :: cs.drop (j + 2))) =
      Node.height (.mk is cs) := by
  rw [Node.wfB_iff] at hwf
  obtain ⟨hcnt, hmax, hmin, hkids⟩ := hwf
  have hlen : cs.length = is.length + 1 := by
    rcases hcnt with h | h
    · subst h
      simp at hj2
    · exact h
  have hch1 : (cs.getD j default).height + 1 = Node.height (.mk is cs) :=
    (hkids _ (getD_mem cs j (by omega))).2
  have hallc : ∀ c ∈ cs.take j ++ F :: N :: cs.drop (j + 2),
      c.height = (cs.getD j default).height := by
    intro c hcm
    rcases List.mem_append.mp hcm with h | h
    · have h2 := (hkids c (List.mem_of_mem_take h)).2
      omega
    · rcases List.mem_cons.mp h with h | h
      · subst h
        exact hFh
      · rcases List.mem_cons.mp h with h | h
        · subst h
          exact hNh
        · have h2 := (hkids c (List.mem_of_mem_drop h)).2
          omega
  have hne : cs.take j ++ F :: N :: cs.drop (j + 2) ≠ [] := by simp
  have hH2 : Node.height (.mk is2 (cs.take j ++ F :: N :: cs.drop (j + 2))) =
      (cs.getD j default).height + 1 :=
    Node.height_uniform _ _ _ hne hallc
  have hlenc : (cs.take j ++ F :: N :: cs.drop (j + 2)).length = cs.length := by
    simp
    omega
  refine ⟨?_, by rw [hH2, hch1]⟩
  rw [Node.wfB_iff]
  refine ⟨Or.inr (by rw [hlenc, hleni2]; omega), by omega, ?_, ?_⟩
  · rcases hmin with h | h
    · exact Or.inl h
    · exact Or.inr (by omega)
  · intro c hcm
    have hhc : c.height + 1 =
        Node.height (.mk is2 (cs.take j ++ F :: N :: cs.drop (j + 2))) := by
      rw [hH2, hallc c hcm]
    rcases List.mem_append.mp hcm with h | h
    · exact ⟨(hkids c (List.mem_of_mem_take h)).1, hhc⟩
    · rcases List.mem_cons.mp h with h | h
      · subst h
        exact ⟨hFw, hhc⟩
      · rcases List.mem_cons.mp h with h | h
        · subst h
          exact ⟨hNw, hhc⟩
        · exact ⟨(hkids c (List.mem_of_mem_drop h)).1, hhc⟩

/-- Merging children `j`, `j + 1` into one equally tall well-formed node and
removing item `j` preserves the node invariant (losing one item, which the
slack hypothesis absorbs) and the height. -/
theorem wfB_after_merge {minI maxI : Nat} [Inhabited α] {ro : Bool}
    (is : List α) (cs : List (Node α))
    (hwf : Node.wfB minI maxI ro (.mk is cs) = true)
    (j : Nat) (hj : j < is.length) (hj2 : j + 1 < cs.length)
    (hslack : ro = true ∨ minI < is.length)
    (C : Node α)
    (hCw : Node.wfB minI maxI false C = true)
    (hCh : C.height = (cs.getD j default).height) :
    Node.wfB minI maxI ro (.mk (removeAt is j) (cs.take j ++ C :: cs.drop (j + 2))) = true ∧
    Node.height (.mk (removeAt is j) (cs.take j ++ C :: cs.drop (j + 2))) =
      Node.height (.mk is cs) := by
  rw [Node.wfB_iff] at hwf
  obtain ⟨hcnt, hmax, hmin, hkids⟩ := hwf
  have hlen : cs.length = is.length + 1 := by
    rcases hcnt with h | h
    · subst h
      simp at hj2
    · exact h
  have hch1 : (cs.getD j default).height + 1 = Node.height (.mk is cs) :=
    (hkids _ (getD_mem cs j (by omega))).2
  have hallc : ∀ c ∈ cs.take j ++ C :: cs.drop (j + 2),
      c.height = (cs.getD j default).height := by
    intro c hcm
    rcases List.mem_append.mp hcm with h | h
    · have h2 := (hkids c (List.mem_of_mem_take h)).2
      omega
    · rcases List.mem_cons.mp h with h | h
      · subst h
        exact hCh
      · have h2 := (hkids c (List.mem_of_mem_drop h)).2
        omega
  have hne : cs.take j ++ C :: cs.drop (j + 2) ≠ [] := by simp
  have hH2 : Node.height (.mk (removeAt is j) (cs.take j ++ C :: cs.drop (j + 2))) =
      (cs.getD j default).height + 1 :=
    Node.height_uniform _ _ _ hne hallc
  have hlenc : (cs.take j ++ C :: cs.drop (j + 2)).length = cs.length - 1 := by
    simp
    omega
  have hleni : (removeAt is j).length = is.length - 1 := length_removeAt is j hj
  refine ⟨?_, by rw [hH2, hch1]⟩
  rw [Node.wfB_iff]
  refine ⟨Or.inr (by rw [hlenc, hleni]; omega), by omega, ?_, ?_⟩
  · rcases hslack with h2 | h2
    · exact Or.inl h2
    · refine Or.inr ?_
      rw [hleni]
      omega
  · intro c hcm
    have hhc : c.height + 1 =
        Node.height (.mk (removeAt is j) (cs.take j ++ C :: cs.drop (j + 2))) := by
      rw [hH2, hallc c hcm]
    rcases List.mem_append.mp hcm with h | h
    · exact ⟨(hkids c (List.mem_of_mem_take h)).1, hhc⟩
    · rcases List.mem_cons.mp h with h | h
      · subst h
        exact ⟨hCw, hhc⟩
      · exact ⟨(hkids c (List.mem_of_mem_drop h)).1, hhc⟩


theorem Node.wfB_counts {minI maxI : Nat} {ro : Bool} (n : Node α)
    (hw : Node.wfB minI maxI ro n = true) :
    n.children = [] ∨ n.children.length = n.items.length + 1 := by
  cases n with
  | mk is cs =>
    rw [Node.wfB_iff] at hw
    simpa using hw.1

theorem Node.wfB_min_le {minI maxI : Nat} (n : Node α)
    (hw : Node.wfB minI maxI false n = true) : minI ≤ n.items.length := by
  cases n with
  | mk is cs =>
    rw [Node.wfB_iff] at hw
    have h := hw.2.2.1
    simp only [Node.items_mk]
    rcases h with h | h
    · exact absurd h (by simp)
    · exact h

theorem Node.wfB_child_of_mem {minI maxI : Nat} {ro : Bool} {n c : Node α}
    (hw : Node.wfB minI maxI ro n = true) (hc : c ∈ n.children) :
    Node.wfB minI maxI false c = true ∧ c.height + 1 = n.height := by
  cases n with
  | mk is cs =>
    rw [Node.wfB_iff] at hw
    exact hw.2.2.2 c (by simpa using hc)

theorem Node.toList_eq_items [Inhabited α] {n : Node α} (h : n.children = []) :
    n.toList = n.items := by
  cases n with
  | mk is cs =>
    simp only [Node.children_mk] at h
    subst h
    simp

theorem Node.toList_glue [Inhabited α] {n : Node α} (h : n.children ≠ []) :
    n.toList = interleave (n.children.map Node.toList) n.items := by
  cases n with
  | mk is cs => exact Node.toList_inner _ _ (by simpa using h)

theorem Node.height_zero_of_leaf {n : Node α} (h : n.children = []) : n.height = 0 := by
  cases n with
  | mk is cs =>
    simp only [Node.children_mk] at h
    subst h
    simp

theorem Node.children_ne_nil_of_height {n : Node α} (h : 0 < n.height) :
    n.children ≠ [] := by
  intro hh
  rw [Node.height_zero_of_leaf hh] at h
  simp at h

/-- `node.growChildAndRemove`, steal-from-left-sibling branch: the contents,
the invariant and the height are preserved, the pool is untouched, and the
removal retried on the result descends into a child that now holds more than
`minItems` items. -/
theorem growChild_left_spec {less : α → α → Bool} [Inhabited α] (hl : LawfulLess less)
    (minI maxI : Nat) (hminI : 1 ≤ minI) (hmaxI : maxI = 2 * minI + 1)
    {ro : Bool} (is : List α) (cs : List (Node α)) (i : Nat) (typ : ToRemove) (x : α)
    (found : Bool) (p : FreeList α)
    (hw : Node.wfB minI maxI ro (.mk is cs) = true)
    (hsrt : SortedL less (Node.toList (.mk is cs)))
    (hcse : cs ≠ [])
    (hi : i ≤ is.length)
    (hlow : (cs.getD i default).items.length ≤ minI)
    (hidx : RIdx less typ x (.mk is cs) = (i, found))
    (hp : PoolEmpty p)
    (hb1 : 0 < i ∧ minI < (cs.getD (i - 1) default).items.length) :
    (Node.growChild (.mk is cs) i minI p).1.toList = Node.toList (.mk is cs) ∧
    Node.wfB minI maxI ro (Node.growChild (.mk is cs) i minI p).1 = true ∧
    (Node.growChild (.mk is cs) i minI p).1.height = Node.height (.mk is cs) ∧
    PoolEmpty (Node.growChild (.mk is cs) i minI p).2 ∧
    (Node.growChild (.mk is cs) i minI p).1.children ≠ [] ∧
    (RIdx less typ x (Node.growChild (.mk is cs) i minI p).1).1 <
      (Node.growChild (.mk is cs) i minI p).1.children.length ∧
    minI < ((Node.growChild (.mk is cs) i minI p).1.children.getD
      (RIdx less typ x (Node.growChild (.mk is cs) i minI p).1).1 default).items.length := by
  have hwff := (Node.wfB_iff minI maxI ro is cs).mp hw
  have hlen : cs.length = is.length + 1 := hwff.1.resolve_left hcse
  have hic : i < cs.length := by omega
  have hi1s : i - 1 < is.length := by omega
  have h11 : i - 1 + 1 = i := by omega
  have h12 : i - 1 + 2 = i + 1 := by omega
  have hsis : SortedL less is := sorted_items (Or.inr hlen) hsrt
  have hsfmem : cs.getD (i - 1) default ∈ cs := getD_mem cs (i - 1) (by omega)
  have hcimem : cs.getD i default ∈ cs := getD_mem cs i hic
  have hsfw : Node.wfB minI maxI false (cs.getD (i - 1) default) = true :=
    (hwff.2.2.2 _ hsfmem).1
  have hciw : Node.wfB minI maxI false (cs.getD i default) = true :=
    (hwff.2.2.2 _ hcimem).1
  have hsfh : (cs.getD (i - 1) default).height + 1 = Node.height (.mk is cs) :=
    (hwff.2.2.2 _ hsfmem).2
  have hcih : (cs.getD i default).height + 1 = Node.height (.mk is cs) :=
    (hwff.2.2.2 _ hcimem).2
  have hlow2 : (cs.getD i default).items.length = minI := by
    have h9 := Node.wfB_min_le _ hciw
    omega
  have hsfne : (cs.getD (i - 1) default).items ≠ [] := by
    intro hh
    have h8 := hb1.2
    rw [hh] at h8
    simp at h8
  have hsfiub := Node.wfB_items_le _ hsfw
  have hb1d : (decide (i > 0) &&
      decide ((cs.getD (i - 1) default).items.length > minI)) = true := by
    simp only [Bool.and_eq_true, decide_eq_true_eq]
    refine ⟨?_, ?_⟩ <;> omega
  -- package the two rebuilt children, covering the leaf and internal shapes
  obtain ⟨F, G, hres, hFw, hGw, hFh, hGh, hGlen, hmid⟩ :
      ∃ F G, Node.growChild (.mk is cs) i minI p =
          (.mk (is.set (i - 1) ((cs.getD (i - 1) default).items.getLastD default))
            (cs.take (i - 1) ++ F :: G :: cs.drop (i + 1)), p) ∧
        Node.wfB minI maxI false F = true ∧
        Node.wfB minI maxI false G = true ∧
        F.height = (cs.getD (i - 1) default).height ∧
        G.height = (cs.getD (i - 1) default).height ∧
        G.items.length = (cs.getD i default).items.length + 1 ∧
        F.toList ++ (cs.getD (i - 1) default).items.getLastD default :: G.toList =
          (cs.getD (i - 1) default).toList ++ is.getD (i - 1) default ::
            (cs.getD i default).toList := by
    by_cases hsfleaf : (cs.getD (i - 1) default).children = []
    · -- leaf level: move the last item of the left sibling across
      have hciLeaf : (cs.getD i default).children = [] := by
        by_contra hcc
        have h1 := Node.height_pos_of_child _ hcc
        have h2 := Node.height_zero_of_leaf hsfleaf
        omega
      have hE : (cs.getD (i - 1) default).children.isEmpty = true := by
        rw [hsfleaf]
        rfl
      have hset := set_set_left cs i hb1.1 hic
        (Node.mk (cs.getD (i - 1) default).items.dropLast
          (cs.getD (i - 1) default).children)
        (Node.mk (is.getD (i - 1) default :: (cs.getD i default).items)
          (cs.getD i default).children)
      refine ⟨Node.mk (cs.getD (i - 1) default).items.dropLast
          (cs.getD (i - 1) default).children,
        Node.mk (is.getD (i - 1) default :: (cs.getD i default).items)
          (cs.getD i default).children, ?_, ?_, ?_, ?_, ?_, by simp, ?_⟩
      · simp only [Node.growChild, Node.items_mk, Node.children_mk, hb1d,
          eq_self_iff_true, if_true, hE, insertAt_zero, hset]
      · rw [hsfleaf, Node.wfB_iff]
        refine ⟨Or.inl rfl, ?_, ?_, by simp⟩
        · simp only [List.length_dropLast]
          omega
        · refine Or.inr ?_
          simp only [List.length_dropLast]
          omega
      · rw [hciLeaf, Node.wfB_iff]
        refine ⟨Or.inl rfl, ?_, ?_, by simp⟩
        · simp only [List.length_cons]
          omega
        · refine Or.inr ?_
          simp only [List.length_cons]
          omega
      · rw [hsfleaf]
        rw [Node.height_zero_of_leaf hsfleaf]
        simp
      · rw [hciLeaf]
        rw [Node.height_zero_of_leaf hsfleaf]
        simp
      · rw [hsfleaf, hciLeaf, Node.toList_leaf, Node.toList_leaf,
          Node.toList_eq_items hsfleaf, Node.toList_eq_items hciLeaf]
        conv_rhs => rw [← dropLast_append_getLastD
          (cs.getD (i - 1) default).items default hsfne]
        simp
    · -- internal level: also move the last child of the left sibling across
      have hsfhpos : 0 < (cs.getD (i - 1) default).height :=
        Node.height_pos_of_child _ hsfleaf
      have hcic : (cs.getD i default).children ≠ [] :=
        Node.children_ne_nil_of_height (by omega)
      have hsfcnt : (cs.getD (i - 1) default).children.length =
          (cs.getD (i - 1) default).items.length + 1 :=
        (Node.wfB_counts _ hsfw).resolve_left hsfleaf
      have hcicnt : (cs.getD i default).children.length =
          (cs.getD i default).items.length + 1 :=
        (Node.wfB_counts _ hciw).resolve_left hcic
      have hsfdne : (cs.getD (i - 1) default).children.dropLast ≠ [] := by
        intro hh
        have h9 := congrArg List.length hh
        simp only [List.length_dropLast, List.length_nil] at h9
        omega
      have hE : (cs.getD (i - 1) default).children.isEmpty = false := by
        cases hE2 : (cs.getD (i - 1) default).children.isEmpty with
        | false => rfl
        | true => exact absurd (List.isEmpty_iff.mp hE2) hsfleaf
      have hset := set_set_left cs i hb1.1 hic
        (Node.mk (cs.getD (i - 1) default).items.dropLast
          (cs.getD (i - 1) default).children.dropLast)
        (Node.mk (is.getD (i - 1) default :: (cs.getD i default).items)
          ((cs.getD (i - 1) default).children.getLastD default ::
            (cs.getD i default).children))
      have hLmem : (cs.getD (i - 1) default).children.getLastD default ∈
          (cs.getD (i - 1) default).children :=
        getLastD_mem_of_ne_nil _ _ hsfleaf
      have hLfacts := Node.wfB_child_of_mem hsfw hLmem
      refine ⟨Node.mk (cs.getD (i - 1) default).items.dropLast
          (cs.getD (i - 1) default).children.dropLast,
        Node.mk (is.getD (i - 1) default :: (cs.getD i default).items)
          ((cs.getD (i - 1) default).children.getLastD default ::
            (cs.getD i default).children), ?_, ?_, ?_, ?_, ?_, by simp, ?_⟩
      · simp only [Node.growChild, Node.items_mk, Node.children_mk, hb1d,
          eq_self_iff_true, if_true, hE, Bool.false_eq_true, if_false,
          insertAt_zero, hset]
      · rw [Node.wfB_iff]
        have hFH : Node.height (.mk (cs.getD (i - 1) default).items.dropLast
            (cs.getD (i - 1) default).children.dropLast) =
            (cs.getD (i - 1) default).height := by
          have h9 := Node.height_uniform (cs.getD (i - 1) default).items.dropLast
            (cs.getD (i - 1) default).children.dropLast
            ((cs.getD (i - 1) default).height - 1) hsfdne ?_
          · rw [h9]
            omega
          · intro c hc
            have h7 := Node.wfB_child_of_mem hsfw ((List.mem_of_mem_dropLast hc))
            omega
        refine ⟨Or.inr (by simp only [List.length_dropLast]; omega), ?_, ?_, ?_⟩
        · simp only [List.length_dropLast]
          omega
        · refine Or.inr ?_
          simp only [List.length_dropLast]
          omega
        · intro c hc
          have h7 := Node.wfB_child_of_mem hsfw ((List.mem_of_mem_dropLast hc))
          refine ⟨h7.1, ?_⟩
          rw [hFH]
          omega
      · rw [Node.wfB_iff]
        have hGH : Node.height (.mk (is.getD (i - 1) default ::
            (cs.getD i default).items)
            ((cs.getD (i - 1) default).children.getLastD default ::
              (cs.getD i default).children)) =
            (cs.getD i default).height := by
          have h9 := Node.height_uniform (is.getD (i - 1) default ::
            (cs.getD i default).items)
            ((cs.getD (i - 1) default).children.getLastD default ::
              (cs.getD i default).children)
            ((cs.getD i default).height - 1) (by simp) ?_
          · rw [h9]
            have := Node.height_pos_of_child _ hcic
            omega
          · intro c hc
            rcases List.mem_cons.mp hc with h | h
            · subst h
              omega
            · have h7 := Node.wfB_child_of_mem hciw h
              omega
        refine ⟨Or.inr (by simp only [List.length_cons]; omega), ?_, ?_, ?_⟩
        · simp only [List.length_cons]
          omega
        · refine Or.inr ?_
          simp only [List.length_cons]
          omega
        · intro c hc
          rw [hGH]
          rcases List.mem_cons.mp hc with h | h
          · subst h
            exact ⟨hLfacts.1, by omega⟩
          · have h7 := Node.wfB_child_of_mem hciw h
            exact ⟨h7.1, by omega⟩
      · have h9 := Node.height_uniform (cs.getD (i - 1) default).items.dropLast
          (cs.getD (i - 1) default).children.dropLast
          ((cs.getD (i - 1) default).height - 1) hsfdne ?_
        · rw [h9]
          omega
        · intro c hc
          have h7 := Node.wfB_child_of_mem hsfw ((List.mem_of_mem_dropLast hc))
          omega
      · have h9 := Node.height_uniform (is.getD (i - 1) default ::
          (cs.getD i default).items)
          ((cs.getD (i - 1) default).children.getLastD default ::
            (cs.getD i default).children)
          ((cs.getD i default).height - 1) (by simp) ?_
        · rw [h9]
          have := Node.height_pos_of_child _ hcic
          omega
        · intro c hc
          rcases List.mem_cons.mp hc with h | h
          · subst h
            omega
          · have h7 := Node.wfB_child_of_mem hciw h
            omega
      · -- the window contents are a rotation of the original ones
        have hsfglue : (cs.getD (i - 1) default).toList =
            interleave ((cs.getD (i - 1) default).children.dropLast.map Node.toList)
              (cs.getD (i - 1) default).items.dropLast ++
              (cs.getD (i - 1) default).items.getLastD default ::
                ((cs.getD (i - 1) default).children.getLastD default).toList := by
          rw [Node.toList_glue hsfleaf]
          conv_lhs => rw [← dropLast_append_getLastD
              (cs.getD (i - 1) default).children default hsfleaf,
            ← dropLast_append_getLastD (cs.getD (i - 1) default).items default hsfne]
          rw [List.map_append, List.map_singleton]
          rw [interleave_glue ((cs.getD (i - 1) default).children.dropLast.map
              Node.toList) (cs.getD (i - 1) default).items.dropLast
            (by simp only [List.length_map, List.length_dropLast]; omega)
            ((cs.getD (i - 1) default).items.getLastD default)
            [((cs.getD (i - 1) default).children.getLastD default).toList] []]
          rw [interleave_cons_nil]
        have hch2 : (Node.mk (is.getD (i - 1) default :: (cs.getD i default).items)
            ((cs.getD (i - 1) default).children.getLastD default ::
              (cs.getD i default).children)).toList =
            ((cs.getD (i - 1) default).children.getLastD default).toList ++
              is.getD (i - 1) default :: (cs.getD i default).toList := by
          rw [Node.toList_inner _ _ (by simp), List.map_cons, interleave_cons]
          rw [← Node.toList_glue hcic]
        have hF : (Node.mk (cs.getD (i - 1) default).items.dropLast
            (cs.getD (i - 1) default).children.dropLast).toList =
            interleave ((cs.getD (i - 1) default).children.dropLast.map Node.toList)
              (cs.getD (i - 1) default).items.dropLast :=
          Node.toList_inner _ _ hsfdne
        rw [hF, hch2, hsfglue]
        simp [List.append_assoc]
  -- shared facts from the packaged shape
  have hW := toList_window2 is cs hlen (i - 1) hi1s
    ((cs.getD (i - 1) default).items.getLastD default) F G
  rw [h12, h11] at hW
  have hD := toList_decomp is cs hlen (i - 1) (by omega)
  have hRS : rightSeg is cs (i - 1) = is.getD (i - 1) default ::
      ((cs.getD i default).toList ++ rightSeg is cs i) := by
    simp only [rightSeg]
    rw [if_pos hi1s, h11, interleave_drop_eq is cs i hic]
    simp only [rightSeg]
  have hG1 : Node.toList (.mk
      (is.set (i - 1) ((cs.getD (i - 1) default).items.getLastD default))
      (cs.take (i - 1) ++ F :: G :: cs.drop (i + 1))) = Node.toList (.mk is cs) := by
    rw [hW, hD, hRS]
    have hstep : F.toList ++
        (cs.getD (i - 1) default).items.getLastD default ::
          (G.toList ++ rightSeg is cs i) =
        (cs.getD (i - 1) default).toList ++ is.getD (i - 1) default ::
          ((cs.getD i default).toList ++ rightSeg is cs i) := by
      have h8 : F.toList ++
          (cs.getD (i - 1) default).items.getLastD default ::
            (G.toList ++ rightSeg is cs i) =
          (F.toList ++ (cs.getD (i - 1) default).items.getLastD default :: G.toList) ++
            rightSeg is cs i := by
        simp
      have h9 : (cs.getD (i - 1) default).toList ++ is.getD (i - 1) default ::
          ((cs.getD i default).toList ++ rightSeg is cs i) =
          ((cs.getD (i - 1) default).toList ++ is.getD (i - 1) default ::
            (cs.getD i default).toList) ++ rightSeg is cs i := by
        simp
      rw [h8, h9, hmid]
    rw [hstep]
  have hWF := wfB_after_window is cs hw (i - 1) (by omega)
    (is.set (i - 1) ((cs.getD (i - 1) default).items.getLastD default)) (by simp)
    F G hFw hGw hFh hGh
  rw [h12] at hWF
  -- the retried removal lands on the freshly grown child
  have hsmem : (cs.getD (i - 1) default).items.getLastD default ∈
      (cs.getD (i - 1) default).toList :=
    mem_items_toList (Node.wfB_counts _ hsfw) (getLastD_mem_of_ne_nil _ _ hsfne)
  have hsm : less ((cs.getD (i - 1) default).items.getLastD default)
      (is.getD (i - 1) default) = true := by
    have h9 := child_lt_item hlen hsrt (i - 1) hi1s
    exact h9 _ hsmem
  have hsort1 : SortedL less
      (is.set (i - 1) ((cs.getD (i - 1) default).items.getLastD default)) := by
    have h0 : SortedL less (Node.toList (.mk
        (is.set (i - 1) ((cs.getD (i - 1) default).items.getLastD default))
        (cs.take (i - 1) ++ F :: G :: cs.drop (i + 1)))) := by
      rw [hG1]
      exact hsrt
    exact sorted_items (Or.inr (by
      simp only [List.length_append, List.length_cons, List.length_take,
        List.length_drop, List.length_set]
      omega)) h0
  have hidx1 : (RIdx less typ x (.mk
      (is.set (i - 1) ((cs.getD (i - 1) default).items.getLastD default))
      (cs.take (i - 1) ++ F :: G :: cs.drop (i + 1)))).1 = i := by
    cases typ with
    | removeMax =>
      simp only [RIdx, Node.items_mk] at hidx ⊢
      rw [Prod.mk.injEq] at hidx
      rw [List.length_set]
      omega
    | removeMin =>
      simp only [RIdx] at hidx
      rw [Prod.mk.injEq] at hidx
      omega
    | removeItem =>
      simp only [RIdx, Node.items_mk] at hidx ⊢
      cases found with
      | false =>
        have hq := find_not_found hl hsis x (by rw [hidx])
        rw [hidx] at hq
        simp only at hq
        have hfind1 : find less
            (is.set (i - 1) ((cs.getD (i - 1) default).items.getLastD default)) x =
            (i, false) := by
          apply find_eq_not_found hl hsort1 x i (by simp only [List.length_set]; omega)
          · intro j hj
            by_cases hji : j = i - 1
            · subst hji
              rw [getD_set_self is (i - 1) _ hi1s]
              exact hl.lt_trans hsm (hq.2.2.1 (i - 1) (by omega))
            · rw [getD_set_ne is (i - 1) j (by omega) _]
              exact hq.2.2.1 j hj
          · intro j hj1 hj2
            rw [List.length_set] at hj2
            rw [getD_set_ne is (i - 1) j (by omega) _]
            exact hq.2.2.2 j hj1 hj2
        rw [hfind1]
      | true =>
        have hff := find_found hl hsis x (by rw [hidx])
        rw [hidx] at hff
        simp only at hff
        obtain ⟨hfl, hfe, _⟩ := hff
        have hjx : ∀ j, j < i → less (is.getD j default) x = true := by
          intro j hj
          have h6 : less (is.getD j default) (is.getD i default) = true := by
            rw [List.getD_eq_getElem is default (by omega),
              List.getD_eq_getElem is default hfl]
            exact hsis.rel hj hfl
          exact hl.lt_of_lt_of_nlt h6 hfe.1
        have hfind1 : find less
            (is.set (i - 1) ((cs.getD (i - 1) default).items.getLastD default)) x =
            (i, true) := by
          apply find_eq_found hl hsort1 x i (by simp only [List.length_set]; omega)
          · intro j hj
            by_cases hji : j = i - 1
            · subst hji
              rw [getD_set_self is (i - 1) _ hi1s]
              exact hl.lt_trans hsm (hjx (i - 1) (by omega))
            · rw [getD_set_ne is (i - 1) j (by omega) _]
              exact hjx j hj
          · rw [getD_set_ne is (i - 1) i (by omega) _]
            exact hfe
        rw [hfind1]
  have hgetG : (cs.take (i - 1) ++ F :: G :: cs.drop (i + 1)).getD i default = G := by
    have h9 := getD_take_cons2 cs (i - 1) (by omega) F G (cs.drop (i + 1))
    rwa [h11] at h9
  simp only [hres]
  refine ⟨hG1, hWF.1, hWF.2, hp, by simp, ?_, ?_⟩
  · rw [hidx1]
    simp only [Node.children_mk, List.length_append, List.length_cons, List.length_take,
      List.length_drop]
    omega
  · simp only [Node.children_mk]
    rw [hidx1, hgetG, hGlen, hlow2]
    omega


/-- `node.growChildAndRemove`, steal-from-right-sibling branch: the contents,
the invariant and the height are preserved, the pool is untouched, and the
removal retried on the result descends into a child that now holds more than
`minItems` items. -/
theorem growChild_right_spec {less : α → α → Bool} [Inhabited α] (hl : LawfulLess less)
    (minI maxI : Nat) (hminI : 1 ≤ minI) (hmaxI : maxI = 2 * minI + 1)
    {ro : Bool} (is : List α) (cs : List (Node α)) (i : Nat) (typ : ToRemove) (x : α)
    (found : Bool) (p : FreeList α)
    (hw : Node.wfB minI maxI ro (.mk is cs) = true)
    (hsrt : SortedL less (Node.toList (.mk is cs)))
    (hcse : cs ≠ [])
    (hi : i ≤ is.length)
    (hlow : (cs.getD i default).items.length ≤ minI)
    (hidx : RIdx less typ x (.mk is cs) = (i, found))
    (hp : PoolEmpty p)
    (hb1n : ¬ (0 < i ∧ minI < (cs.getD (i - 1) default).items.length))
    (hb2 : i < is.length ∧ minI < (cs.getD (i + 1) default).items.length) :
    (Node.growChild (.mk is cs) i minI p).1.toList = Node.toList (.mk is cs) ∧
    Node.wfB minI maxI ro (Node.growChild (.mk is cs) i minI p).1 = true ∧
    (Node.growChild (.mk is cs) i minI p).1.height = Node.height (.mk is cs) ∧
    PoolEmpty (Node.growChild (.mk is cs) i minI p).2 ∧
    (Node.growChild (.mk is cs) i minI p).1.children ≠ [] ∧
    (RIdx less typ x (Node.growChild (.mk is cs) i minI p).1).1 <
      (Node.growChild (.mk is cs) i minI p).1.children.length ∧
    minI < ((Node.growChild (.mk is cs) i minI p).1.children.getD
      (RIdx less typ x (Node.growChild (.mk is cs) i minI p).1).1 default).items.length := by
  have hwff := (Node.wfB_iff minI maxI ro is cs).mp hw
  have hlen : cs.length = is.length + 1 := hwff.1.resolve_left hcse
  have hic : i < cs.length := by omega
  have hi1c : i + 1 < cs.length := by omega
  have hsis : SortedL less is := sorted_items (Or.inr hlen) hsrt
  have hsfmem : cs.getD (i + 1) default ∈ cs := getD_mem cs (i + 1) hi1c
  have hcimem : cs.getD i default ∈ cs := getD_mem cs i hic
  have hsfw : Node.wfB minI maxI false (cs.getD (i + 1) default) = true :=
    (hwff.2.2.2 _ hsfmem).1
  have hciw : Node.wfB minI maxI false (cs.getD i default) = true :=
    (hwff.2.2.2 _ hcimem).1
  have hsfh : (cs.getD (i + 1) default).height + 1 = Node.height (.mk is cs) :=
    (hwff.2.2.2 _ hsfmem).2
  have hcih : (cs.getD i default).height + 1 = Node.height (.mk is cs) :=
    (hwff.2.2.2 _ hcimem).2
  have hlow2 : (cs.getD i default).items.length = minI := by
    have h9 := Node.wfB_min_le _ hciw
    omega
  have hsfne : 0 < (cs.getD (i + 1) default).items.length := by omega
  have hsfiub := Node.wfB_items_le _ hsfw
  have hciub := Node.wfB_items_le _ hciw
  have hb1nd : (decide (i > 0) &&
      decide ((cs.getD (i - 1) default).items.length > minI)) = false := by
    cases h : (decide (i > 0) &&
        decide ((cs.getD (i - 1) default).items.length > minI)) with
    | false => rfl
    | true =>
      simp only [Bool.and_eq_true, decide_eq_true_eq] at h
      exact (hb1n ⟨by omega, by omega⟩).elim
  have hb2d : (decide (i < is.length) &&
      decide ((cs.getD (i + 1) default).items.length > minI)) = true := by
    simp only [Bool.and_eq_true, decide_eq_true_eq]
    refine ⟨?_, ?_⟩ <;> omega
  obtain ⟨F, G, hres, hFw, hGw, hFh, hGh, hFlen, hmid⟩ :
      ∃ F G, Node.growChild (.mk is cs) i minI p =
          (.mk (is.set i ((cs.getD (i + 1) default).items.getD 0 default))
            (cs.take i ++ F :: G :: cs.drop (i + 2)), p) ∧
        Node.wfB minI maxI false F = true ∧
        Node.wfB minI maxI false G = true ∧
        F.height = (cs.getD i default).height ∧
        G.height = (cs.getD i default).height ∧
        F.items.length = (cs.getD i default).items.length + 1 ∧
        F.toList ++ (cs.getD (i + 1) default).items.getD 0 default :: G.toList =
          (cs.getD i default).toList ++ is.getD i default ::
            (cs.getD (i + 1) default).toList := by
    have hsfnil : (cs.getD (i + 1) default).items ≠ [] := by
      intro hh
      rw [hh] at hsfne
      simp at hsfne
    by_cases hsfleaf : (cs.getD (i + 1) default).children = []
    · -- leaf level: move the first item of the right sibling across
      have hciLeaf : (cs.getD i default).children = [] := by
        by_contra hcc
        have h1 := Node.height_pos_of_child _ hcc
        have h2 := Node.height_zero_of_leaf hsfleaf
        omega
      have hE : (cs.getD (i + 1) default).children.isEmpty = true := by
        rw [hsfleaf]
        rfl
      have hset := set_set_right cs i hi1c
        (Node.mk ((cs.getD i default).items ++ [is.getD i default])
          (cs.getD i default).children)
        (Node.mk (removeAt (cs.getD (i + 1) default).items 0)
          (cs.getD (i + 1) default).children)
      refine ⟨Node.mk ((cs.getD i default).items ++ [is.getD i default])
          (cs.getD i default).children,
        Node.mk (removeAt (cs.getD (i + 1) default).items 0)
          (cs.getD (i + 1) default).children, ?_, ?_, ?_, ?_, ?_, by simp, ?_⟩
      · simp only [Node.growChild, Node.items_mk, Node.children_mk, hb1nd,
          Bool.false_eq_true, if_false, hb2d, eq_self_iff_true, if_true, hE, hset]
      · rw [hciLeaf, Node.wfB_iff]
        refine ⟨Or.inl rfl, ?_, ?_, by simp⟩
        · simp only [List.length_append, List.length_singleton]
          omega
        · refine Or.inr ?_
          simp only [List.length_append, List.length_singleton]
          omega
      · rw [hsfleaf, Node.wfB_iff]
        refine ⟨Or.inl rfl, ?_, ?_, by simp⟩
        · rw [length_removeAt _ _ (by omega)]
          omega
        · refine Or.inr ?_
          rw [length_removeAt _ _ (by omega)]
          omega
      · rw [hciLeaf]
        rw [Node.height_zero_of_leaf hciLeaf]
        simp
      · rw [hsfleaf]
        rw [Node.height_zero_of_leaf hciLeaf]
        simp
      · have hrm : removeAt (cs.getD (i + 1) default).items 0 =
            (cs.getD (i + 1) default).items.drop 1 := by
          simp [removeAt]
        rw [hciLeaf, hsfleaf, Node.toList_leaf, Node.toList_leaf,
          Node.toList_eq_items hciLeaf, Node.toList_eq_items hsfleaf, hrm]
        conv_rhs => rw [← cons_getD_drop (cs.getD (i + 1) default).items hsfne]
        simp
    · -- internal level: also move the first child of the right sibling across
      have hsfhpos : 0 < (cs.getD (i + 1) default).height :=
        Node.height_pos_of_child _ hsfleaf
      have hcic : (cs.getD i default).children ≠ [] :=
        Node.children_ne_nil_of_height (by omega)
      have hsfcnt : (cs.getD (i + 1) default).children.length =
          (cs.getD (i + 1) default).items.length + 1 :=
        (Node.wfB_counts _ hsfw).resolve_left hsfleaf
      have hcicnt : (cs.getD i default).children.length =
          (cs.getD i default).items.length + 1 :=
        (Node.wfB_counts _ hciw).resolve_left hcic
      have hsfcne : 0 < (cs.getD (i + 1) default).children.length := by omega
      have hE : (cs.getD (i + 1) default).children.isEmpty = false := by
        cases hE2 : (cs.getD (i + 1) default).children.isEmpty with
        | false => rfl
        | true => exact absurd (List.isEmpty_iff.mp hE2) hsfleaf
      have hset := set_set_right cs i hi1c
        (Node.mk ((cs.getD i default).items ++ [is.getD i default])
          ((cs.getD i default).children ++
            [(cs.getD (i + 1) default).children.getD 0 default]))
        (Node.mk (removeAt (cs.getD (i + 1) default).items 0)
          (removeAt (cs.getD (i + 1) default).children 0))
      have hDmem : (cs.getD (i + 1) default).children.getD 0 default ∈
          (cs.getD (i + 1) default).children := getD_mem _ 0 hsfcne
      have hDfacts := Node.wfB_child_of_mem hsfw hDmem
      refine ⟨Node.mk ((cs.getD i default).items ++ [is.getD i default])
          ((cs.getD i default).children ++
            [(cs.getD (i + 1) default).children.getD 0 default]),
        Node.mk (removeAt (cs.getD (i + 1) default).items 0)
          (removeAt (cs.getD (i + 1) default).children 0), ?_, ?_, ?_, ?_, ?_,
        by simp, ?_⟩
      · simp only [Node.growChild, Node.items_mk, Node.children_mk, hb1nd,
          Bool.false_eq_true, if_false, hb2d, eq_self_iff_true, if_true, hE, hset]
      · rw [Node.wfB_iff]
        have hFH : Node.height (.mk ((cs.getD i default).items ++ [is.getD i default])
            ((cs.getD i default).children ++
              [(cs.getD (i + 1) default).children.getD 0 default])) =
            (cs.getD i default).height := by
          have h9 := Node.height_uniform
            ((cs.getD i default).items ++ [is.getD i default])
            ((cs.getD i default).children ++
              [(cs.getD (i + 1) default).children.getD 0 default])
            ((cs.getD i default).height - 1) (by simp) ?_
          · rw [h9]
            have := Node.height_pos_of_child _ hcic
            omega
          · intro c hc
            rcases List.mem_append.mp hc with h | h
            · have h7 := Node.wfB_child_of_mem hciw h
              omega
            · rw [List.mem_singleton] at h
              subst h
              omega
        refine ⟨Or.inr (by simp only [List.length_append, List.length_singleton]; omega), ?_, ?_, ?_⟩
        · simp only [List.length_append, List.length_singleton]
          omega
        · refine Or.inr ?_
          simp only [List.length_append, List.length_singleton]
          omega
        · intro c hc
          rw [hFH]
          rcases List.mem_append.mp hc with h | h
          · have h7 := Node.wfB_child_of_mem hciw h
            exact ⟨h7.1, by omega⟩
          · rw [List.mem_singleton] at h
            subst h
            exact ⟨hDfacts.1, by omega⟩
      · rw [Node.wfB_iff]
        have hrmc : (removeAt (cs.getD (i + 1) default).children 0).length =
            (cs.getD (i + 1) default).children.length - 1 :=
          length_removeAt _ _ (by omega)
        have hGne : removeAt (cs.getD (i + 1) default).children 0 ≠ [] := by
          intro hh
          have h9 := congrArg List.length hh
          rw [hrmc] at h9
          simp only [List.length_nil] at h9
          omega
        have hGH : Node.height (.mk (removeAt (cs.getD (i + 1) default).items 0)
            (removeAt (cs.getD (i + 1) default).children 0)) =
            (cs.getD (i + 1) default).height := by
          have h9 := Node.height_uniform (removeAt (cs.getD (i + 1) default).items 0)
            (removeAt (cs.getD (i + 1) default).children 0)
            ((cs.getD (i + 1) default).height - 1) hGne ?_
          · rw [h9]
            omega
          · intro c hc
            have hsub : c ∈ (cs.getD (i + 1) default).children := by
              have h8 : removeAt (cs.getD (i + 1) default).children 0 =
                  (cs.getD (i + 1) default).children.drop 1 := by
                simp [removeAt]
              rw [h8] at hc
              exact List.mem_of_mem_drop hc
            have h7 := Node.wfB_child_of_mem hsfw hsub
            omega
        refine ⟨Or.inr (by rw [hrmc, length_removeAt _ _ (by omega)]; omega), ?_, ?_, ?_⟩
        · rw [length_removeAt _ _ (by omega)]
          omega
        · refine Or.inr ?_
          rw [length_removeAt _ _ (by omega)]
          omega
        · intro c hc
          have hsub : c ∈ (cs.getD (i + 1) default).children := by
            have h8 : removeAt (cs.getD (i + 1) default).children 0 =
                (cs.getD (i + 1) default).children.drop 1 := by
              simp [removeAt]
            rw [h8] at hc
            exact List.mem_of_mem_drop hc
          have h7 := Node.wfB_child_of_mem hsfw hsub
          rw [hGH]
          exact ⟨h7.1, by omega⟩
      · have h9 := Node.height_uniform
          ((cs.getD i default).items ++ [is.getD i default])
          ((cs.getD i default).children ++
            [(cs.getD (i + 1) default).children.getD 0 default])
          ((cs.getD i default).height - 1) (by simp) ?_
        · rw [h9]
          have := Node.height_pos_of_child _ hcic
          omega
        · intro c hc
          rcases List.mem_append.mp hc with h | h
          · have h7 := Node.wfB_child_of_mem hciw h
            omega
          · rw [List.mem_singleton] at h
            subst h
            omega
      · have hrmc : (removeAt (cs.getD (i + 1) default).children 0).length =
            (cs.getD (i + 1) default).children.length - 1 :=
          length_removeAt _ _ (by omega)
        have hGne : removeAt (cs.getD (i + 1) default).children 0 ≠ [] := by
          intro hh
          have h9 := congrArg List.length hh
          rw [hrmc] at h9
          simp only [List.length_nil] at h9
          omega
        have h9 := Node.height_uniform (removeAt (cs.getD (i + 1) default).items 0)
          (removeAt (cs.getD (i + 1) default).children 0)
          ((cs.getD (i + 1) default).height - 1) hGne ?_
        · rw [h9]
          omega
        · intro c hc
          have hsub : c ∈ (cs.getD (i + 1) default).children := by
            have h8 : removeAt (cs.getD (i + 1) default).children 0 =
                (cs.getD (i + 1) default).children.drop 1 := by
              simp [removeAt]
            rw [h8] at hc
            exact List.mem_of_mem_drop hc
          have h7 := Node.wfB_child_of_mem hsfw hsub
          omega
      · -- the window contents are a rotation of the original ones
        have hrmI : removeAt (cs.getD (i + 1) default).items 0 =
            (cs.getD (i + 1) default).items.drop 1 := by
          simp [removeAt]
        have hrmC : removeAt (cs.getD (i + 1) default).children 0 =
            (cs.getD (i + 1) default).children.drop 1 := by
          simp [removeAt]
        have hsfglue : (cs.getD (i + 1) default).toList =
            ((cs.getD (i + 1) default).children.getD 0 default).toList ++
              (cs.getD (i + 1) default).items.getD 0 default ::
                interleave (((cs.getD (i + 1) default).children.drop 1).map Node.toList)
                  ((cs.getD (i + 1) default).items.drop 1) := by
          rw [Node.toList_glue hsfleaf]
          conv_lhs => rw [← cons_getD_drop (cs.getD (i + 1) default).children hsfcne,
            ← cons_getD_drop (cs.getD (i + 1) default).items hsfne]
          rw [List.map_cons, interleave_cons]
        have hch2 : (Node.mk ((cs.getD i default).items ++ [is.getD i default])
            ((cs.getD i default).children ++
              [(cs.getD (i + 1) default).children.getD 0 default])).toList =
            (cs.getD i default).toList ++ is.getD i default ::
              ((cs.getD (i + 1) default).children.getD 0 default).toList := by
          rw [Node.toList_inner _ _ (by simp), List.map_append, List.map_singleton]
          have h8 : (cs.getD i default).items ++ [is.getD i default] =
              (cs.getD i default).items ++ is.getD i default :: [] := rfl
          rw [h8]
          rw [interleave_glue ((cs.getD i default).children.map Node.toList)
            (cs.getD i default).items (by rw [List.length_map]; exact hcicnt) (is.getD i default)
            [((cs.getD (i + 1) default).children.getD 0 default).toList] []]
          rw [interleave_cons_nil]
          rw [← Node.toList_glue hcic]
        have hG : (Node.mk (removeAt (cs.getD (i + 1) default).items 0)
            (removeAt (cs.getD (i + 1) default).children 0)).toList =
            interleave (((cs.getD (i + 1) default).children.drop 1).map Node.toList)
              ((cs.getD (i + 1) default).items.drop 1) := by
          rw [hrmI, hrmC]
          apply Node.toList_inner
          intro hh
          have h9 := congrArg List.length hh
          simp only [List.length_drop, List.length_nil] at h9
          omega
        rw [hG, hch2, hsfglue]
        simp [List.append_assoc]
  -- shared facts from the packaged shape
  have hW := toList_window2 is cs hlen i hb2.1
    ((cs.getD (i + 1) default).items.getD 0 default) F G
  have hD := toList_decomp is cs hlen i hic
  have hRS : rightSeg is cs i = is.getD i default ::
      ((cs.getD (i + 1) default).toList ++ rightSeg is cs (i + 1)) := by
    simp only [rightSeg]
    rw [if_pos hb2.1, interleave_drop_eq is cs (i + 1) hi1c]
    simp only [rightSeg]
  have hG1 : Node.toList (.mk
      (is.set i ((cs.getD (i + 1) default).items.getD 0 default))
      (cs.take i ++ F :: G :: cs.drop (i + 2))) = Node.toList (.mk is cs) := by
    rw [hW, hD, hRS]
    have hstep : F.toList ++
        (cs.getD (i + 1) default).items.getD 0 default ::
          (G.toList ++ rightSeg is cs (i + 1)) =
        (cs.getD i default).toList ++ is.getD i default ::
          ((cs.getD (i + 1) default).toList ++ rightSeg is cs (i + 1)) := by
      have h8 : F.toList ++
          (cs.getD (i + 1) default).items.getD 0 default ::
            (G.toList ++ rightSeg is cs (i + 1)) =
          (F.toList ++ (cs.getD (i + 1) default).items.getD 0 default :: G.toList) ++
            rightSeg is cs (i + 1) := by
        simp
      have h9 : (cs.getD i default).toList ++ is.getD i default ::
          ((cs.getD (i + 1) default).toList ++ rightSeg is cs (i + 1)) =
          ((cs.getD i default).toList ++ is.getD i default ::
            (cs.getD (i + 1) default).toList) ++ rightSeg is cs (i + 1) := by
        simp
      rw [h8, h9, hmid]
    rw [hstep]
  have hWF := wfB_after_window is cs hw i hi1c
    (is.set i ((cs.getD (i + 1) default).items.getD 0 default)) (by simp)
    F G hFw hGw hFh hGh
  -- the retried removal lands on the freshly grown child
  have hsmem : (cs.getD (i + 1) default).items.getD 0 default ∈
      (cs.getD (i + 1) default).toList :=
    mem_items_toList (Node.wfB_counts _ hsfw) (getD_mem _ 0 hsfne)
  have hms : less (is.getD i default)
      ((cs.getD (i + 1) default).items.getD 0 default) = true := by
    have h9 := item_lt_child hlen hsrt i hi1c hb2.1
    exact h9 _ hsmem
  have hsort1 : SortedL less
      (is.set i ((cs.getD (i + 1) default).items.getD 0 default)) := by
    have h0 : SortedL less (Node.toList (.mk
        (is.set i ((cs.getD (i + 1) default).items.getD 0 default))
        (cs.take i ++ F :: G :: cs.drop (i + 2)))) := by
      rw [hG1]
      exact hsrt
    exact sorted_items (Or.inr (by
      simp only [List.length_append, List.length_cons, List.length_take,
        List.length_drop, List.length_set]
      omega)) h0
  have hidx1 : (RIdx less typ x (.mk
      (is.set i ((cs.getD (i + 1) default).items.getD 0 default))
      (cs.take i ++ F :: G :: cs.drop (i + 2)))).1 = i := by
    cases typ with
    | removeMax =>
      simp only [RIdx, Node.items_mk] at hidx
      rw [Prod.mk.injEq] at hidx
      omega
    | removeMin =>
      simp only [RIdx, Node.items_mk] at hidx ⊢
      rw [Prod.mk.injEq] at hidx
      omega
    | removeItem =>
      simp only [RIdx, Node.items_mk] at hidx ⊢
      cases found with
      | false =>
        have hq := find_not_found hl hsis x (by rw [hidx])
        rw [hidx] at hq
        simp only at hq
        have hfind1 : find less
            (is.set i ((cs.getD (i + 1) default).items.getD 0 default)) x =
            (i, false) := by
          apply find_eq_not_found hl hsort1 x i (by simp only [List.length_set]; omega)
          · intro j hj
            rw [getD_set_ne is i j (by omega) _]
            exact hq.2.2.1 j hj
          · intro j hj1 hj2
            rw [List.length_set] at hj2
            by_cases hji : j = i
            · subst hji
              rw [getD_set_self is j _ (by omega)]
              exact hl.lt_trans (hq.2.2.2 j hj1 hj2) hms
            · rw [getD_set_ne is i j (by omega) _]
              exact hq.2.2.2 j hj1 hj2
        rw [hfind1]
      | true =>
        have hff := find_found hl hsis x (by rw [hidx])
        rw [hidx] at hff
        simp only at hff
        obtain ⟨hfl, hfe, _⟩ := hff
        have hjx : ∀ j, j < i → less (is.getD j default) x = true := by
          intro j hj
          have h6 : less (is.getD j default) (is.getD i default) = true := by
            rw [List.getD_eq_getElem is default (by omega),
              List.getD_eq_getElem is default hfl]
            exact hsis.rel hj hfl
          exact hl.lt_of_lt_of_nlt h6 hfe.1
        have hfind1 : find less
            (is.set i ((cs.getD (i + 1) default).items.getD 0 default)) x =
            (i, false) := by
          apply find_eq_not_found hl hsort1 x i (by simp only [List.length_set]; omega)
          · intro j hj
            rw [getD_set_ne is i j (by omega) _]
            exact hjx j hj
          · intro j hj1 hj2
            rw [List.length_set] at hj2
            by_cases hji : j = i
            · subst hji
              rw [getD_set_self is j _ (by omega)]
              exact hl.lt_of_nlt_of_lt hfe.2 hms
            · rw [getD_set_ne is i j (by omega) _]
              have h6 : less (is.getD i default) (is.getD j default) = true := by
                rw [List.getD_eq_getElem is default hfl,
                  List.getD_eq_getElem is default (by omega)]
                exact hsis.rel (by omega) (by omega)
              exact hl.lt_of_nlt_of_lt hfe.2 h6
        rw [hfind1]
  have hgetF : (cs.take i ++ F :: G :: cs.drop (i + 2)).getD i default = F :=
    getD_take_cons cs i (by omega) F (G :: cs.drop (i + 2))
  simp only [hres]
  refine ⟨hG1, hWF.1, hWF.2, hp, by simp, ?_, ?_⟩
  · rw [hidx1]
    simp only [Node.children_mk, List.length_append, List.length_cons, List.length_take,
      List.length_drop]
    omega
  · simp only [Node.children_mk]
    rw [hidx1, hgetF, hFlen, hlow2]
    omega


/-- `node.growChildAndRemove`, merge-with-sibling branch: the contents, the
invariant and the height are preserved, the pool stays empty of full shells,
and the removal retried on the result descends into the merged child, which
now holds more than `minItems` items. -/
theorem growChild_merge_spec {less : α → α → Bool} [Inhabited α] (hl : LawfulLess less)
    (minI maxI : Nat) (hminI : 1 ≤ minI) (hmaxI : maxI = 2 * minI + 1)
    {ro : Bool} (is : List α) (cs : List (Node α)) (i : Nat) (typ : ToRemove) (x : α)
    (found : Bool) (p : FreeList α)
    (hw : Node.wfB minI maxI ro (.mk is cs) = true)
    (hsrt : SortedL less (Node.toList (.mk is cs)))
    (hcse : cs ≠ [])
    (his : 1 ≤ is.length)
    (hi : i ≤ is.length)
    (hlow : (cs.getD i default).items.length ≤ minI)
    (hidx : RIdx less typ x (.mk is cs) = (i, found))
    (hp : PoolEmpty p)
    (hslack : ro = true ∨ minI < is.length)
    (hb1n : ¬ (0 < i ∧ minI < (cs.getD (i - 1) default).items.length))
    (hb2n : ¬ (i < is.length ∧ minI < (cs.getD (i + 1) default).items.length)) :
    (Node.growChild (.mk is cs) i minI p).1.toList = Node.toList (.mk is cs) ∧
    Node.wfB minI maxI ro (Node.growChild (.mk is cs) i minI p).1 = true ∧
    (Node.growChild (.mk is cs) i minI p).1.height = Node.height (.mk is cs) ∧
    PoolEmpty (Node.growChild (.mk is cs) i minI p).2 ∧
    (Node.growChild (.mk is cs) i minI p).1.children ≠ [] ∧
    (RIdx less typ x (Node.growChild (.mk is cs) i minI p).1).1 <
      (Node.growChild (.mk is cs) i minI p).1.children.length ∧
    minI < ((Node.growChild (.mk is cs) i minI p).1.children.getD
      (RIdx less typ x (Node.growChild (.mk is cs) i minI p).1).1 default).items.length := by
  have hwff := (Node.wfB_iff minI maxI ro is cs).mp hw
  have hlen : cs.length = is.length + 1 := hwff.1.resolve_left hcse
  have hsis : SortedL less is := sorted_items (Or.inr hlen) hsrt
  have hb1nd : (decide (i > 0) &&
      decide ((cs.getD (i - 1) default).items.length > minI)) = false := by
    cases h : (decide (i > 0) &&
        decide ((cs.getD (i - 1) default).items.length > minI)) with
    | false => rfl
    | true =>
      simp only [Bool.and_eq_true, decide_eq_true_eq] at h
      exact (hb1n ⟨by omega, by omega⟩).elim
  have hb2nd : (decide (i < is.length) &&
      decide ((cs.getD (i + 1) default).items.length > minI)) = false := by
    cases h : (decide (i < is.length) &&
        decide ((cs.getD (i + 1) default).items.length > minI)) with
    | false => rfl
    | true =>
      simp only [Bool.and_eq_true, decide_eq_true_eq] at h
      exact (hb2n ⟨by omega, by omega⟩).elim
  -- shared facts about the merged node, for either normalized index
  have hkey : ∀ j, j < is.length →
      (cs.getD j default).items.length ≤ minI →
      (cs.getD (j + 1) default).items.length ≤ minI →
      Node.wfB minI maxI false
        (.mk ((cs.getD j default).items ++
            is.getD j default :: (cs.getD (j + 1) default).items)
          ((cs.getD j default).children ++ (cs.getD (j + 1) default).children)) = true ∧
      Node.height
        (.mk ((cs.getD j default).items ++
            is.getD j default :: (cs.getD (j + 1) default).items)
          ((cs.getD j default).children ++ (cs.getD (j + 1) default).children)) =
        (cs.getD j default).height ∧
      minI < (Node.mk ((cs.getD j default).items ++
            is.getD j default :: (cs.getD (j + 1) default).items)
          ((cs.getD j default).children ++
            (cs.getD (j + 1) default).children)).items.length ∧
      Node.toList
        (.mk ((cs.getD j default).items ++
            is.getD j default :: (cs.getD (j + 1) default).items)
          ((cs.getD j default).children ++ (cs.getD (j + 1) default).children)) =
        (cs.getD j default).toList ++
          is.getD j default :: (cs.getD (j + 1) default).toList := by
    intro j hj hjlow hj1low
    have hj2 : j + 1 < cs.length := by omega
    have hcjmem : cs.getD j default ∈ cs := getD_mem cs j (by omega)
    have hcj1mem : cs.getD (j + 1) default ∈ cs := getD_mem cs (j + 1) hj2
    have hcjw : Node.wfB minI maxI false (cs.getD j default) = true :=
      (hwff.2.2.2 _ hcjmem).1
    have hcj1w : Node.wfB minI maxI false (cs.getD (j + 1) default) = true :=
      (hwff.2.2.2 _ hcj1mem).1
    have hcjh : (cs.getD j default).height + 1 = Node.height (.mk is cs) :=
      (hwff.2.2.2 _ hcjmem).2
    have hcj1h : (cs.getD (j + 1) default).height + 1 = Node.height (.mk is cs) :=
      (hwff.2.2.2 _ hcj1mem).2
    have hjmin : minI ≤ (cs.getD j default).items.length := Node.wfB_min_le _ hcjw
    have hj1min : minI ≤ (cs.getD (j + 1) default).items.length :=
      Node.wfB_min_le _ hcj1w
    by_cases hleaf : (cs.getD j default).children = []
    · have hleaf1 : (cs.getD (j + 1) default).children = [] := by
        by_contra hcc
        have h1 := Node.height_pos_of_child _ hcc
        have h2 := Node.height_zero_of_leaf hleaf
        omega
      refine ⟨?_, ?_, ?_, ?_⟩
      · rw [hleaf, hleaf1, Node.wfB_iff]
        refine ⟨Or.inl (by simp), ?_, ?_, by simp⟩
        · simp only [List.length_append, List.length_cons]
          omega
        · refine Or.inr ?_
          simp only [List.length_append, List.length_cons]
          omega
      · rw [hleaf, hleaf1, Node.height_zero_of_leaf hleaf]
        simp [Node.height]
      · simp only [Node.items_mk, List.length_append, List.length_cons]
        omega
      · rw [hleaf, hleaf1, Node.toList_eq_items hleaf, Node.toList_eq_items hleaf1]
        simp
    · have hcjhp : 0 < (cs.getD j default).height := Node.height_pos_of_child _ hleaf
      have hleaf1 : (cs.getD (j + 1) default).children ≠ [] :=
        Node.children_ne_nil_of_height (by omega)
      have hcjcnt : (cs.getD j default).children.length =
          (cs.getD j default).items.length + 1 :=
        (Node.wfB_counts _ hcjw).resolve_left hleaf
      have hcj1cnt : (cs.getD (j + 1) default).children.length =
          (cs.getD (j + 1) default).items.length + 1 :=
        (Node.wfB_counts _ hcj1w).resolve_left hleaf1
      have hmne : (cs.getD j default).children ++ (cs.getD (j + 1) default).children ≠
          [] := by
        intro hh
        exact hleaf (List.append_eq_nil.mp hh).1
      have hchild : ∀ c, c ∈ (cs.getD j default).children ++
          (cs.getD (j + 1) default).children →
          Node.wfB minI maxI false c = true ∧
          c.height = (cs.getD j default).height - 1 := by
        intro c hc
        rcases List.mem_append.mp hc with h | h
        · have h7 := Node.wfB_child_of_mem hcjw h
          exact ⟨h7.1, by omega⟩
        · have h7 := Node.wfB_child_of_mem hcj1w h
          exact ⟨h7.1, by omega⟩
      have hH : Node.height
          (.mk ((cs.getD j default).items ++
              is.getD j default :: (cs.getD (j + 1) default).items)
            ((cs.getD j default).children ++ (cs.getD (j + 1) default).children)) =
          (cs.getD j default).height := by
        have h9 := Node.height_uniform
          ((cs.getD j default).items ++
            is.getD j default :: (cs.getD (j + 1) default).items)
          ((cs.getD j default).children ++ (cs.getD (j + 1) default).children)
          ((cs.getD j default).height - 1) hmne (fun c hc => (hchild c hc).2)
        rw [h9]
        omega
      refine ⟨?_, hH, ?_, ?_⟩
      · rw [Node.wfB_iff]
        refine ⟨Or.inr ?_, ?_, ?_, ?_⟩
        · simp only [List.length_append, List.length_cons]
          omega
        · simp only [List.length_append, List.length_cons]
          omega
        · refine Or.inr ?_
          simp only [List.length_append, List.length_cons]
          omega
        · intro c hc
          have h7 := hchild c hc
          refine ⟨h7.1, ?_⟩
          rw [hH]
          omega
      · simp only [Node.items_mk, List.length_append, List.length_cons]
        omega
      · rw [Node.toList_inner _ _ hmne, List.map_append]
        rw [interleave_glue ((cs.getD j default).children.map Node.toList)
          (cs.getD j default).items (by rw [List.length_map]; exact hcjcnt)
          (is.getD j default) ((cs.getD (j + 1) default).children.map Node.toList)
          (cs.getD (j + 1) default).items]
        rw [← Node.toList_glue hleaf, ← Node.toList_glue hleaf1]
  obtain ⟨j, hjlt, hj2, hjchar, C, hres, hCw, hCh, hClen, hCtl⟩ :
      ∃ j, j < is.length ∧ j + 1 < cs.length ∧
        ((j = i ∧ i < is.length) ∨ (j = i - 1 ∧ i = is.length)) ∧
      ∃ C, Node.growChild (.mk is cs) i minI p =
          (.mk (removeAt is j) (cs.take j ++ C :: cs.drop (j + 2)),
            (p.freeNode (.mk [] [])).2) ∧
        Node.wfB minI maxI false C = true ∧
        C.height = (cs.getD j default).height ∧
        minI < C.items.length ∧
        C.toList = (cs.getD j default).toList ++
          is.getD j default :: (cs.getD (j + 1) default).toList := by
    by_cases hge : i ≥ is.length
    · have hieq : i = is.length := by omega
      have hif : (if i ≥ is.length then i - 1 else i) = is.length - 1 := by
        rw [if_pos hge, hieq]
      have hj1i : is.length - 1 + 1 = i := by omega
      have hjlow : (cs.getD (is.length - 1) default).items.length ≤ minI := by
        have h6 : ¬ minI < (cs.getD (i - 1) default).items.length := by
          intro hcc
          exact hb1n ⟨by omega, hcc⟩
        have h7 : i - 1 = is.length - 1 := by omega
        rw [h7] at h6
        omega
      have hj1low : (cs.getD (is.length - 1 + 1) default).items.length ≤ minI := by
        rw [hj1i]
        exact hlow
      obtain ⟨k1, k2, k3, k4⟩ := hkey (is.length - 1) (by omega) hjlow hj1low
      refine ⟨is.length - 1, by omega, by omega, Or.inr ⟨by omega, hieq⟩, _, ?_,
        k1, k2, k3, k4⟩
      have hres0 : Node.growChild (.mk is cs) i minI p =
          (.mk (removeAt is (is.length - 1))
            ((removeAt cs (is.length - 1 + 1)).set (is.length - 1)
              (.mk ((cs.getD (is.length - 1) default).items ++
                  is.getD (is.length - 1) default ::
                    (cs.getD (is.length - 1 + 1) default).items)
                ((cs.getD (is.length - 1) default).children ++
                  (cs.getD (is.length - 1 + 1) default).children))),
            (p.freeNode (.mk [] [])).2) := by
        simp only [Node.growChild, Node.items_mk, Node.children_mk, hb1nd, hb2nd,
          Bool.false_eq_true, if_false, hif]
      rw [hres0, removeAt_set cs (is.length - 1) (by omega)]
    · have hilt : i < is.length := by omega
      have hif : (if i ≥ is.length then i - 1 else i) = i := by
        rw [if_neg hge]
      have hj1low : (cs.getD (i + 1) default).items.length ≤ minI := by
        have h6 : ¬ minI < (cs.getD (i + 1) default).items.length := by
          intro hcc
          exact hb2n ⟨hilt, hcc⟩
        omega
      obtain ⟨k1, k2, k3, k4⟩ := hkey i hilt hlow hj1low
      refine ⟨i, hilt, by omega, Or.inl ⟨rfl, hilt⟩, _, ?_, k1, k2, k3, k4⟩
      have hres0 : Node.growChild (.mk is cs) i minI p =
          (.mk (removeAt is i)
            ((removeAt cs (i + 1)).set i
              (.mk ((cs.getD i default).items ++
                  is.getD i default :: (cs.getD (i + 1) default).items)
                ((cs.getD i default).children ++
                  (cs.getD (i + 1) default).children))),
            (p.freeNode (.mk [] [])).2) := by
        simp only [Node.growChild, Node.items_mk, Node.children_mk, hb1nd, hb2nd,
          Bool.false_eq_true, if_false, hif]
      rw [hres0, removeAt_set cs i (by omega)]
  -- shared conclusions
  have hW := toList_windowM is cs hlen j hjlt C
  have hD := toList_decomp is cs hlen j (by omega)
  have hRS : rightSeg is cs j = is.getD j default ::
      ((cs.getD (j + 1) default).toList ++ rightSeg is cs (j + 1)) := by
    simp only [rightSeg]
    rw [if_pos hjlt, interleave_drop_eq is cs (j + 1) hj2]
    simp only [rightSeg]
  have hG1 : Node.toList (.mk (removeAt is j) (cs.take j ++ C :: cs.drop (j + 2))) =
      Node.toList (.mk is cs) := by
    rw [hW, hD, hRS, hCtl]
    simp [List.append_assoc]
  have hWF := wfB_after_merge is cs hw j hjlt hj2 hslack C hCw hCh
  have hsort1 : SortedL less (removeAt is j) := by
    have h0 : SortedL less (Node.toList (.mk (removeAt is j)
        (cs.take j ++ C :: cs.drop (j + 2)))) := by
      rw [hG1]
      exact hsrt
    exact sorted_items (Or.inr (by
      rw [length_removeAt is j (by omega)]
      simp only [List.length_append, List.length_cons, List.length_take,
        List.length_drop]
      omega)) h0
  have hidx1 : (RIdx less typ x (.mk (removeAt is j)
      (cs.take j ++ C :: cs.drop (j + 2)))).1 = j := by
    cases typ with
    | removeMax =>
      simp only [RIdx, Node.items_mk] at hidx ⊢
      rw [Prod.mk.injEq] at hidx
      rw [length_removeAt is j (by omega)]
      rcases hjchar with ⟨h1, h2⟩ | ⟨h1, h2⟩ <;> omega
    | removeMin =>
      simp only [RIdx, Node.items_mk] at hidx ⊢
      rw [Prod.mk.injEq] at hidx
      rcases hjchar with ⟨h1, h2⟩ | ⟨h1, h2⟩ <;> omega
    | removeItem =>
      simp only [RIdx, Node.items_mk] at hidx ⊢
      rcases hjchar with ⟨h1, h2⟩ | ⟨h1, h2⟩
      · subst h1
        cases found with
        | false =>
          have hq := find_not_found hl hsis x (by rw [hidx])
          rw [hidx] at hq
          simp only at hq
          have hfind1 : find less (removeAt is j) x = (j, false) := by
            apply find_eq_not_found hl hsort1 x j
              (by rw [length_removeAt is j (by omega)]; omega)
            · intro k hk
              rw [getD_removeAt_left is j k hk (by omega)]
              exact hq.2.2.1 k hk
            · intro k hk1 hk2
              rw [length_removeAt is j (by omega)] at hk2
              rw [getD_removeAt_right is j k hk1 (by omega)]
              exact hq.2.2.2 (k + 1) (by omega) (by omega)
          rw [hfind1]
        | true =>
          have hff := find_found hl hsis x (by rw [hidx])
          rw [hidx] at hff
          simp only at hff
          obtain ⟨hfl, hfe, _⟩ := hff
          have hjx : ∀ k, k < j → less (is.getD k default) x = true := by
            intro k hk
            have h6 : less (is.getD k default) (is.getD j default) = true := by
              rw [List.getD_eq_getElem is default (by omega),
                List.getD_eq_getElem is default hfl]
              exact hsis.rel hk hfl
            exact hl.lt_of_lt_of_nlt h6 hfe.1
          have hfind1 : find less (removeAt is j) x = (j, false) := by
            apply find_eq_not_found hl hsort1 x j
              (by rw [length_removeAt is j (by omega)]; omega)
            · intro k hk
              rw [getD_removeAt_left is j k hk (by omega)]
              exact hjx k hk
            · intro k hk1 hk2
              rw [length_removeAt is j (by omega)] at hk2
              rw [getD_removeAt_right is j k hk1 (by omega)]
              have h6 : less (is.getD j default) (is.getD (k + 1) default) = true := by
                rw [List.getD_eq_getElem is default hfl,
                  List.getD_eq_getElem is default (by omega)]
                exact hsis.rel (by omega) (by omega)
              exact hl.lt_of_nlt_of_lt hfe.2 h6
          rw [hfind1]
      · cases found with
        | true =>
          have hff := find_found hl hsis x (by rw [hidx])
          rw [hidx] at hff
          simp only at hff
          omega
        | false =>
          have hq := find_not_found hl hsis x (by rw [hidx])
          rw [hidx] at hq
          simp only at hq
          have hfind1 : find less (removeAt is j) x = (j, false) := by
            apply find_eq_not_found hl hsort1 x j
              (by rw [length_removeAt is j (by omega)]; omega)
            · intro k hk
              rw [getD_removeAt_left is j k hk (by omega)]
              exact hq.2.2.1 k (by omega)
            · intro k hk1 hk2
              exfalso
              rw [length_removeAt is j (by omega)] at hk2
              omega
          rw [hfind1]
  have hgetC : (cs.take j ++ C :: cs.drop (j + 2)).getD j default = C :=
    getD_take_cons cs j (by omega) C _
  simp only [hres]
  refine ⟨hG1, hWF.1, hWF.2, PoolEmpty.freeNode p hp, by simp, ?_, ?_⟩
  · rw [hidx1]
    simp only [Node.children_mk, List.length_append, List.length_cons, List.length_take,
      List.length_drop]
    omega
  · simp only [Node.children_mk]
    rw [hidx1, hgetC]
    exact hClen


/-- The growing step of `node.growChildAndRemove`: whichever branch fires
(steal left, steal right, or merge), the node keeps its contents, invariant
and height, the pool stays clean, and the retried removal descends into a
child holding more than `minItems` items. -/
theorem growChild_spec {less : α → α → Bool} [Inhabited α] (hl : LawfulLess less)
    (minI maxI : Nat) (hminI : 1 ≤ minI) (hmaxI : maxI = 2 * minI + 1)
    {ro : Bool} (is : List α) (cs : List (Node α)) (i : Nat) (typ : ToRemove) (x : α)
    (found : Bool) (p : FreeList α)
    (hw : Node.wfB minI maxI ro (.mk is cs) = true)
    (hsrt : SortedL less (Node.toList (.mk is cs)))
    (hcse : cs ≠ [])
    (his : 1 ≤ is.length)
    (hi : i ≤ is.length)
    (hlow : (cs.getD i default).items.length ≤ minI)
    (hidx : RIdx less typ x (.mk is cs) = (i, found))
    (hp : PoolEmpty p)
    (hslack : ro = true ∨ minI < is.length) :
    (Node.growChild (.mk is cs) i minI p).1.toList = Node.toList (.mk is cs) ∧
    Node.wfB minI maxI ro (Node.growChild (.mk is cs) i minI p).1 = true ∧
    (Node.growChild (.mk is cs) i minI p).1.height = Node.height (.mk is cs) ∧
    PoolEmpty (Node.growChild (.mk is cs) i minI p).2 ∧
    (Node.growChild (.mk is cs) i minI p).1.children ≠ [] ∧
    (RIdx less typ x (Node.growChild (.mk is cs) i minI p).1).1 <
      (Node.growChild (.mk is cs) i minI p).1.children.length ∧
    minI < ((Node.growChild (.mk is cs) i minI p).1.children.getD
      (RIdx less typ x (Node.growChild (.mk is cs) i minI p).1).1 default).items.length := by
  by_cases hb1 : 0 < i ∧ minI < (cs.getD (i - 1) default).items.length
  · exact growChild_left_spec hl minI maxI hminI hmaxI is cs i typ x found p
      hw hsrt hcse hi hlow hidx hp hb1
  · by_cases hb2 : i < is.length ∧ minI < (cs.getD (i + 1) default).items.length
    · exact growChild_right_spec hl minI maxI hminI hmaxI is cs i typ x found p
        hw hsrt hcse hi hlow hidx hp hb1 hb2
    · exact growChild_merge_spec hl minI maxI hminI hmaxI is cs i typ x found p
        hw hsrt hcse his hi hlow hidx hp hslack hb1 hb2


theorem Node.height_set_items (is : List α) (cs : List (Node α)) (j : Nat) (y : α) :
    Node.height (.mk (is.set j y) cs) = Node.height (.mk is cs) := by
  rw [Node.height_mk, Node.height_mk]

theorem wfB_set_item {minI maxI : Nat} {ro : Bool}
    (is : List α) (cs : List (Node α))
    (hwf : Node.wfB minI maxI ro (.mk is cs) = true) (j : Nat) (y : α) :
    Node.wfB minI maxI ro (.mk (is.set j y) cs) = true := by
  rw [Node.wfB_iff] at hwf ⊢
  obtain ⟨hcnt, hmax, hmin, hkids⟩ := hwf
  refine ⟨?_, by simpa using hmax, by simpa using hmin, ?_⟩
  · rcases hcnt with h | h
    · exact Or.inl h
    · exact Or.inr (by simpa using h)
  · intro c hc
    refine ⟨(hkids c hc).1, ?_⟩
    rw [Node.height_set_items]
    exact (hkids c hc).2

theorem leftSeg_zero [Inhabited α] (is : List α) (cs : List (Node α)) :
    leftSeg is cs 0 = [] := by
  simp [leftSeg, interleave]

theorem rightSeg_ge [Inhabited α] (is : List α) (cs : List (Node α)) (i : Nat)
    (h : is.length ≤ i) : rightSeg is cs i = [] := by
  simp only [rightSeg]
  rw [if_neg (by omega)]

/-- `RemoveOK` only looks at the starting node through its contents and
height, so it transfers across the growing step. -/
theorem RemoveOK_of_eq {less : α → α → Bool} [Inhabited α] {minI maxI : Nat}
    {ro : Bool} {typ : ToRemove} {x : α} {n n1 : Node α} {r : MutRes α}
    (h1 : n1.toList = n.toList) (h2 : n1.height = n.height)
    (hok : RemoveOK less minI maxI ro typ x n1 r) :
    RemoveOK less minI maxI ro typ x n r := by
  unfold RemoveOK at hok ⊢
  rw [h1, h2] at hok
  exact hok

/-- `node.remove`, all modes, by induction on the fuel.  Part one: at an
internal node whose target child already holds more than `minItems` items,
`2·height + 1` fuel suffices.  Part two: at any node with at least one item
(and root slack for the minimum-occupancy bound), `2·height + 2` fuel
suffices; the extra step pays for at most one grow of the target child. -/
theorem remove_spec {less : α → α → Bool} [Inhabited α] (hl : LawfulLess less)
    (minI maxI : Nat) (hminI : 1 ≤ minI) (hmaxI : maxI = 2 * minI + 1) :
    ∀ f : Nat, ∀ (ro : Bool) (n : Node α) (typ : ToRemove) (x : α) (p : FreeList α),
      Node.wfB minI maxI ro n = true →
      SortedL less n.toList →
      PoolEmpty p →
      ((n.children ≠ [] →
        ((RIdx less typ x n).1 < n.children.length ∧
          minI < (n.children.getD (RIdx less typ x n).1 default).items.length) →
        2 * n.height + 1 ≤ f →
        RemoveOK less minI maxI ro typ x n (Node.remove less f x minI typ n p)) ∧
       ((ro = true ∨ minI < n.items.length) →
        1 ≤ n.items.length →
        2 * n.height + 2 ≤ f →
        RemoveOK less minI maxI ro typ x n (Node.remove less f x minI typ n p))) := by
  intro f
  induction f with
  | zero =>
    intro ro n typ x p hw hsrt hp
    exact ⟨fun _ _ h => absurd h (by omega), fun _ _ h => absurd h (by omega)⟩
  | succ f ih =>
    intro ro n typ x p hw hsrt hp
    cases n with
    | mk is cs =>
    have partA : Node.children (.mk is cs) ≠ [] →
        ((RIdx less typ x (.mk is cs)).1 < (Node.children (.mk is cs)).length ∧
          minI < ((Node.children (.mk is cs)).getD
            (RIdx less typ x (.mk is cs)).1 default).items.length) →
        2 * Node.height (.mk is cs) + 1 ≤ f + 1 →
        RemoveOK less minI maxI ro typ x (.mk is cs)
          (Node.remove less (f + 1) x minI typ (.mk is cs) p) := by
      intro hcse htg ha3
      simp only [Node.children_mk] at hcse htg
      have hwff := (Node.wfB_iff minI maxI ro is cs).mp hw
      have hlen : cs.length = is.length + 1 := hwff.1.resolve_left hcse
      have hsis : SortedL less is := sorted_items (Or.inr hlen) hsrt
      have hE : cs.isEmpty = false := by
        cases h : cs.isEmpty with
        | false => rfl
        | true => exact absurd (List.isEmpty_iff.mp h) hcse
      cases typ with
      | removeMax =>
        have htg2 : is.length < cs.length ∧
            minI < (cs.getD is.length default).items.length := by
          simpa [RIdx] using htg
        have hcond : ¬ ((cs.getD is.length default).items.length ≤ minI) := by omega
        have hchmem : cs.getD is.length default ∈ cs := getD_mem cs is.length htg2.1
        have hcw := (hwff.2.2.2 _ hchmem).1
        have hchh := (hwff.2.2.2 _ hchmem).2
        have hcsort := sorted_child (Or.inr hlen) hsrt hchmem
        have hres : Node.remove less (f + 1) x minI .removeMax (.mk is cs) p =
            ⟨.mk is (cs.set is.length
                (Node.remove less f x minI .removeMax (cs.getD is.length default) p).node),
              (Node.remove less f x minI .removeMax (cs.getD is.length default) p).out,
              (Node.remove less f x minI .removeMax (cs.getD is.length default) p).outb,
              (Node.remove less f x minI .removeMax
                (cs.getD is.length default) p).pool⟩ := by
          rw [Node.remove]
          simp only [Node.children_mk, Node.items_mk, hE, Bool.false_eq_true, if_false]
          rw [dif_pos htg2.1, if_neg hcond]
        have hr := (ih false (cs.getD is.length default) .removeMax x p hcw hcsort hp).2
          (Or.inr htg2.2) (by omega) (by omega)
        simp only [RemoveOK] at hr
        obtain ⟨hr1, hr2, hr3, hr4, A0, hA1, hA2⟩ := hr
        have hws := wfB_after_set is cs hw is.length htg2.1 _ hr1 hr2
        have hD := toList_decomp is cs hlen is.length htg2.1
        rw [hres]
        simp only [RemoveOK]
        refine ⟨hws.1, hws.2, hr3, hr4, leftSeg is cs is.length ++ A0, ?_, ?_⟩
        · rw [hD, rightSeg_ge is cs is.length le_rfl, hA1]
          simp
        · rw [toList_set_child is cs hlen is.length htg2.1, hA2,
            rightSeg_ge is cs is.length le_rfl]
          simp
      | removeMin =>
        have htg2 : 0 < cs.length ∧ minI < (cs.getD 0 default).items.length := by
          simpa [RIdx] using htg
        have hcond : ¬ ((cs.getD 0 default).items.length ≤ minI) := by omega
        have hchmem : cs.getD 0 default ∈ cs := getD_mem cs 0 htg2.1
        have hcw := (hwff.2.2.2 _ hchmem).1
        have hchh := (hwff.2.2.2 _ hchmem).2
        have hcsort := sorted_child (Or.inr hlen) hsrt hchmem
        have hres : Node.remove less (f + 1) x minI .removeMin (.mk is cs) p =
            ⟨.mk is (cs.set 0
                (Node.remove less f x minI .removeMin (cs.getD 0 default) p).node),
              (Node.remove less f x minI .removeMin (cs.getD 0 default) p).out,
              (Node.remove less f x minI .removeMin (cs.getD 0 default) p).outb,
              (Node.remove less f x minI .removeMin (cs.getD 0 default) p).pool⟩ := by
          rw [Node.remove]
          simp only [Node.children_mk, Node.items_mk, hE, Bool.false_eq_true, if_false]
          rw [dif_pos htg2.1, if_neg hcond]
        have hr := (ih false (cs.getD 0 default) .removeMin x p hcw hcsort hp).2
          (Or.inr htg2.2) (by omega) (by omega)
        simp only [RemoveOK] at hr
        obtain ⟨hr1, hr2, hr3, hr4, B0, hB1, hB2⟩ := hr
        have hws := wfB_after_set is cs hw 0 htg2.1 _ hr1 hr2
        have hD := toList_decomp is cs hlen 0 htg2.1
        rw [hres]
        simp only [RemoveOK]
        refine ⟨hws.1, hws.2, hr3, hr4, B0 ++ rightSeg is cs 0, ?_, ?_⟩
        · rw [hD, leftSeg_zero, hB1]
          simp
        · rw [toList_set_child is cs hlen 0 htg2.1, hB2, leftSeg_zero]
          simp
      | removeItem =>
        rcases hfind : find less is x with ⟨i, found⟩
        have htg2 : i < cs.length ∧ minI < (cs.getD i default).items.length := by
          simpa [RIdx, hfind] using htg
        have hcond : ¬ ((cs.getD i default).items.length ≤ minI) := by omega
        have hchmem : cs.getD i default ∈ cs := getD_mem cs i htg2.1
        have hcw := (hwff.2.2.2 _ hchmem).1
        have hchh := (hwff.2.2.2 _ hchmem).2
        have hcsort := sorted_child (Or.inr hlen) hsrt hchmem
        have hD := toList_decomp is cs hlen i htg2.1
        cases found with
        | true =>
          obtain ⟨hfl, hfe, _⟩ := find_found hl hsis x (by rw [hfind])
          rw [hfind] at hfl hfe
          simp only at hfl hfe
          have hRS : rightSeg is cs i = is.getD i default ::
              interleave ((cs.drop (i + 1)).map Node.toList) (is.drop (i + 1)) := by
            simp only [rightSeg]
            rw [if_pos hfl]
          have hres : Node.remove less (f + 1) x minI .removeItem (.mk is cs) p =
              ⟨.mk (is.set i (Node.remove less f default minI .removeMax
                      (cs.getD i default) p).out)
                  (cs.set i (Node.remove less f default minI .removeMax
                      (cs.getD i default) p).node),
                is.getD i default, true,
                (Node.remove less f default minI .removeMax
                  (cs.getD i default) p).pool⟩ := by
            rw [Node.remove]
            simp only [Node.children_mk, Node.items_mk, hfind, hE, Bool.false_eq_true,
              if_false]
            rw [dif_pos htg2.1, if_neg hcond]
            simp only [eq_self_iff_true, if_true]
          have hr := (ih false (cs.getD i default) .removeMax default p hcw hcsort hp).2
            (Or.inr htg2.2) (by omega) (by omega)
          simp only [RemoveOK] at hr
          obtain ⟨hr1, hr2, hr3, hr4, A0, hA1, hA2⟩ := hr
          have hws := wfB_after_set is cs hw i htg2.1 _ hr1 hr2
          rw [hres]
          simp only [RemoveOK]
          refine ⟨?_, ?_, hr3, ?_, ?_, ?_⟩
          · exact wfB_set_item is _ hws.1 i _
          · rw [Node.height_set_items]
            exact hws.2
          · refine ⟨fun _ => ⟨is.getD i default, ?_, hfe⟩, fun _ => trivial⟩
            rw [hD, hRS]
            simp
          · intro _
            refine ⟨leftSeg is cs i ++ (A0 ++
                [(Node.remove less f default minI .removeMax
                  (cs.getD i default) p).out]),
              interleave ((cs.drop (i + 1)).map Node.toList) (is.drop (i + 1)),
              ?_, hfe, ?_⟩
            · rw [hD, hRS, hA1]
              simp [List.append_assoc]
            · rw [toList_set_both is cs hlen i hfl, hA2]
              simp [List.append_assoc]
          · intro h
            simp at h
        | false =>
          obtain ⟨hq1, hq2, hq3, hq4⟩ := find_not_found hl hsis x (by rw [hfind])
          have hseg := seg_bounds_not_found hl hlen hsrt x (by rw [hfind])
          rw [hfind] at hseg
          simp only at hseg
          obtain ⟨_, hsegL, hsegR⟩ := hseg
          have hres : Node.remove less (f + 1) x minI .removeItem (.mk is cs) p =
              ⟨.mk is (cs.set i
                  (Node.remove less f x minI .removeItem (cs.getD i default) p).node),
                (Node.remove less f x minI .removeItem (cs.getD i default) p).out,
                (Node.remove less f x minI .removeItem (cs.getD i default) p).outb,
                (Node.remove less f x minI .removeItem
                  (cs.getD i default) p).pool⟩ := by
            rw [Node.remove]
            simp only [Node.children_mk, Node.items_mk, hfind, hE, Bool.false_eq_true,
              if_false]
            rw [dif_pos htg2.1, if_neg hcond]
          have hr := (ih false (cs.getD i default) .removeItem x p hcw hcsort hp).2
            (Or.inr htg2.2) (by omega) (by omega)
          simp only [RemoveOK] at hr
          obtain ⟨hr1, hr2, hr3, hr4, hr5, hr6⟩ := hr
          have hws := wfB_after_set is cs hw i htg2.1 _ hr1 hr2
          rw [hres]
          simp only [RemoveOK]
          refine ⟨hws.1, hws.2, hr3, ?_, ?_, ?_⟩
          · constructor
            · intro h
              obtain ⟨a, ha, hae⟩ := hr4.mp h
              refine ⟨a, ?_, hae⟩
              rw [hD]
              simp only [List.mem_append]
              exact Or.inr (Or.inl ha)
            · rintro ⟨a, ha, hae⟩
              apply hr4.mpr
              rw [hD] at ha
              rcases List.mem_append.mp ha with h | h
              · exfalso
                have h6 := hsegL a h
                rw [hae.2] at h6
                exact absurd h6 (by simp)
              · rcases List.mem_append.mp h with h | h
                · exact ⟨a, h, hae⟩
                · exfalso
                  have h6 := hsegR a h
                  rw [hae.1] at h6
                  exact absurd h6 (by simp)
          · intro h
            obtain ⟨A0, B0, hA1, hA2, hA3⟩ := hr5 h
            refine ⟨leftSeg is cs i ++ A0, B0 ++ rightSeg is cs i, ?_, hA2, ?_⟩
            · rw [hD, hA1]
              simp [List.append_assoc]
            · rw [toList_set_child is cs hlen i htg2.1, hA3]
              simp [List.append_assoc]
          · intro h
            obtain ⟨hu1, hu2⟩ := hr6 h
            refine ⟨?_, hu2⟩
            rw [toList_set_child is cs hlen i htg2.1, hu1, hD]
    refine ⟨partA, ?_⟩
    intro hslack hne hfuel
    simp only [Node.items_mk] at hslack hne
    by_cases hcse : cs = []
    · subst hcse
      exact remove_leaf_spec hl minI maxI ro is typ x f p hw hsrt hne hslack hp
    · have hwff := (Node.wfB_iff minI maxI ro is cs).mp hw
      have hlen : cs.length = is.length + 1 := hwff.1.resolve_left hcse
      have hsis : SortedL less is := sorted_items (Or.inr hlen) hsrt
      have hE : cs.isEmpty = false := by
        cases h : cs.isEmpty with
        | false => rfl
        | true => exact absurd (List.isEmpty_iff.mp h) hcse
      rcases hT : RIdx less typ x (.mk is cs) with ⟨i, found⟩
      have hil : i ≤ is.length ∧ i < cs.length := by
        cases typ with
        | removeMax =>
          simp only [RIdx, Node.items_mk, Prod.mk.injEq] at hT
          omega
        | removeMin =>
          simp only [RIdx, Node.items_mk, Prod.mk.injEq] at hT
          omega
        | removeItem =>
          simp only [RIdx, Node.items_mk] at hT
          cases found with
          | true =>
            have h9 := find_found hl hsis x (by rw [hT])
            rw [hT] at h9
            simp only at h9
            omega
          | false =>
            have h9 := find_not_found hl hsis x (by rw [hT])
            rw [hT] at h9
            simp only at h9
            omega
      by_cases hgrow : (cs.getD i default).items.length ≤ minI
      · -- the target child must first be grown; the retry then runs on the
        -- restructured node with one unit of fuel fewer
        have hgcs := growChild_spec hl minI maxI hminI hmaxI is cs i typ x found p
          hw hsrt hcse hne hil.1 hgrow hT hp hslack
        rcases hgc : Node.growChild (.mk is cs) i minI p with ⟨n1, p1⟩
        rw [hgc] at hgcs
        simp only at hgcs
        obtain ⟨g1, g2, g3, g4, g5, g6, g7⟩ := hgcs
        have hres : Node.remove less (f + 1) x minI typ (.mk is cs) p =
            Node.remove less f x minI typ n1 p1 := by
          cases typ with
          | removeMax =>
            simp only [RIdx, Node.items_mk, Prod.mk.injEq] at hT
            rw [Node.remove]
            simp only [Node.children_mk, Node.items_mk, hE, Bool.false_eq_true,
              if_false]
            rw [hT.1, dif_pos hil.2, if_pos hgrow]
            simp only [Node.growChildAndRemove, hgc]
          | removeMin =>
            simp only [RIdx, Node.items_mk, Prod.mk.injEq] at hT
            rw [Node.remove]
            simp only [Node.children_mk, Node.items_mk, hE, Bool.false_eq_true,
              if_false]
            rw [hT.1, dif_pos hil.2, if_pos hgrow]
            simp only [Node.growChildAndRemove, hgc]
          | removeItem =>
            simp only [RIdx, Node.items_mk] at hT
            rw [Node.remove]
            simp only [Node.children_mk, Node.items_mk, hT, hE, Bool.false_eq_true,
              if_false]
            rw [dif_pos hil.2, if_pos hgrow]
            simp only [Node.growChildAndRemove, hgc]
        rw [hres]
        have hrec := (ih ro n1 typ x p1 g2 (by rw [g1]; exact hsrt) g4).1 g5 ⟨g6, g7⟩
          (by rw [g3]; omega)
        exact RemoveOK_of_eq g1 g3 hrec
      · have htg : (RIdx less typ x (.mk is cs)).1 < (Node.children (.mk is cs)).length ∧
            minI < ((Node.children (.mk is cs)).getD
              (RIdx less typ x (.mk is cs)).1 default).items.length := by
          rw [hT]
          refine ⟨by simpa using hil.2, ?_⟩
          show minI < (cs.getD i default).items.length
          omega
        exact partA (by simpa using hcse) htg (by omega)


theorem wfB_strengthen_root {minI maxI : Nat} (n : Node α)
    (hw : Node.wfB minI maxI false n = true) :
    Node.wfB minI maxI true n = true := by
  cases n with
  | mk is cs =>
    rw [Node.wfB_iff] at hw ⊢
    exact ⟨hw.1, hw.2.1, Or.inl rfl, hw.2.2.2⟩

/-- Removing one element from a sorted list keeps it sorted. -/
theorem SortedL_removed {less : α → α → Bool} (A B : List α) (c : α)
    (hs : SortedL less (A ++ c :: B)) : SortedL less (A ++ B) :=
  List.Pairwise.sublist ((List.Sublist.refl A).append (List.sublist_cons_self c B)) hs

/-- `BTree.deleteItem` on a well-formed tree: the invariant, the degree and
the pool shape are preserved, the length drops exactly when an element was
reported, a reported element is pulled out of the contents in place, and for
`removeItem` the report is exact: `found` iff an order-equal element was
present, with `(zero, false)` and an untouched tree otherwise. -/
theorem deleteItem_spec {less : α → α → Bool} [Inhabited α] (hl : LawfulLess less)
    (t : BTree α) (x : α) (typ : ToRemove) (hg : Good less t) :
    Good less (t.deleteItem less x typ).1 ∧
    (t.deleteItem less x typ).1.degree = t.degree ∧
    (t.deleteItem less x typ).1.length =
      (if (t.deleteItem less x typ).2.2 = true then t.length - 1 else t.length) ∧
    ((t.deleteItem less x typ).2.2 = true →
      ∃ A B, t.rootList = A ++ (t.deleteItem less x typ).2.1 :: B ∧
        (t.deleteItem less x typ).1.rootList = A ++ B) ∧
    (typ = .removeItem →
      (((t.deleteItem less x typ).2.2 = true ↔ ∃ a ∈ t.rootList, eqv less x a) ∧
       ((t.deleteItem less x typ).2.2 = true →
         eqv less x (t.deleteItem less x typ).2.1) ∧
       ((t.deleteItem less x typ).2.2 = false →
         (t.deleteItem less x typ).1.rootList = t.rootList ∧
         (t.deleteItem less x typ).2.1 = default))) := by
  obtain ⟨hdeg, hpool, hroot⟩ := hg
  rcases hr : t.root with _ | root0
  · have hres : t.deleteItem less x typ = (t, default, false) := by
      rw [BTree.deleteItem, hr]
    have hRL : t.rootList = [] := by
      simp only [BTree.rootList, hr]
    rw [hres]
    refine ⟨⟨hdeg, hpool, hroot⟩, rfl, by simp, ?_, ?_⟩
    · intro h
      simp at h
    · intro _
      refine ⟨?_, fun h => by simp at h, fun _ => ⟨rfl, rfl⟩⟩
      constructor
      · intro h
        simp at h
      · rintro ⟨a, ha, _⟩
        rw [hRL] at ha
        simp at ha
  · have hro := hroot root0 hr
    have hRL : t.rootList = root0.toList := by
      simp only [BTree.rootList, hr]
    by_cases h0 : root0.items.length = 0
    · have hch : root0.children = [] := hro.2.2 h0
      have hTL : root0.toList = [] := by
        rw [Node.toList_eq_items hch]
        exact List.length_eq_zero.mp h0
      have hres : t.deleteItem less x typ = (t, default, false) := by
        simp only [BTree.deleteItem, hr]
        rw [if_pos h0]
      rw [hres]
      refine ⟨⟨hdeg, hpool, hroot⟩, rfl, by simp, ?_, ?_⟩
      · intro h
        simp at h
      · intro _
        refine ⟨?_, fun h => by simp at h, fun _ => ⟨rfl, rfl⟩⟩
        constructor
        · intro h
          simp at h
        · rintro ⟨a, ha, _⟩
          rw [hRL, hTL] at ha
          simp at ha
    · have hne : 1 ≤ root0.items.length := by omega
      have hminI : 1 ≤ t.degree - 1 := by omega
      have hmaxI : t.degree * 2 - 1 = 2 * (t.degree - 1) + 1 := by omega
      have hrem := (remove_spec hl (t.degree - 1) (t.degree * 2 - 1) hminI hmaxI
        (2 * root0.height + 2) true root0 typ x t.freelist hro.1 hro.2.1 hpool).2
        (Or.inl rfl) hne le_rfl
      simp only [RemoveOK] at hrem
      obtain ⟨hw1, hh1, hp1, hmat⟩ := hrem
      have hdec : ((Node.remove less (2 * root0.height + 2) x (t.degree - 1) typ
            root0 t.freelist).outb = true →
          ∃ A B, root0.toList = A ++ (Node.remove less (2 * root0.height + 2) x
              (t.degree - 1) typ root0 t.freelist).out :: B ∧
            (Node.remove less (2 * root0.height + 2) x (t.degree - 1) typ
              root0 t.freelist).node.toList = A ++ B) ∧
          ((Node.remove less (2 * root0.height + 2) x (t.degree - 1) typ
            root0 t.freelist).outb = false →
          (Node.remove less (2 * root0.height + 2) x (t.degree - 1) typ
            root0 t.freelist).node.toList = root0.toList) := by
        cases typ with
        | removeMax =>
          obtain ⟨hob, A0, hA1, hA2⟩ := hmat
          refine ⟨fun _ => ⟨A0, [], by simpa using hA1, by simpa using hA2⟩, ?_⟩
          intro h
          rw [hob] at h
          simp at h
        | removeMin =>
          obtain ⟨hob, B0, hB1, hB2⟩ := hmat
          refine ⟨fun _ => ⟨[], B0, by simpa using hB1, by simpa using hB2⟩, ?_⟩
          intro h
          rw [hob] at h
          simp at h
        | removeItem =>
          refine ⟨?_, fun h => (hmat.2.2 h).1⟩
          intro h
          obtain ⟨A0, B0, h1, _, h2⟩ := hmat.2.1 h
          exact ⟨A0, B0, h1, h2⟩
      have hsort2 : SortedL less (Node.remove less (2 * root0.height + 2) x
          (t.degree - 1) typ root0 t.freelist).node.toList := by
        cases hob : (Node.remove less (2 * root0.height + 2) x (t.degree - 1) typ
            root0 t.freelist).outb with
        | true =>
          obtain ⟨A0, B0, h1, h2⟩ := hdec.1 hob
          rw [h2]
          apply SortedL_removed A0 B0 _
          rw [← h1]
          exact hro.2.1
        | false =>
          rw [hdec.2 hob]
          exact hro.2.1
      by_cases hcol : (Node.remove less (2 * root0.height + 2) x (t.degree - 1) typ
          root0 t.freelist).node.items.length = 0 ∧
          (Node.remove less (2 * root0.height + 2) x (t.degree - 1) typ
            root0 t.freelist).node.children ≠ []
      · -- the emptied root hands over to its only child, whose shell is freed
        have hcolB : (decide ((Node.remove less (2 * root0.height + 2) x
            (t.degree - 1) typ root0 t.freelist).node.items.length = 0) &&
            !(Node.remove less (2 * root0.height + 2) x (t.degree - 1) typ
              root0 t.freelist).node.children.isEmpty) = true := by
          simp only [Bool.and_eq_true, decide_eq_true_eq, Bool.not_eq_true']
          refine ⟨hcol.1, ?_⟩
          cases h : (Node.remove less (2 * root0.height + 2) x (t.degree - 1) typ
              root0 t.freelist).node.children.isEmpty with
          | false => rfl
          | true => exact absurd (List.isEmpty_iff.mp h) hcol.2
        have hres : t.deleteItem less x typ =
            ({ t with
                root := some ((Node.remove less (2 * root0.height + 2) x
                  (t.degree - 1) typ root0 t.freelist).node.children.getD 0 default)
                length := if (Node.remove less (2 * root0.height + 2) x
                    (t.degree - 1) typ root0 t.freelist).outb
                  then t.length - 1 else t.length
                freelist := ((Node.remove less (2 * root0.height + 2) x
                  (t.degree - 1) typ root0 t.freelist).pool.freeNode (.mk [] [])).2 },
              (Node.remove less (2 * root0.height + 2) x (t.degree - 1) typ
                root0 t.freelist).out,
              (Node.remove less (2 * root0.height + 2) x (t.degree - 1) typ
                root0 t.freelist).outb) := by
          simp only [BTree.deleteItem, hr]
          rw [if_neg h0]
          simp only [BTree.minItems, hcolB, eq_self_iff_true, if_true]
        have hcnt1 : (Node.remove less (2 * root0.height + 2) x (t.degree - 1) typ
            root0 t.freelist).node.children.length = 1 := by
          have h9 := (Node.wfB_counts _ hw1).resolve_left hcol.2
          omega
        have hitems : (Node.remove less (2 * root0.height + 2) x (t.degree - 1) typ
            root0 t.freelist).node.items = [] := List.length_eq_zero.mp hcol.1
        have hchl : (Node.remove less (2 * root0.height + 2) x (t.degree - 1) typ
            root0 t.freelist).node.children =
            [(Node.remove less (2 * root0.height + 2) x (t.degree - 1) typ
              root0 t.freelist).node.children.getD 0 default] := by
          have h9 := cons_getD_drop (Node.remove less (2 * root0.height + 2) x
            (t.degree - 1) typ root0 t.freelist).node.children (by omega)
          have hd : (Node.remove less (2 * root0.height + 2) x (t.degree - 1) typ
              root0 t.freelist).node.children.drop 1 = [] :=
            List.drop_eq_nil_iff.mpr (by omega)
          rw [hd] at h9
          exact h9.symm
        have hTLc : (Node.remove less (2 * root0.height + 2) x (t.degree - 1) typ
            root0 t.freelist).node.toList =
            ((Node.remove less (2 * root0.height + 2) x (t.degree - 1) typ
              root0 t.freelist).node.children.getD 0 default).toList := by
          rw [Node.toList_glue hcol.2, hitems]
          conv_lhs => rw [hchl]
          simp
        have hc0mem : (Node.remove less (2 * root0.height + 2) x (t.degree - 1) typ
            root0 t.freelist).node.children.getD 0 default ∈
            (Node.remove less (2 * root0.height + 2) x (t.degree - 1) typ
              root0 t.freelist).node.children := getD_mem _ 0 (by omega)
        have hc0 := Node.wfB_child_of_mem hw1 hc0mem
        rw [hres]
        refine ⟨⟨by simpa using hdeg, PoolEmpty.freeNode _ hp1, ?_⟩, rfl, ?_, ?_, ?_⟩
        · intro rr hrr
          simp only [Option.some.injEq] at hrr
          subst hrr
          refine ⟨wfB_strengthen_root _ hc0.1, ?_, ?_⟩
          · rw [← hTLc]
            exact hsort2
          · intro hh
            have h9 := Node.wfB_min_le _ hc0.1
            omega
        · rfl
        · intro hob
          obtain ⟨A0, B0, h1, h2⟩ := hdec.1 (by simpa using hob)
          refine ⟨A0, B0, by rw [hRL]; exact h1, ?_⟩
          simp only [BTree.rootList]
          rw [← hTLc]
          exact h2
        · rintro rfl
          obtain ⟨hiff, hdecI, hunch⟩ := hmat
          refine ⟨?_, ?_, ?_⟩
          · rw [hRL]
            exact hiff
          · intro hob
            obtain ⟨A0, B0, _, he, _⟩ := hdecI (by simpa using hob)
            exact he
          · intro hob
            obtain ⟨hu1, hu2⟩ := hunch (by simpa using hob)
            refine ⟨?_, hu2⟩
            rw [hRL]
            simp only [BTree.rootList]
            rw [← hTLc, hu1]
      · have hcolB : (decide ((Node.remove less (2 * root0.height + 2) x
            (t.degree - 1) typ root0 t.freelist).node.items.length = 0) &&
            !(Node.remove less (2 * root0.height + 2) x (t.degree - 1) typ
              root0 t.freelist).node.children.isEmpty) = false := by
          cases h1 : (Node.remove less (2 * root0.height + 2) x (t.degree - 1) typ
              root0 t.freelist).node.children.isEmpty with
          | true => simp [h1]
          | false =>
            have h2 : ¬ (Node.remove less (2 * root0.height + 2) x (t.degree - 1) typ
                root0 t.freelist).node.items.length = 0 := by
              intro hh
              refine hcol ⟨hh, ?_⟩
              intro hh2
              rw [hh2] at h1
              simp at h1
            simp [h2]
        have hres : t.deleteItem less x typ =
            ({ t with
                root := some (Node.remove less (2 * root0.height + 2) x
                  (t.degree - 1) typ root0 t.freelist).node
                length := if (Node.remove less (2 * root0.height + 2) x
                    (t.degree - 1) typ root0 t.freelist).outb
                  then t.length - 1 else t.length
                freelist := (Node.remove less (2 * root0.height + 2) x
                  (t.degree - 1) typ root0 t.freelist).pool },
              (Node.remove less (2 * root0.height + 2) x (t.degree - 1) typ
                root0 t.freelist).out,
              (Node.remove less (2 * root0.height + 2) x (t.degree - 1) typ
                root0 t.freelist).outb) := by
          simp only [BTree.deleteItem, hr]
          rw [if_neg h0]
          simp only [BTree.minItems, hcolB, Bool.false_eq_true, if_false]
        rw [hres]
        refine ⟨⟨by simpa using hdeg, hp1, ?_⟩, rfl, ?_, ?_, ?_⟩
        · intro rr hrr
          simp only [Option.some.injEq] at hrr
          subst hrr
          refine ⟨hw1, hsort2, ?_⟩
          · intro hh
            by_contra hcc
            exact hcol ⟨hh, hcc⟩
        · rfl
        · intro hob
          obtain ⟨A0, B0, h1, h2⟩ := hdec.1 (by simpa using hob)
          refine ⟨A0, B0, by rw [hRL]; exact h1, ?_⟩
          simp only [BTree.rootList]
          exact h2
        · rintro rfl
          obtain ⟨hiff, hdecI, hunch⟩ := hmat
          refine ⟨?_, ?_, ?_⟩
          · rw [hRL]
            exact hiff
          · intro hob
            obtain ⟨A0, B0, _, he, _⟩ := hdecI (by simpa using hob)
            exact he
          · intro hob
            obtain ⟨hu1, hu2⟩ := hunch (by simpa using hob)
            refine ⟨?_, hu2⟩
            rw [hRL]
            simp only [BTree.rootList]
            rw [hu1]


/-! ## Support for the claim-level theorems -/

def natLess : Nat → Nat → Bool := fun a b => decide (a < b)

theorem natLess_lawful : LawfulLess natLess := by
  refine ⟨?_, ?_, ?_⟩
  · intro a
    simp [natLess]
  · intro a b c h1 h2
    simp only [natLess, decide_eq_true_eq] at h1 h2 ⊢
    omega
  · intro a b c h1 h2
    simp only [natLess, decide_eq_false_iff_not] at h1 h2 ⊢
    omega

/-- `node.insert` reports `nil` whenever nothing was overwritten. -/
theorem insert_out_default {less : α → α → Bool} [Inhabited α] :
    ∀ (f : Nat) (x : α) (mI : Nat) (n : Node α) (p : FreeList α),
      (Node.insert less f x mI n p).outb = false →
      (Node.insert less f x mI n p).out = default := by
  intro f
  induction f with
  | zero =>
    intro x mI n p _
    rfl
  | succ f ih =>
    intro x mI n p
    rw [Node.insert]
    rcases hfind : find less n.items x with ⟨i, found⟩
    simp only [hfind]
    rcases hms : n.maybeSplitChild i mI p with ⟨didSplit, n1, p1⟩
    simp only [hms]
    split
    · intro h
      simp at h
    · split
      · intro _
        rfl
      · split
        · intro h
          simp at h
        · split
          · intro h
            exact ih x mI _ _ h
          · intro _
            rfl

/-- `BTree.ReplaceOrInsert` returns the zero value with `hadPrev = false`. -/
theorem ReplaceOrInsert_out_default {less : α → α → Bool} [Inhabited α]
    (t : BTree α) (x : α)
    (h : (t.ReplaceOrInsert less x).2.2 = false) :
    (t.ReplaceOrInsert less x).2.1 = default := by
  rw [BTree.ReplaceOrInsert] at h ⊢
  rcases hr : t.root with _ | root0
  · simp only [hr]
  · simp only [hr] at h ⊢
    exact insert_out_default _ _ _ _ _ h

/-- A fresh tree satisfies the tree invariant. -/
theorem Good_New {less : α → α → Bool} [Inhabited α] {degree : Nat} (h2 : 2 ≤ degree) :
    Good less (New degree : BTree α) := by
  refine ⟨h2, ?_, ?_⟩
  · intro sh hsh
    simp [New, NewFreeList] at hsh
  · intro r hr
    simp [New] at hr

/-- Every reachable tree satisfies the tree invariant. -/
theorem Reachable_Good {less : α → α → Bool} [Inhabited α] (hl : LawfulLess less)
    {degree : Nat} (h2 : 2 ≤ degree) {t : BTree α}
    (hR : Reachable less degree t) : Good less t := by
  induction hR with
  | fresh => exact Good_New h2
  | ins t x _ ih => exact (ReplaceOrInsert_spec hl t x ih).1
  | del t x _ ih => exact (deleteItem_spec hl t x .removeItem ih).1
  | delMin t _ ih => exact (deleteItem_spec hl t default .removeMin ih).1
  | delMax t _ ih => exact (deleteItem_spec hl t default .removeMax ih).1

/-- `Ascend` over a well-formed tree collects exactly the tree contents. -/
theorem ascendList_eq_rootList {less : α → α → Bool} [Inhabited α] (t : BTree α)
    (hg : Good less t) : t.ascendList less = t.rootList := by
  obtain ⟨_hdeg, _hpool, hroot⟩ := hg
  rcases hr : t.root with _ | r
  · simp [BTree.ascendList, BTree.Ascend, BTree.rootList, hr]
  · have hro := hroot r hr
    have hcnt : r.countsOK = true := Node.wfB_countsOK r.height r le_rfl hro.1
    obtain ⟨h2b, hit⟩ := iterate_asc_none less false r.height r le_rfl hcnt false []
    simp only [BTree.ascendList, BTree.Ascend, BTree.rootList, hr]
    rw [hit]
    simp

/-- `Descend` over a well-formed tree collects the reversed tree contents. -/
theorem descendList_eq_rootList_reverse {less : α → α → Bool} [Inhabited α]
    (t : BTree α) (hg : Good less t) :
    t.descendList less = t.rootList.reverse := by
  obtain ⟨_hdeg, _hpool, hroot⟩ := hg
  rcases hr : t.root with _ | r
  · simp [BTree.descendList, BTree.Descend, BTree.rootList, hr]
  · have hro := hroot r hr
    have hcnt : r.countsOK = true := Node.wfB_countsOK r.height r le_rfl hro.1
    obtain ⟨h2b, hit⟩ := iterate_desc_none less false r.height r le_rfl hcnt false []
    simp only [BTree.descendList, BTree.Descend, BTree.rootList, hr]
    rw [hit]
    simp

/-- The claim-level structural invariant: the child/item count law everywhere
and the occupancy window `degree-1 ≤ count ≤ 2·degree-1` on every node, the
root exempt from the lower bound. -/
def Node.claimInv (d : Nat) (isRoot : Bool) : Node α → Bool
  | .mk is cs =>
    (cs.isEmpty || (cs.length == is.length + 1)) &&
    decide (is.length ≤ 2 * d - 1) &&
    (isRoot || decide (d - 1 ≤ is.length)) &&
    cs.attach.all (fun c => Node.claimInv d false c.1)
decreasing_by
  have := List.sizeOf_lt_of_mem c.2
  cases c; simp at *; omega

theorem Node.claimInv_iff (d : Nat) (isRoot : Bool) (is : List α)
    (cs : List (Node α)) :
    Node.claimInv d isRoot (.mk is cs) = true ↔
      (cs = [] ∨ cs.length = is.length + 1) ∧
      is.length ≤ 2 * d - 1 ∧
      (isRoot = true ∨ d - 1 ≤ is.length) ∧
      (∀ c ∈ cs, Node.claimInv d false c = true) := by
  rw [Node.claimInv]
  simp [List.all_eq_true, List.isEmpty_iff, and_assoc]

/-- The structural invariant `wfB` implies the claim-level invariant. -/
theorem wfB_claimInv (d : Nat) : ∀ (H : Nat) (ro : Bool) (n : Node α),
    n.height ≤ H → Node.wfB (d - 1) (d * 2 - 1) ro n = true →
    Node.claimInv d ro n = true := by
  intro H
  induction H with
  | zero =>
    intro ro n hh hw
    cases n with
    | mk is cs =>
      have hcs : cs = [] := by
        cases cs with
        | nil => rfl
        | cons c cs2 =>
          have := Node.height_pos_of_child (.mk is (c :: cs2)) (by simp)
          omega
      subst hcs
      rw [Node.wfB_iff] at hw
      rw [Node.claimInv_iff]
      obtain ⟨_h1, h2, h3, _h4⟩ := hw
      exact ⟨Or.inl rfl, by omega, h3, by simp⟩
  | succ H ih =>
    intro ro n hh hw
    cases n with
    | mk is cs =>
      rw [Node.wfB_iff] at hw
      rw [Node.claimInv_iff]
      obtain ⟨h1, h2, h3, h4⟩ := hw
      refine ⟨h1, by omega, h3, ?_⟩
      intro c hc
      have h5 := h4 c hc
      have h6 := h5.2
      exact ih false c (by omega) h5.1

theorem deepCopy_mk (dc : α → α) (is : List α) (cs : List (Node α)) :
    Node.deepCopy dc (.mk is cs) =
      .mk (is.map dc) (cs.map (Node.deepCopy dc)) := by
  rw [Node.deepCopy]
  congr 1
  simp [List.map_attach]

theorem interleave_map {β : Type} (g : α → β) :
    ∀ (ls : List (List α)) (xs : List α),
      interleave (ls.map (List.map g)) (xs.map g) = (interleave ls xs).map g := by
  intro ls
  induction ls with
  | nil =>
    intro xs
    simp [interleave]
  | cons l ls ih =>
    intro xs
    cases xs with
    | nil => simp [interleave]
    | cons x xs =>
      rw [List.map_cons, List.map_cons, interleave_cons, interleave_cons, ih]
      simp

/-- A deep copy maps the contents pointwise and keeps the shape. -/
theorem deepCopy_node_facts (dc : α → α) : ∀ (H : Nat) (n : Node α), n.height ≤ H →
    (Node.deepCopy dc n).toList = n.toList.map dc ∧
    (Node.deepCopy dc n).height = n.height := by
  intro H
  induction H with
  | zero =>
    intro n hh
    cases n with
    | mk is cs =>
      have hcs : cs = [] := by
        cases cs with
        | nil => rfl
        | cons c cs2 =>
          have := Node.height_pos_of_child (.mk is (c :: cs2)) (by simp)
          omega
      subst hcs
      rw [deepCopy_mk]
      exact ⟨by simp, by simp⟩
  | succ H ih =>
    intro n hh
    cases n with
    | mk is cs =>
      rw [deepCopy_mk]
      by_cases hcs : cs = []
      · subst hcs
        exact ⟨by simp, by simp⟩
      · have hcs2 : cs.map (Node.deepCopy dc) ≠ [] := by
          intro hh2
          exact hcs (List.map_eq_nil_iff.mp hh2)
        have hchild : ∀ c ∈ cs, (Node.deepCopy dc c).toList = c.toList.map dc ∧
            (Node.deepCopy dc c).height = c.height := by
          intro c hc
          have hlt := Node.height_child_lt (.mk is cs) c (by simpa using hc)
          exact ih c (by omega)
        constructor
        · rw [Node.toList_inner _ _ hcs2]
          have hL : (cs.map (Node.deepCopy dc)).map Node.toList =
              (cs.map Node.toList).map (List.map dc) := by
            rw [List.map_map, List.map_map]
            apply List.map_congr_left
            intro c hc
            simp only [Function.comp_apply]
            exact (hchild c hc).1
          rw [hL, interleave_map, ← Node.toList_inner _ _ hcs]
        · rw [Node.height_mk, Node.height_mk]
          have hHs : (cs.map (Node.deepCopy dc)).map Node.height =
              cs.map Node.height := by
            rw [List.map_map]
            apply List.map_congr_left
            intro c hc
            simp only [Function.comp_apply]
            exact (hchild c hc).2
          rw [hHs]
          have hE1 : (List.map (Node.deepCopy dc) cs).isEmpty = false := by
            cases h : (List.map (Node.deepCopy dc) cs).isEmpty with
            | false => rfl
            | true => exact absurd (List.isEmpty_iff.mp h) hcs2
          have hE2 : cs.isEmpty = false := by
            cases h : cs.isEmpty with
            | false => rfl
            | true => exact absurd (List.isEmpty_iff.mp h) hcs
          rw [hE1, hE2]

/-- A deep copy preserves the structural invariant. -/
theorem deepCopy_wfB (dc : α → α) {minI maxI : Nat} : ∀ (H : Nat) (ro : Bool)
    (n : Node α), n.height ≤ H → Node.wfB minI maxI ro n = true →
    Node.wfB minI maxI ro (Node.deepCopy dc n) = true := by
  intro H
  induction H with
  | zero =>
    intro ro n hh hw
    cases n with
    | mk is cs =>
      have hcs : cs = [] := by
        cases cs with
        | nil => rfl
        | cons c cs2 =>
          have := Node.height_pos_of_child (.mk is (c :: cs2)) (by simp)
          omega
      subst hcs
      rw [deepCopy_mk, Node.wfB_iff]
      rw [Node.wfB_iff] at hw
      exact ⟨Or.inl (by simp), by simpa using hw.2.1, by simpa using hw.2.2.1, by simp⟩
  | succ H ih =>
    intro ro n hh hw
    cases n with
    | mk is cs =>
      rw [deepCopy_mk, Node.wfB_iff]
      rw [Node.wfB_iff] at hw
      obtain ⟨h1, h2, h3, h4⟩ := hw
      refine ⟨?_, by simpa using h2, by simpa using h3, ?_⟩
      · rcases h1 with h | h
        · subst h
          exact Or.inl (by simp)
        · refine Or.inr ?_
          simp only [List.length_map]
          omega
      · intro c2 hc2
        obtain ⟨c, hc, rfl⟩ := List.mem_map.mp hc2
        have h5 := h4 c hc
        have hlt := Node.height_child_lt (.mk is cs) c (by simpa using hc)
        refine ⟨ih false c (by omega) h5.1, ?_⟩
        rw [(deepCopy_node_facts dc H c (by omega)).2]
        have hHeq : Node.height (.mk (is.map dc) (cs.map (Node.deepCopy dc))) =
            Node.height (.mk is cs) := by
          have h7 := (deepCopy_node_facts dc (H + 1) (.mk is cs) hh).2
          rw [deepCopy_mk] at h7
          exact h7
        rw [hHeq]
        exact h5.2

/-- The index reported by an unsuccessful `find` is an insertion point that
keeps the list sorted. -/
theorem sorted_insert_pos {less : α → α → Bool} [Inhabited α]
    {s : List α} (hs : SortedL less s) (x : α) (i : Nat)
    (hlo : ∀ j, j < i → less (s.getD j default) x = true)
    (hhi : ∀ j, i ≤ j → j < s.length → less x (s.getD j default) = true) :
    SortedL less (s.take i ++ x :: s.drop i) := by
  rw [SortedL, List.pairwise_append]
  refine ⟨List.Pairwise.sublist (List.take_sublist _ _) hs, ?_, ?_⟩
  · rw [List.pairwise_cons]
    refine ⟨?_, List.Pairwise.sublist (List.drop_sublist _ _) hs⟩
    intro b hb
    obtain ⟨k, hk2, hk1, hik⟩ := mem_drop_getElem hb
    have h6 := hhi k hk1 hk2
    rw [List.getD_eq_getElem s default hk2, hik] at h6
    exact h6
  · intro a ha b hb
    obtain ⟨k, hk2, hk1, hak⟩ := mem_take_getElem ha
    rcases List.mem_cons.mp hb with rfl | hb2
    · have h6 := hlo k hk1
      rw [List.getD_eq_getElem s default hk2, hak] at h6
      exact h6
    · obtain ⟨k2, hk22, hk21, hbk⟩ := mem_drop_getElem hb2
      rw [← hak, ← hbk]
      exact hs.rel (by omega) hk22


theorem ReplaceOrInsert_degree {less : α → α → Bool} [Inhabited α] (t : BTree α)
    (x : α) : (t.ReplaceOrInsert less x).1.degree = t.degree := by
  rcases hr : t.root with _ | r0 <;> simp [BTree.ReplaceOrInsert, hr]

theorem deleteItem_degree {less : α → α → Bool} [Inhabited α] (t : BTree α)
    (x : α) (typ : ToRemove) : (t.deleteItem less x typ).1.degree = t.degree := by
  rcases hr : t.root with _ | r0
  · simp [BTree.deleteItem, hr]
  · simp only [BTree.deleteItem, hr]
    split
    · rfl
    · rfl

/-- The degree field never changes across the public mutations. -/
theorem Reachable_degree {less : α → α → Bool} [Inhabited α] {degree : Nat}
    {t : BTree α} (hR : Reachable less degree t) : t.degree = degree := by
  induction hR with
  | fresh => rfl
  | ins t x _ ih => exact (ReplaceOrInsert_degree t x).trans ih
  | del t x _ ih => exact (deleteItem_degree t x .removeItem).trans ih
  | delMin t _ ih => exact (deleteItem_degree t default .removeMin).trans ih
  | delMax t _ ih => exact (deleteItem_degree t default .removeMax).trans ih

/-! ## The claims -/

/-- C1: for every tree reachable from a fresh tree by any sequence of
`ReplaceOrInsert` and `Delete`/`DeleteMin`/`DeleteMax`, a full ascending scan
visits a strictly increasing sequence under the caller-supplied order, and a
full descending scan visits exactly the reverse of that sequence. -/
theorem C1_scans_sorted_and_reversed {less : α → α → Bool} [Inhabited α]
    (hl : LawfulLess less) {degree : Nat} (h2 : 2 ≤ degree) (t : BTree α)
    (hR : Reachable less degree t) :
    SortedL less (t.ascendList less) ∧
    t.descendList less = (t.ascendList less).reverse := by
  have hg := Reachable_Good hl h2 hR
  have ha := ascendList_eq_rootList t hg
  have hd := descendList_eq_rootList_reverse t hg
  refine ⟨?_, by rw [ha, hd]⟩
  rw [ha]
  obtain ⟨_, _, hroot⟩ := hg
  rcases hr : t.root with _ | r
  · simp only [BTree.rootList, hr]
    exact List.Pairwise.nil
  · simp only [BTree.rootList, hr]
    exact (hroot r hr).2.1

theorem C1_witness :
    LawfulLess natLess ∧ 2 ≤ 2 ∧
    Reachable natLess 2 (((New 2 : BTree Nat).ReplaceOrInsert natLess 10).1) ∧
    (SortedL natLess
      ((((New 2 : BTree Nat).ReplaceOrInsert natLess 10).1).ascendList natLess) ∧
    (((New 2 : BTree Nat).ReplaceOrInsert natLess 10).1).descendList natLess =
      ((((New 2 : BTree Nat).ReplaceOrInsert natLess 10).1).ascendList
        natLess).reverse) :=
  ⟨natLess_lawful, by decide, Reachable.ins (New 2) 10 Reachable.fresh,
    C1_scans_sorted_and_reversed natLess_lawful (by decide) _
      (Reachable.ins (New 2) 10 Reachable.fresh)⟩

/-- C2: after every sequence of mutations from a fresh tree of degree `d`,
every node of the tree satisfies `children.count = 0` or
`children.count = items.count + 1`, holds at most `2·d - 1` items, and every
non-root node holds at least `d - 1` items (the root is exempt from the
lower bound) — the recursive checker `Node.claimInv` states exactly this. -/
theorem C2_structural_invariant {less : α → α → Bool} [Inhabited α]
    (hl : LawfulLess less) {degree : Nat} (h2 : 2 ≤ degree) (t : BTree α)
    (hR : Reachable less degree t) :
    ∀ r, t.root = some r → Node.claimInv degree true r = true := by
  have hg := Reachable_Good hl h2 hR
  have hd := Reachable_degree hR
  intro r hr
  have hro := hg.2.2 r hr
  have h9 := wfB_claimInv t.degree r.height true r le_rfl hro.1
  rw [hd] at h9
  exact h9

theorem C2_witness :
    LawfulLess natLess ∧ 2 ≤ 2 ∧
    Reachable natLess 2 (((New 2 : BTree Nat).ReplaceOrInsert natLess 7).1) ∧
    ∀ r, (((New 2 : BTree Nat).ReplaceOrInsert natLess 7).1).root = some r →
      Node.claimInv 2 true r = true :=
  ⟨natLess_lawful, by decide, Reachable.ins (New 2) 7 Reachable.fresh,
    C2_structural_invariant natLess_lawful (by decide) _
      (Reachable.ins (New 2) 7 Reachable.fresh)⟩

/-- C3: `ReplaceOrInsert(item)` returns `(prev, true)` when an order-equal
element already exists, overwrites that element in place with the new item
and leaves the length unchanged; otherwise it inserts the item at its sorted
position, increments the count, and returns `(zero, false)`. -/
theorem C3_replaceOrInsert {less : α → α → Bool} [Inhabited α]
    (hl : LawfulLess less) {degree : Nat} (h2 : 2 ≤ degree) (t : BTree α)
    (hR : Reachable less degree t) (x : α) :
    ((∃ a ∈ t.rootList, eqv less x a) →
      (t.ReplaceOrInsert less x).2.2 = true ∧
      (∃ A B, t.rootList = A ++ (t.ReplaceOrInsert less x).2.1 :: B ∧
        eqv less x (t.ReplaceOrInsert less x).2.1 ∧
        (t.ReplaceOrInsert less x).1.rootList = A ++ x :: B) ∧
      (t.ReplaceOrInsert less x).1.length = t.length) ∧
    ((∀ a ∈ t.rootList, ¬ eqv less x a) →
      (t.ReplaceOrInsert less x).2.2 = false ∧
      (t.ReplaceOrInsert less x).2.1 = default ∧
      (t.ReplaceOrInsert less x).1.rootList = listRI less x t.rootList ∧
      (t.ReplaceOrInsert less x).1.length = t.length + 1) := by
  have hg := Reachable_Good hl h2 hR
  obtain ⟨_g1, g2, g3, g4, g5, _g6⟩ := ReplaceOrInsert_spec hl t x hg
  constructor
  · intro hex
    have hb : (t.ReplaceOrInsert less x).2.2 = true := g3.mpr hex
    refine ⟨hb, g4 hb, ?_⟩
    rw [g5, if_pos hb]
  · intro habs
    have hb : (t.ReplaceOrInsert less x).2.2 = false := by
      cases hob : (t.ReplaceOrInsert less x).2.2 with
      | false => rfl
      | true =>
        obtain ⟨a, ha, hae⟩ := g3.mp hob
        exact absurd hae (habs a ha)
    refine ⟨hb, ReplaceOrInsert_out_default t x hb, g2, ?_⟩
    rw [g5, if_neg (by rw [hb]; simp)]

theorem C3_witness :
    LawfulLess natLess ∧ 2 ≤ 2 ∧ Reachable natLess 2 (New 2 : BTree Nat) ∧
    (((∃ a ∈ (New 2 : BTree Nat).rootList, eqv natLess 5 a) →
      ((New 2 : BTree Nat).ReplaceOrInsert natLess 5).2.2 = true ∧
      (∃ A B, (New 2 : BTree Nat).rootList =
          A ++ ((New 2 : BTree Nat).ReplaceOrInsert natLess 5).2.1 :: B ∧
        eqv natLess 5 ((New 2 : BTree Nat).ReplaceOrInsert natLess 5).2.1 ∧
        ((New 2 : BTree Nat).ReplaceOrInsert natLess 5).1.rootList = A ++ 5 :: B) ∧
      ((New 2 : BTree Nat).ReplaceOrInsert natLess 5).1.length =
        (New 2 : BTree Nat).length) ∧
    ((∀ a ∈ (New 2 : BTree Nat).rootList, ¬ eqv natLess 5 a) →
      ((New 2 : BTree Nat).ReplaceOrInsert natLess 5).2.2 = false ∧
      ((New 2 : BTree Nat).ReplaceOrInsert natLess 5).2.1 = default ∧
      ((New 2 : BTree Nat).ReplaceOrInsert natLess 5).1.rootList =
        listRI natLess 5 (New 2 : BTree Nat).rootList ∧
      ((New 2 : BTree Nat).ReplaceOrInsert natLess 5).1.length =
        (New 2 : BTree Nat).length + 1)) :=
  ⟨natLess_lawful, by decide, Reachable.fresh,
    C3_replaceOrInsert natLess_lawful (by decide) (New 2) Reachable.fresh 5⟩

/-- C4: for every operation sequence run from a fresh tree, `length()` ends
equal to the number of `ReplaceOrInsert` calls that reported
`hadPrev = false` minus the number of delete calls that reported
`found = true`. -/
theorem C4_length_tally {less : α → α → Bool} [Inhabited α]
    (hl : LawfulLess less) {degree : Nat} (h2 : 2 ≤ degree) (ops : List (Op α)) :
    (runOps less (New degree : BTree α) ops).1.length =
      (runOps less (New degree : BTree α) ops).2.1 -
        (runOps less (New degree : BTree α) ops).2.2 := by
  have key : ∀ (ops : List (Op α)) (t : BTree α), Good less t →
      (runOps less t ops).1.length =
        t.length + (runOps less t ops).2.1 - (runOps less t ops).2.2 := by
    intro ops
    induction ops with
    | nil =>
      intro t hg
      simp [runOps]
    | cons op ops ih =>
      intro t hg
      cases op with
      | insOp x =>
        obtain ⟨g1, _g2, _g3, _g4, g5, _g6⟩ := ReplaceOrInsert_spec hl t x hg
        rcases happ : t.ReplaceOrInsert less x with ⟨t1, out, b⟩
        rw [happ] at g1 g5
        simp only at g1 g5
        rcases hrun : runOps less t1 ops with ⟨t2, ins, dels⟩
        have h9 := ih t1 g1
        rw [hrun] at h9
        simp only at h9
        simp only [runOps, applyOp, happ, hrun]
        cases b with
        | true =>
          simp only [eq_self_iff_true, if_true] at g5 ⊢
          omega
        | false =>
          simp only [Bool.false_eq_true, if_false] at g5 ⊢
          omega
      | delOp x =>
        obtain ⟨g1, _g2, g3, _g4, _g5⟩ := deleteItem_spec hl t x .removeItem hg
        rcases happ : t.Delete less x with ⟨t1, out, b⟩
        have happ2 : t.deleteItem less x .removeItem = (t1, out, b) := happ
        rw [happ2] at g1 g3
        simp only at g1 g3
        rcases hrun : runOps less t1 ops with ⟨t2, ins, dels⟩
        have h9 := ih t1 g1
        rw [hrun] at h9
        simp only at h9
        simp only [runOps, applyOp, happ, hrun]
        cases b with
        | true =>
          simp only [eq_self_iff_true, if_true] at g3 ⊢
          omega
        | false =>
          simp only [Bool.false_eq_true, if_false] at g3 ⊢
          omega
      | delMinOp =>
        obtain ⟨g1, _g2, g3, _g4, _g5⟩ := deleteItem_spec hl t default .removeMin hg
        rcases happ : t.DeleteMin less with ⟨t1, out, b⟩
        have happ2 : t.deleteItem less default .removeMin = (t1, out, b) := happ
        rw [happ2] at g1 g3
        simp only at g1 g3
        rcases hrun : runOps less t1 ops with ⟨t2, ins, dels⟩
        have h9 := ih t1 g1
        rw [hrun] at h9
        simp only at h9
        simp only [runOps, applyOp, happ, hrun]
        cases b with
        | true =>
          simp only [eq_self_iff_true, if_true] at g3 ⊢
          omega
        | false =>
          simp only [Bool.false_eq_true, if_false] at g3 ⊢
          omega
      | delMaxOp =>
        obtain ⟨g1, _g2, g3, _g4, _g5⟩ := deleteItem_spec hl t default .removeMax hg
        rcases happ : t.DeleteMax less with ⟨t1, out, b⟩
        have happ2 : t.deleteItem less default .removeMax = (t1, out, b) := happ
        rw [happ2] at g1 g3
        simp only at g1 g3
        rcases hrun : runOps less t1 ops with ⟨t2, ins, dels⟩
        have h9 := ih t1 g1
        rw [hrun] at h9
        simp only at h9
        simp only [runOps, applyOp, happ, hrun]
        cases b with
        | true =>
          simp only [eq_self_iff_true, if_true] at g3 ⊢
          omega
        | false =>
          simp only [Bool.false_eq_true, if_false] at g3 ⊢
          omega
  have h9 := key ops (New degree) (Good_New h2)
  have hlen0 : (New degree : BTree α).length = 0 := rfl
  rw [hlen0] at h9
  rw [h9]
  omega

theorem C4_witness :
    LawfulLess natLess ∧ 2 ≤ 2 ∧
    (runOps natLess (New 2 : BTree Nat)
        [Op.insOp 5, Op.insOp 5, Op.delOp 9, Op.delMinOp]).1.length =
      (runOps natLess (New 2 : BTree Nat)
        [Op.insOp 5, Op.insOp 5, Op.delOp 9, Op.delMinOp]).2.1 -
      (runOps natLess (New 2 : BTree Nat)
        [Op.insOp 5, Op.insOp 5, Op.delOp 9, Op.delMinOp]).2.2 :=
  ⟨natLess_lawful, by decide,
    C4_length_tally natLess_lawful (by decide)
      [Op.insOp 5, Op.insOp 5, Op.delOp 9, Op.delMinOp]⟩


def insT (t : BTree Nat) (x : Nat) : BTree Nat := (t.ReplaceOrInsert natLess x).1

/-- The degree-2 tree of the spec's worked example: the keys
10, 20, 5, 6, 12, 30, 7, 17 inserted in that order into a fresh tree. -/
def t8 : BTree Nat :=
  insT (insT (insT (insT (insT (insT (insT (insT (New 2) 10) 20) 5) 6) 12) 30) 7) 17

set_option maxRecDepth 8000 in
set_option maxHeartbeats 2000000 in
/-- C5: on the degree-2 tree built by inserting 10, 20, 5, 6, 12, 30, 7, 17
in that order, a full ascending scan visits 5, 6, 7, 10, 12, 17, 20, 30;
`AscendRange(6, 17)` visits 6, 7, 10, 12 (lower bound inclusive, upper
exclusive); and `DescendRange(17, 6)` visits 17, 12, 10, 7 (upper bound
inclusive, lower exclusive). -/
theorem C5_degree2_example :
    t8.ascendList natLess = [5, 6, 7, 10, 12, 17, 20, 30] ∧
    t8.ascendRangeList natLess 6 17 = [6, 7, 10, 12] ∧
    t8.descendRangeList natLess 17 6 = [17, 12, 10, 7] := by
  refine ⟨?_, ?_, ?_⟩ <;>
    simp [t8, insT, New, BTree.ReplaceOrInsert, BTree.ascendList, BTree.Ascend,
      BTree.ascendRangeList, BTree.AscendRange, BTree.descendRangeList,
      BTree.DescendRange, Node.insert, Node.split, Node.maybeSplitChild, find,
      searchIdx, sortSearch, searchLoop, FreeList.newNode, NewFreeList,
      BTree.maxItems, insertAt, removeAt, Node.iterate, loopAsc, loopDesc,
      collect, Node.height_mk, natLess, DefaultFreeListSize]

/-- C6: deleting an item that is not in the tree returns `(zero, false)` and
leaves the tree unchanged — the length and the full ascending scan are the
same after the call as before; an absent key is an ordinary not-found
result, not an error (the model is a total function). -/
theorem C6_delete_absent {less : α → α → Bool} [Inhabited α]
    (hl : LawfulLess less) {degree : Nat} (h2 : 2 ≤ degree) (t : BTree α)
    (hR : Reachable less degree t) (x : α)
    (habs : ∀ a ∈ t.ascendList less, ¬ eqv less x a) :
    (t.Delete less x).2.2 = false ∧
    (t.Delete less x).2.1 = default ∧
    (t.Delete less x).1.length = t.length ∧
    (t.Delete less x).1.ascendList less = t.ascendList less := by
  have hg := Reachable_Good hl h2 hR
  have hRL := ascendList_eq_rootList t hg
  rw [hRL] at habs
  simp only [BTree.Delete]
  obtain ⟨d1, _d2, d3, _d4, d5⟩ := deleteItem_spec hl t x .removeItem hg
  obtain ⟨e1, _e2, e3⟩ := d5 rfl
  have hb : (t.deleteItem less x .removeItem).2.2 = false := by
    cases hob : (t.deleteItem less x .removeItem).2.2 with
    | false => rfl
    | true =>
      obtain ⟨a, ha, hae⟩ := e1.mp hob
      exact absurd hae (habs a ha)
  obtain ⟨u1, u2⟩ := e3 hb
  refine ⟨hb, u2, ?_, ?_⟩
  · rw [d3, if_neg (by rw [hb]; simp)]
  · rw [ascendList_eq_rootList _ d1, u1, hRL]

theorem C6_witness :
    LawfulLess natLess ∧ 2 ≤ 2 ∧
    Reachable natLess 2 (((New 2 : BTree Nat).ReplaceOrInsert natLess 5).1) ∧
    (∀ a ∈ (((New 2 : BTree Nat).ReplaceOrInsert natLess 5).1).ascendList natLess,
      ¬ eqv natLess 7 a) ∧
    ((((New 2 : BTree Nat).ReplaceOrInsert natLess 5).1).Delete natLess 7).2.2 =
        false ∧
    ((((New 2 : BTree Nat).ReplaceOrInsert natLess 5).1).Delete natLess 7).2.1 =
        default ∧
    ((((New 2 : BTree Nat).ReplaceOrInsert natLess 5).1).Delete natLess 7).1.length =
        (((New 2 : BTree Nat).ReplaceOrInsert natLess 5).1).length ∧
    ((((New 2 : BTree Nat).ReplaceOrInsert natLess 5).1).Delete
        natLess 7).1.ascendList natLess =
      (((New 2 : BTree Nat).ReplaceOrInsert natLess 5).1).ascendList natLess := by
  have habs : ∀ a ∈ (((New 2 : BTree Nat).ReplaceOrInsert natLess 5).1).ascendList
      natLess, ¬ eqv natLess 7 a := by
    simp [New, BTree.ReplaceOrInsert, BTree.ascendList, BTree.Ascend, Node.insert,
      find, searchIdx, sortSearch, searchLoop, FreeList.newNode, NewFreeList,
      BTree.maxItems, insertAt, Node.iterate, loopAsc, collect, Node.height_mk,
      natLess, DefaultFreeListSize, eqv]
  exact ⟨natLess_lawful, by decide, Reachable.ins (New 2) 5 Reachable.fresh, habs,
    C6_delete_absent natLess_lawful (by decide) _
      (Reachable.ins (New 2) 5 Reachable.fresh) 7 habs⟩

/-- C7: on an ascending duplicate-free sequence, `find` returns
`(index, found)` where `found` is true exactly when an order-equal element
exists — and then one sits at `index` — and otherwise `index` is the
position at which inserting the target keeps the sequence ascending. -/
theorem C7_find {less : α → α → Bool} [Inhabited α] (hl : LawfulLess less)
    {s : List α} (hs : SortedL less s) (x : α) :
    ((find less s x).2 = true ↔ ∃ a ∈ s, eqv less x a) ∧
    ((find less s x).2 = true →
      (find less s x).1 < s.length ∧
      eqv less x (s.getD (find less s x).1 default)) ∧
    ((find less s x).2 = false →
      (∀ j, j < (find less s x).1 → less (s.getD j default) x = true) ∧
      (∀ j, (find less s x).1 ≤ j → j < s.length →
        less x (s.getD j default) = true) ∧
      SortedL less (s.take (find less s x).1 ++ x :: s.drop (find less s x).1)) := by
  refine ⟨find_found_iff hl hs x, ?_, ?_⟩
  · intro hf
    obtain ⟨h1, h2, _⟩ := find_found hl hs x hf
    exact ⟨h1, h2⟩
  · intro hnf
    obtain ⟨_, _, h3, h4⟩ := find_not_found hl hs x hnf
    exact ⟨h3, h4, sorted_insert_pos hs x _ h3 h4⟩

theorem C7_witness :
    LawfulLess natLess ∧ SortedL natLess [1, 3, 5] ∧
    (((find natLess [1, 3, 5] 4).2 = true ↔ ∃ a ∈ [1, 3, 5], eqv natLess 4 a) ∧
    ((find natLess [1, 3, 5] 4).2 = true →
      (find natLess [1, 3, 5] 4).1 < [1, 3, 5].length ∧
      eqv natLess 4 ([1, 3, 5].getD (find natLess [1, 3, 5] 4).1 default)) ∧
    ((find natLess [1, 3, 5] 4).2 = false →
      (∀ j, j < (find natLess [1, 3, 5] 4).1 →
        natLess ([1, 3, 5].getD j default) 4 = true) ∧
      (∀ j, (find natLess [1, 3, 5] 4).1 ≤ j → j < [1, 3, 5].length →
        natLess 4 ([1, 3, 5].getD j default) = true) ∧
      SortedL natLess ([1, 3, 5].take (find natLess [1, 3, 5] 4).1 ++
        4 :: [1, 3, 5].drop (find natLess [1, 3, 5] 4).1))) := by
  have hs : SortedL natLess [1, 3, 5] := by
    show List.Pairwise (fun a b => natLess a b = true) [1, 3, 5]
    decide
  exact ⟨natLess_lawful, hs, C7_find natLess_lawful hs 4⟩

/-- C8: when deletion must descend into a child holding only `minItems`
items, the grow step (steal from a sibling or merge) leaves the node with
the same contents and a retry index pointing into a child that now holds
more than `minItems` items — so the retried removal see no undersized child
and triggers no second grow at this node, and the remove/growChildAndRemove
recursion terminates. -/
theorem C8_grow_retry {less : α → α → Bool} [Inhabited α] (hl : LawfulLess less)
    (minI maxI : Nat) (hminI : 1 ≤ minI) (hmaxI : maxI = 2 * minI + 1)
    {ro : Bool} (is : List α) (cs : List (Node α)) (i : Nat) (typ : ToRemove)
    (x : α) (found : Bool) (p : FreeList α)
    (hw : Node.wfB minI maxI ro (.mk is cs) = true)
    (hsrt : SortedL less (Node.toList (.mk is cs)))
    (hcse : cs ≠ []) (his : 1 ≤ is.length) (hi : i ≤ is.length)
    (hlow : (cs.getD i default).items.length ≤ minI)
    (hidx : RIdx less typ x (.mk is cs) = (i, found))
    (hp : PoolEmpty p)
    (hslack : ro = true ∨ minI < is.length) :
    (RIdx less typ x (Node.growChild (.mk is cs) i minI p).1).1 <
      (Node.growChild (.mk is cs) i minI p).1.children.length ∧
    minI < ((Node.growChild (.mk is cs) i minI p).1.children.getD
      (RIdx less typ x (Node.growChild (.mk is cs) i minI p).1).1
        default).items.length ∧
    (Node.growChild (.mk is cs) i minI p).1.toList = Node.toList (.mk is cs) := by
  obtain ⟨g1, _g2, _g3, _g4, _g5, g6, g7⟩ := growChild_spec hl minI maxI hminI
    hmaxI is cs i typ x found p hw hsrt hcse his hi hlow hidx hp hslack
  exact ⟨g6, g7, g1⟩

theorem C8_witness :
    LawfulLess natLess ∧ 1 ≤ 1 ∧ (3 = 2 * 1 + 1) ∧
    Node.wfB 1 3 true (Node.mk [(2 : Nat)] [.mk [1] [], .mk [3] []]) = true ∧
    SortedL natLess (Node.toList (Node.mk [(2 : Nat)] [.mk [1] [], .mk [3] []])) ∧
    ([Node.mk [(1 : Nat)] [], .mk [3] []] : List (Node Nat)) ≠ [] ∧
    1 ≤ [(2 : Nat)].length ∧ 0 ≤ [(2 : Nat)].length ∧
    (([Node.mk [(1 : Nat)] [], .mk [3] []] : List (Node Nat)).getD 0
      default).items.length ≤ 1 ∧
    RIdx natLess .removeItem 1 (Node.mk [(2 : Nat)] [.mk [1] [], .mk [3] []]) =
      (0, false) ∧
    PoolEmpty (FreeList.mk 32 ([] : List (Node Nat))) ∧
    (true = true ∨ 1 < [(2 : Nat)].length) ∧
    ((RIdx natLess .removeItem 1
        (Node.growChild (Node.mk [(2 : Nat)] [.mk [1] [], .mk [3] []]) 0 1
          (FreeList.mk 32 [])).1).1 <
      (Node.growChild (Node.mk [(2 : Nat)] [.mk [1] [], .mk [3] []]) 0 1
        (FreeList.mk 32 [])).1.children.length ∧
    1 < ((Node.growChild (Node.mk [(2 : Nat)] [.mk [1] [], .mk [3] []]) 0 1
        (FreeList.mk 32 [])).1.children.getD
      (RIdx natLess .removeItem 1
        (Node.growChild (Node.mk [(2 : Nat)] [.mk [1] [], .mk [3] []]) 0 1
          (FreeList.mk 32 [])).1).1 default).items.length ∧
    (Node.growChild (Node.mk [(2 : Nat)] [.mk [1] [], .mk [3] []]) 0 1
        (FreeList.mk 32 [])).1.toList =
      Node.toList (Node.mk [(2 : Nat)] [.mk [1] [], .mk [3] []])) := by
  have hw : Node.wfB 1 3 true (Node.mk [(2 : Nat)] [.mk [1] [], .mk [3] []]) =
      true := by
    simp [Node.wfB, Node.height_mk]
  have hsrt : SortedL natLess
      (Node.toList (Node.mk [(2 : Nat)] [.mk [1] [], .mk [3] []])) := by
    rw [toList_pair]
    simp only [Node.toList_leaf]
    show List.Pairwise (fun a b => natLess a b = true) [1, 2, 3]
    decide
  have hidx : RIdx natLess .removeItem 1
      (Node.mk [(2 : Nat)] [.mk [1] [], .mk [3] []]) = (0, false) := by
    simp [RIdx, find, searchIdx, sortSearch, searchLoop, natLess]
  have hp : PoolEmpty (FreeList.mk 32 ([] : List (Node Nat))) := by
    simp [PoolEmpty]
  exact ⟨natLess_lawful, le_rfl, rfl, hw, hsrt, by simp, by decide, by decide,
    by simp [List.getD], hidx, hp, Or.inl rfl,
    C8_grow_retry natLess_lawful 1 3 le_rfl rfl [2] [.mk [1] [], .mk [3] []] 0
      .removeItem 1 false (FreeList.mk 32 []) hw hsrt (by simp) (by decide)
      (by decide) (by simp [List.getD]) hidx hp (Or.inl rfl)⟩

/-- C9: a deep copy scans identically to its source at the moment of
cloning, its free list is a brand-new empty pool (no pool state is shared
with the source), its length matches, and it satisfies the tree invariant
itself; in this pure value model no node or element storage can be shared,
so a later mutation of either tree cannot affect the other's scan output. -/
theorem C9_clone {less : α → α → Bool} [Inhabited α] (hl : LawfulLess less)
    {degree : Nat} (h2 : 2 ≤ degree) (t : BTree α) (hR : Reachable less degree t)
    (dc : α → α) (hdc : ∀ a, dc a = a) :
    (t.DeepCopy dc).ascendList less = t.ascendList less ∧
    (t.DeepCopy dc).freelist = NewFreeList DefaultFreeListSize ∧
    (t.DeepCopy dc).length = t.length ∧
    Good less (t.DeepCopy dc) := by
  have hg := Reachable_Good hl h2 hR
  obtain ⟨hdeg, hpool, hroot⟩ := hg
  have hmapid : ∀ l : List α, l.map dc = l := by
    intro l
    induction l with
    | nil => rfl
    | cons a as ih => simp [hdc, ih]
  have hgc : Good less (t.DeepCopy dc) := by
    refine ⟨by simpa [BTree.DeepCopy] using hdeg, ?_, ?_⟩
    · intro sh hsh
      simp [BTree.DeepCopy, NewFreeList] at hsh
    · intro r hr
      simp only [BTree.DeepCopy, Option.some.injEq] at hr
      rcases hrt : t.root with _ | r0
      · rw [hrt] at hr
        simp only at hr
        subst hr
        refine ⟨?_, by simp [SortedL], by simp⟩
        rw [Node.wfB_iff]
        exact ⟨Or.inl rfl, by simp, Or.inl rfl, by simp⟩
      · rw [hrt] at hr
        simp only at hr
        have hro := hroot r0 hrt
        subst hr
        have hfacts := deepCopy_node_facts dc r0.height r0 le_rfl
        refine ⟨?_, ?_, ?_⟩
        · exact deepCopy_wfB dc r0.height true r0 le_rfl hro.1
        · rw [hfacts.1, hmapid]
          exact hro.2.1
        · intro hh
          cases r0 with
          | mk is0 cs0 =>
            rw [deepCopy_mk] at hh ⊢
            simp only [Node.items_mk, List.length_map] at hh
            have h5 := hro.2.2 (by simpa using hh)
            simp only [Node.children_mk] at h5 ⊢
            subst h5
            simp
  have hRL : (t.DeepCopy dc).rootList = t.rootList := by
    rcases hrt : t.root with _ | r0
    · simp [BTree.DeepCopy, BTree.rootList, hrt]
    · simp only [BTree.DeepCopy, BTree.rootList, hrt]
      rw [(deepCopy_node_facts dc r0.height r0 le_rfl).1, hmapid]
  refine ⟨?_, rfl, rfl, hgc⟩
  rw [ascendList_eq_rootList _ hgc, ascendList_eq_rootList _ ⟨hdeg, hpool, hroot⟩,
    hRL]

theorem C9_witness :
    LawfulLess natLess ∧ 2 ≤ 2 ∧
    Reachable natLess 2 (((New 2 : BTree Nat).ReplaceOrInsert natLess 10).1) ∧
    (∀ a : Nat, (fun b : Nat => b) a = a) ∧
    (((((New 2 : BTree Nat).ReplaceOrInsert natLess 10).1).DeepCopy
        (fun b : Nat => b)).ascendList natLess =
      (((New 2 : BTree Nat).ReplaceOrInsert natLess 10).1).ascendList natLess ∧
    ((((New 2 : BTree Nat).ReplaceOrInsert natLess 10).1).DeepCopy
        (fun b : Nat => b)).freelist = NewFreeList DefaultFreeListSize ∧
    ((((New 2 : BTree Nat).ReplaceOrInsert natLess 10).1).DeepCopy
        (fun b : Nat => b)).length =
      (((New 2 : BTree Nat).ReplaceOrInsert natLess 10).1).length ∧
    Good natLess ((((New 2 : BTree Nat).ReplaceOrInsert natLess 10).1).DeepCopy
      (fun b : Nat => b))) :=
  ⟨natLess_lawful, by decide, Reachable.ins (New 2) 10 Reachable.fresh,
    fun a => rfl,
    C9_clone natLess_lawful (by decide) _ (Reachable.ins (New 2) 10 Reachable.fresh)
      (fun b => b) (fun a => rfl)⟩

/-- C10: `Clear(b)` sets the length to zero and detaches the root for either
value of the flag, so every later scan and point query sees an empty tree;
the free list is exactly what it was before the call — no node is ever
returned to the pool, and the `addNodesToFreelist` flag has no effect at
all. -/
theorem C10_clear {less : α → α → Bool} [Inhabited α] (t : BTree α) (b : Bool)
    (x : α) :
    (t.Clear b).length = 0 ∧
    (t.Clear b).root = none ∧
    (t.Clear b).freelist = t.freelist ∧
    t.Clear b = t.Clear (!b) ∧
    BTree.Len (t.Clear b) = 0 ∧
    (t.Clear b).ascendList less = [] ∧
    (t.Clear b).descendList less = [] ∧
    (t.Clear b).Get less x = (default, false) :=
  ⟨rfl, rfl, rfl, rfl, rfl, rfl, rfl, rfl⟩

end BGo
